import Mathlib

/-!
Verification of the tracefile engine of the `info-process` repository
(`src/info_process/parser.py`, `src/info_process/merge.py`, `src/handlers.py`).

Shallow-embedding conventions used throughout this file:
* a Python string is modelled as a `List Char` (abbreviated `Str`);
* a text stream (`TextIO`) is modelled as the list of its lines, each line a
  `Str` without the trailing newline, exactly as produced by Python's
  line iteration;
* Python `int` is modelled as `Int`, non-negative counters as `Nat`;
* code that can raise (`ValueError` of `int`/unpacking, `assert`,
  `IndexError`) is modelled in `Option`, with `none` for the raised error.
-/

set_option maxRecDepth 10000
set_option synthInstance.maxSize 1024

namespace InfoProcess

abbrev Str := List Char

/-- Characters stripped by Python's `str.strip()` (ASCII whitespace). -/
def isPySpace (c : Char) : Bool :=
  c = ' ' || c = '\t' || c = '\n' || c = '\r' || c = Char.ofNat 11 || c = Char.ofNat 12

/-- Python `s.strip()`: drop leading and trailing whitespace. -/
def pystrip (s : Str) : Str :=
  ((s.dropWhile isPySpace).reverse.dropWhile isPySpace).reverse

/-- Python `s.split(sep, 1)` when at least one separator occurs: the part
before the first separator and the part after it; `none` when the separator
does not occur (where the Python callers crash unpacking the 1-element list). -/
def splitFirst (sep : Char) : Str → Option (Str × Str)
  | [] => none
  | c :: rest =>
    if c = sep then some ([], rest)
    else (splitFirst sep rest).map (fun pd => (c :: pd.1, pd.2))

/-- Python `s.split(sep)` (full split, result always nonempty). -/
def splitAll (sep : Char) : Str → List Str
  | [] => [[]]
  | c :: rest =>
    if c = sep then [] :: splitAll sep rest
    else
      match splitAll sep rest with
      | f :: fs => (c :: f) :: fs
      | [] => [[c]]

/-- Value of a list of decimal digits. -/
def digitsVal (s : Str) : Nat :=
  s.foldl (fun acc c => acc * 10 + (c.toNat - '0'.toNat)) 0

/-- Python `int(s)`: strip whitespace, optional sign, then decimal digits.
(The rarely used underscore digit grouping of Python 3 is not modelled.) -/
def pyInt (s : Str) : Option Int :=
  let t := pystrip s
  if t = [] then none
  else if t.headD ' ' = '-' then
    if t.tail ≠ [] ∧ t.tail.all Char.isDigit then some (-(digitsVal t.tail : Int)) else none
  else if t.headD ' ' = '+' then
    if t.tail ≠ [] ∧ t.tail.all Char.isDigit then some (digitsVal t.tail) else none
  else
    if t.all Char.isDigit then some (digitsVal t) else none

/-- Python `int(s)` followed by `assert _ >= 0`, as a `Nat`. -/
def pyIntNonneg (s : Str) : Option Nat :=
  (pyInt s).bind fun i => if i < 0 then none else some i.toNat

-- sanity checks of the utility layer
example : pystrip "  a b ".toList = "a b".toList := by decide
example : splitFirst ':' "DA:5,3".toList = some ("DA".toList, "5,3".toList) := by decide
example : splitAll ',' "5,0,t,1".toList = ["5".toList, "0".toList, "t".toList, "1".toList] := by decide
example : pyInt " -12 ".toList = some (-12) := by decide
example : pyIntNonneg "12".toList = some 12 := by decide
example : pyIntNonneg "-1".toList = none := by decide

/-- Association-list lookup; models Python `dict` lookup / `dict.get`
(our dictionaries are association lists in key insertion order). -/
def alookup {κ ν : Type} [DecidableEq κ] (k : κ) : List (κ × ν) → Option ν
  | [] => none
  | (k', v) :: t => if k' = k then some v else alookup k t

/-- Insertion into a Python-`dict`-like association list: an existing key keeps
its position and gets the new value, a new key is appended at the end. -/
def dictInsert {κ ν : Type} [DecidableEq κ] (d : List (κ × ν)) (k : κ) (v : ν) :
    List (κ × ν) :=
  match d with
  | [] => [(k, v)]
  | (k', v') :: t => if k' = k then (k, v) :: t else (k', v') :: dictInsert t k v

/-- Stable insertion of `x` into `acc`, after every element `le`-below-or-equal
to it. -/
def insertStable {α : Type} (le : α → α → Bool) (x : α) : List α → List α
  | [] => [x]
  | y :: ys => if le y x then y :: insertStable le x ys else x :: y :: ys

/-- Python `list.sort` with a comparison derived from the sort key: a stable
sort, modelled as a stable insertion sort. -/
def pySort {α : Type} (le : α → α → Bool) (xs : List α) : List α :=
  xs.foldl (fun acc x => insertStable le x acc) []

/-- Lexicographic comparison of strings by code point, Python `str <= str`. -/
def strLe : Str → Str → Bool
  | [], _ => true
  | _ :: _, [] => false
  | a :: as, b :: bs => a.toNat < b.toNat || (a.toNat = b.toNat && strLe as bs)

-- Decimal digits of a natural number (Python `str(n)` for `n >= 0`),
-- computed with explicit fuel so that it reduces in the kernel.
def digitChar (n : Nat) : Char := Char.ofNat ('0'.toNat + n)

def natDigits (fuel n : Nat) : Str :=
  match fuel with
  | 0 => []
  | fuel + 1 =>
    if n < 10 then [digitChar n]
    else natDigits fuel (n / 10) ++ [digitChar (n % 10)]

/-- Python `str(n)` for a non-negative integer. -/
def natStr (n : Nat) : Str := natDigits (n + 1) n

example : natStr 105 = "105".toList := by decide
example : natStr 0 = "0".toList := by decide

/-! ## Utility lemmas -/

/-- `optMap f xs` is `xs.mapM f` for the `Option` monad, written with
structural recursion so it is easy to reason about. -/
def optMap {α γ : Type} (f : α → Option γ) : List α → Option (List γ)
  | [] => some []
  | x :: xs => (f x).bind fun y => (optMap f xs).bind fun ys => some (y :: ys)

theorem optMap_nil {α γ : Type} (f : α → Option γ) : optMap f [] = some [] := rfl

theorem optMap_cons_some {α γ : Type} {f : α → Option γ} {x : α} {xs : List α}
    {ys : List γ} :
    optMap f (x :: xs) = some ys ↔
      ∃ y ys', f x = some y ∧ optMap f xs = some ys' ∧ ys = y :: ys' := by
  cases hx : f x <;> cases hxs : optMap f xs <;>
    simp [optMap, hx, hxs, Option.bind, eq_comm]

theorem optMap_append_some {α γ : Type} {f : α → Option γ} :
    ∀ {xs zs : List α} {w : List γ},
      optMap f (xs ++ zs) = some w ↔
        ∃ ys zs', optMap f xs = some ys ∧ optMap f zs = some zs' ∧ w = ys ++ zs' := by
  intro xs
  induction xs with
  | nil =>
    intro zs w
    constructor
    · intro h; exact ⟨[], w, rfl, h, rfl⟩
    · rintro ⟨ys, zs', hys, hzs, rfl⟩
      have hys' : ys = [] := by
        simpa [optMap, eq_comm] using hys
      subst hys'
      simpa using hzs
  | cons x xs ih =>
    intro zs w
    constructor
    · intro h
      rcases optMap_cons_some.mp h with ⟨y, ys', hx, hrest, rfl⟩
      rcases ih.mp hrest with ⟨as, bs, ha, hb, rfl⟩
      exact ⟨y :: as, bs, optMap_cons_some.mpr ⟨y, as, hx, ha, rfl⟩, hb, rfl⟩
    · rintro ⟨ys, zs', hys, hzs, rfl⟩
      rcases optMap_cons_some.mp hys with ⟨y, as, hx, ha, rfl⟩
      exact optMap_cons_some.mpr
        ⟨y, as ++ zs', hx, ih.mpr ⟨as, zs', ha, hzs, rfl⟩, rfl⟩

theorem optMap_some_length {α γ : Type} {f : α → Option γ} :
    ∀ {xs : List α} {ys : List γ}, optMap f xs = some ys → ys.length = xs.length := by
  intro xs
  induction xs with
  | nil =>
    intro ys h
    have : ys = [] := by simpa [optMap, eq_comm] using h
    simp [this]
  | cons x xs ih =>
    intro ys h
    rcases optMap_cons_some.mp h with ⟨y, ys', _, hys', rfl⟩
    simp [ih hys']

theorem optMap_some_get {α γ : Type} {f : α → Option γ} :
    ∀ {xs : List α} {ys : List γ}, optMap f xs = some ys →
      ∀ i x, xs.get? i = some x → ∃ y, ys.get? i = some y ∧ f x = some y := by
  intro xs
  induction xs with
  | nil => intro ys _ i x hx; simp at hx
  | cons a xs ih =>
    intro ys h i x hx
    rcases optMap_cons_some.mp h with ⟨y, ys', hy, hys', rfl⟩
    cases i with
    | zero => simp at hx; subst hx; exact ⟨y, rfl, hy⟩
    | succ j => exact ih hys' j x hx

theorem optMap_some_set {α γ : Type} {f : α → Option γ} :
    ∀ {xs : List α} {ys : List γ} (i : Nat) {x : α} {y : γ},
      optMap f xs = some ys → f x = some y →
        optMap f (xs.set i x) = some (ys.set i y) := by
  intro xs
  induction xs with
  | nil =>
    intro ys i x y h hx
    have : ys = [] := by simpa [optMap, eq_comm] using h
    subst this
    simp [optMap]
  | cons a xs ih =>
    intro ys i x y h hx
    rcases optMap_cons_some.mp h with ⟨b, ys', hb, hys', rfl⟩
    cases i with
    | zero =>
      simpa [List.set] using optMap_cons_some.mpr ⟨y, ys', hx, hys', rfl⟩
    | succ j =>
      simpa [List.set] using optMap_cons_some.mpr ⟨b, ys'.set j y, hb, ih j hys' hx, rfl⟩

theorem dropWhile_eq_self_of_all {α : Type} {p : α → Bool} :
    ∀ {l : List α}, (∀ c ∈ l, p c = false) → l.dropWhile p = l := by
  intro l h
  cases l with
  | nil => rfl
  | cons x xs => simp [List.dropWhile, h x (by simp)]

theorem pystrip_eq_self {l : Str} (h : ∀ c ∈ l, isPySpace c = false) : pystrip l = l := by
  unfold pystrip
  rw [dropWhile_eq_self_of_all h, dropWhile_eq_self_of_all (by
    intro c hc
    exact h c (by simpa using hc))]
  simp

theorem splitFirst_eq_some {sep : Char} :
    ∀ {s p d : Str}, splitFirst sep s = some (p, d) → s = p ++ sep :: d ∧ sep ∉ p := by
  intro s
  induction s with
  | nil => intro p d h; simp [splitFirst] at h
  | cons c rest ih =>
    intro p d h
    by_cases hc : c = sep
    · rw [splitFirst, if_pos hc] at h
      have h' := Option.some.inj h
      obtain rfl : p = [] := (congrArg Prod.fst h').symm
      obtain rfl : d = rest := (congrArg Prod.snd h').symm
      simp [hc]
    · rw [splitFirst, if_neg hc] at h
      rcases hs : splitFirst sep rest with _ | ⟨p', d'⟩ <;> rw [hs] at h
      · simp at h
      · simp only [Option.map_some'] at h
        have h' := Option.some.inj h
        obtain rfl : p = c :: p' := (congrArg Prod.fst h').symm
        obtain rfl : d = d' := (congrArg Prod.snd h').symm
        rcases ih hs with ⟨hrest, hnot⟩
        refine ⟨by simp [hrest], ?_⟩
        simp only [List.mem_cons, not_or]
        exact ⟨fun he => hc he.symm, hnot⟩

theorem splitFirst_append {sep : Char} :
    ∀ {p : Str} (d : Str), sep ∉ p → splitFirst sep (p ++ sep :: d) = some (p, d) := by
  intro p
  induction p with
  | nil => intro d _; simp [splitFirst]
  | cons c rest ih =>
    intro d h
    simp only [List.mem_cons, not_or] at h
    have hc : ¬c = sep := fun he => h.1 he.symm
    simp [splitFirst, hc, ih d h.2]

theorem splitFirst_eq_none {sep : Char} :
    ∀ {s : Str}, splitFirst sep s = none ↔ sep ∉ s := by
  intro s
  induction s with
  | nil => simp [splitFirst]
  | cons c rest ih =>
    by_cases hc : c = sep
    · simp [splitFirst, hc]
    · simp [splitFirst, hc, ih]
      intro h
      exact fun he => hc he.symm

/-! digits and `natStr` -/

theorem digitChar_spec {n : Nat} (h : n < 10) :
    (digitChar n).isDigit = true ∧ (digitChar n).toNat = 48 + n := by
  interval_cases n <;> exact ⟨by decide, by decide⟩

theorem digitsVal_append (l : Str) (c : Char) :
    digitsVal (l ++ [c]) = digitsVal l * 10 + (c.toNat - '0'.toNat) := by
  simp [digitsVal, List.foldl_append]

theorem natDigits_spec :
    ∀ (fuel n : Nat), n + 1 ≤ fuel →
      (natDigits fuel n).all Char.isDigit = true ∧ natDigits fuel n ≠ [] ∧
        digitsVal (natDigits fuel n) = n := by
  intro fuel
  induction fuel with
  | zero => intro n h; omega
  | succ fuel ih =>
    intro n h
    by_cases h10 : n < 10
    · rcases digitChar_spec h10 with ⟨hd, hv⟩
      refine ⟨by simp [natDigits, h10, hd], by simp [natDigits, h10], ?_⟩
      have hv' : digitsVal [digitChar n] = (digitChar n).toNat - '0'.toNat := by
        simp [digitsVal]
      rw [natDigits, if_pos h10, hv', hv]
      have h0 : '0'.toNat = 48 := by decide
      omega
    · have hrec : n / 10 + 1 ≤ fuel := by omega
      rcases ih (n / 10) hrec with ⟨ha, _, hv⟩
      have h10' : n % 10 < 10 := Nat.mod_lt _ (by omega)
      rcases digitChar_spec h10' with ⟨hd, hv'⟩
      refine ⟨?_, by simp [natDigits, h10], ?_⟩
      · simp only [natDigits, if_neg h10, List.all_append]
        simp_all
      · simp only [natDigits, if_neg h10]
        rw [digitsVal_append, hv, hv']
        have : '0'.toNat = 48 := by decide
        omega

theorem natStr_all_digits (n : Nat) : (natStr n).all Char.isDigit = true :=
  (natDigits_spec (n + 1) n (by omega)).1

theorem natStr_ne_nil (n : Nat) : natStr n ≠ [] :=
  (natDigits_spec (n + 1) n (by omega)).2.1

theorem natStr_val (n : Nat) : digitsVal (natStr n) = n :=
  (natDigits_spec (n + 1) n (by omega)).2.2

theorem isPySpace_of_isDigit {c : Char} (h : c.isDigit = true) : isPySpace c = false := by
  revert h
  simp only [isPySpace, Bool.or_eq_true, decide_eq_true_eq]
  intro h
  by_contra hs
  simp only [Bool.not_eq_false, Bool.or_eq_true, decide_eq_true_eq] at hs
  rcases hs with ((((h1 | h1) | h1) | h1) | h1) | h1 <;> subst h1 <;> simp_all

theorem not_dash_of_isDigit {c : Char} (h : c.isDigit = true) : c ≠ '-' := by
  rintro rfl; revert h; decide

theorem not_plus_of_isDigit {c : Char} (h : c.isDigit = true) : c ≠ '+' := by
  rintro rfl; revert h; decide

theorem not_comma_of_isDigit {c : Char} (h : c.isDigit = true) : c ≠ ',' := by
  rintro rfl; revert h; decide

theorem comma_notin_natStr (n : Nat) : ',' ∉ natStr n := by
  intro hmem
  have := natStr_all_digits n
  rw [List.all_eq_true] at this
  exact not_comma_of_isDigit (this _ hmem) rfl

theorem pyInt_all_digits {s : Str} (hne : s ≠ []) (hall : s.all Char.isDigit = true)
    (hstrip : pystrip s = s) : pyInt s = some (digitsVal s : Int) := by
  have hhead : s.headD ' ' ≠ '-' ∧ s.headD ' ' ≠ '+' := by
    rcases s with _ | ⟨c, ds⟩
    · simp at hne
    · have hcd : c.isDigit = true := by
        rw [List.all_eq_true] at hall
        exact hall c (by simp)
      exact ⟨by simpa using not_dash_of_isDigit hcd,
        by simpa using not_plus_of_isDigit hcd⟩
  unfold pyInt
  simp only [hstrip]
  rw [if_neg hne, if_neg hhead.1, if_neg hhead.2, if_pos hall]

theorem pyIntNonneg_natStr (n : Nat) : pyIntNonneg (natStr n) = some n := by
  have hall := natStr_all_digits n
  have hstrip : pystrip (natStr n) = natStr n := by
    apply pystrip_eq_self
    intro c hc
    rw [List.all_eq_true] at hall
    exact isPySpace_of_isDigit (hall c hc)
  rw [pyIntNonneg, pyInt_all_digits (natStr_ne_nil n) hall hstrip]
  simp [natStr_val]

/-! ## Payload schema parsers (`info_process/parser.py`) -/

/-- `parser.split_da`: `line_number, hit_count = entry.split(',', 1)` with
`int` conversions and the two `assert _ >= 0`. -/
def split_da (entry : Str) : Option (Nat × Nat) :=
  (splitFirst ',' entry).bind fun ab =>
  (pyIntNonneg ab.1).bind fun line_number =>
  (pyIntNonneg ab.2).bind fun hit_count =>
  some (line_number, hit_count)

/-- Parsed BRDA payload `line_number, block, name, hit_count`. -/
structure Brda where
  line : Nat
  block : Nat
  name : Str
  hit : Nat
deriving DecidableEq, Repr

/-- `parser.split_brda`: `entry.split(',', 3)` (so the fourth piece is the
whole remainder after the third comma) with `int` conversions and asserts;
`s0`, `s1`, `s2` are the (field, remainder) pairs of the three splits. -/
def split_brda (entry : Str) : Option Brda :=
  (splitFirst ',' entry).bind fun s0 =>
  (splitFirst ',' s0.2).bind fun s1 =>
  (splitFirst ',' s1.2).bind fun s2 =>
  (pyIntNonneg s0.1).bind fun line =>
  (pyIntNonneg s1.1).bind fun block =>
  (pyIntNonneg s2.2).bind fun hit =>
  some ⟨line, block, s2.1, hit⟩

/-- `parser.get_line_number_and_hit_count`:
`line_number, *_, hit_count = entry.split(',')` (needs at least two fields)
with `int` conversions and asserts. -/
def get_line_number_and_hit_count (entry : Str) : Option (Nat × Nat) :=
  match splitAll ',' entry with
  | [] => none
  | [_] => none
  | a :: rest =>
    (pyIntNonneg a).bind fun line_number =>
    (pyIntNonneg (rest.getLastD [])).bind fun hit_count =>
    some (line_number, hit_count)

example : split_da "5,3".toList = some (5, 3) := by decide
example : split_brda "5,0,toggle,1".toList = some ⟨5, 0, "toggle".toList, 1⟩ := by decide
example : split_brda "5,0,toggle".toList = none := by decide
example : get_line_number_and_hit_count "5,0,toggle,1".toList = some (5, 1) := by decide

/-! ## `merge.squash_misc` (`info_process/merge.py`) -/

/-- `merge.squash_misc`: `unique_entries = set(entries)`;
`assert len(unique_entries), '...'`; `return [entries[0]]`.
Note the assert condition is the set's truthiness (nonemptiness), so it can
only fire for an empty entry list; the result is the first entry. -/
def squash_misc (entries : List Str) : Option (List Str) :=
  let unique_entries := entries.dedup
  if unique_entries.length ≠ 0 then (entries.head?).map (fun e => [e]) else none

/-! ## Merge handlers (`info_process/merge.py`)

`create_merge_da_handler` / `create_merge_brda_handler` return stateful entry
handlers.  The closure `cache` maps `(record, key)` to the index, in the
record's entry list of the handled category, of the accumulated entry for
that key; since the cache is partitioned by record object, we model the
handler's action on one record.  A handler call either returns
the entry (which `Record._add_entry` then appends to the list) or merges it
into the cached slot in place and returns `None`. -/

/-- Rendered DA entry, `f'{line_number},{hit_count}'`. -/
def renderDA (p : Nat × Nat) : Str := natStr p.1 ++ (',' :: natStr p.2)

/-- Rendered BRDA entry, `f'{line},{block},{name},{hit}'`. -/
def renderBRDA (q : Brda) : Str :=
  natStr q.line ++ (',' :: (natStr q.block ++ (',' :: (q.name ++ (',' :: natStr q.hit)))))

/-- State of the DA merge handler for one record: the closure's `cache`
restricted to this record (line number to entry index) and the record's
`lines_per_prefix['DA']` list. -/
structure DAMergeState where
  cache : List (Nat × Nat)
  lines : List Str
deriving DecidableEq, Repr

/-- One call of the handler from `create_merge_da_handler` on payload
`params`, together with the append performed by `Record._add_entry` when the
handler returns the entry; `none` models a raised error
(`int` conversion failure or a failed assert). -/
def merge_da_step (st : DAMergeState) (params : Str) : Option DAMergeState :=
  (split_da params).bind fun own =>
  match alookup own.1 st.cache with
  | none =>
    some ⟨st.cache ++ [(own.1, st.lines.length)], st.lines ++ [params]⟩
  | some entry_number =>
    (st.lines.get? entry_number).bind fun entry =>
    (split_da entry).bind fun q =>
    if q.1 = own.1 then
      some ⟨st.cache, st.lines.set entry_number (renderDA (own.1, own.2 + q.2))⟩
    else none

/-- Folding the DA merge handler over a sequence of DA payloads (the `for`
loops of `Stream.merge` / `Record.add`, restricted to the `DA` entries of one
record). -/
def merge_da_run (st : DAMergeState) : List Str → Option DAMergeState
  | [] => some st
  | p :: ps => (merge_da_step st p).bind fun st' => merge_da_run st' ps

/-- All DA entries routed to one record during a merge, in order, fed through
the DA merge handler; returns the record's final `DA` entry list. -/
def merge_da (inputs : List Str) : Option (List Str) :=
  (merge_da_run ⟨[], []⟩ inputs).map (·.lines)

/-- State of the BRDA merge handler for one record: the closure's `cache`
restricted to this record, keyed by `(line_number, name)`. -/
structure BrdaMergeState where
  cache : List ((Nat × Str) × Nat)
  lines : List Str
deriving DecidableEq, Repr

/-- One call of the handler from `create_merge_brda_handler` on payload
`params`, with the append done by `Record._add_entry` when it returns the
entry; the merged slot gets hit-count sum and block-id max. -/
def merge_brda_step (st : BrdaMergeState) (params : Str) : Option BrdaMergeState :=
  (split_brda params).bind fun own =>
  match alookup (own.line, own.name) st.cache with
  | none =>
    some ⟨st.cache ++ [((own.line, own.name), st.lines.length)], st.lines ++ [params]⟩
  | some entry_number =>
    (st.lines.get? entry_number).bind fun entry =>
    (split_brda entry).bind fun q =>
    if q.line = own.line ∧ q.name = own.name then
      some ⟨st.cache,
        st.lines.set entry_number
          (renderBRDA ⟨own.line, max q.block own.block, own.name, own.hit + q.hit⟩)⟩
    else none

/-- Folding the BRDA merge handler over a sequence of BRDA payloads. -/
def merge_brda_run (st : BrdaMergeState) : List Str → Option BrdaMergeState
  | [] => some st
  | p :: ps => (merge_brda_step st p).bind fun st' => merge_brda_run st' ps

/-- All BRDA entries routed to one record during a merge, in order, fed
through the BRDA merge handler. -/
def merge_brda (inputs : List Str) : Option (List Str) :=
  (merge_brda_run ⟨[], []⟩ inputs).map (·.lines)

example : merge_da ["5,2".toList, "5,3".toList] = some ["5,5".toList] := by decide
example : merge_brda ["5,0,toggle,1".toList, "5,2,toggle,0".toList]
    = some ["5,2,toggle,1".toList] := by decide

/-! ## Specification of keyed accumulation

The two merge handlers implement, through the index cache, the same abstract
operation: fold the inputs into an accumulator list, combining each input
into the unique existing entry with the same key (in place), or else
appending it.  We prove this once, parametrised by the key and combiner. -/

section Keyed

variable {β κ : Type} [DecidableEq κ] (key : β → κ) (comb : β → β → β)

/-- Combine `p` into the (first) entry of `acc` with the key of `p`,
or append it. -/
def keyedInsert : List β → β → List β
  | [], p => [p]
  | q :: t, p => if key q = key p then comb p q :: t else q :: keyedInsert t p

/-- Accumulate a whole input sequence. -/
def keyedAcc (ps : List β) : List β := ps.foldl (keyedInsert key comb) []

theorem keyedInsert_keys (hcomb : ∀ p q, key q = key p → key (comb p q) = key p)
    (acc : List β) (p : β) :
    (keyedInsert key comb acc p).map key =
      if key p ∈ acc.map key then acc.map key else acc.map key ++ [key p] := by
  induction acc with
  | nil => simp [keyedInsert]
  | cons q t ih =>
    by_cases hq : key q = key p
    · rw [show keyedInsert key comb (q :: t) p = comb p q :: t by
        simp [keyedInsert, hq]]
      rw [if_pos (by simp [List.mem_cons]; exact Or.inl hq.symm)]
      simp [hcomb p q hq, hq]
    · have hne : key p ≠ key q := fun he => hq he.symm
      rw [show keyedInsert key comb (q :: t) p = q :: keyedInsert key comb t p by
        simp [keyedInsert, hq]]
      simp only [List.map_cons, ih]
      by_cases hmem : key p ∈ t.map key
      · rw [if_pos hmem, if_pos (by simp [List.mem_cons, hmem])]
      · rw [if_neg hmem, if_neg (by simp [List.mem_cons, hmem, hne])]
        simp

theorem keyedInsert_keys_nodup (hcomb : ∀ p q, key q = key p → key (comb p q) = key p)
    {acc : List β} (p : β)
    (h : (acc.map key).Nodup) : ((keyedInsert key comb acc p).map key).Nodup := by
  rw [keyedInsert_keys key comb hcomb]
  by_cases hmem : key p ∈ acc.map key
  · simpa [hmem] using h
  · rw [if_neg hmem]
    exact (List.perm_append_singleton _ _).nodup_iff.mpr (h.cons hmem)

theorem keyedInsert_not_mem {acc : List β} {p : β}
    (h : key p ∉ acc.map key) : keyedInsert key comb acc p = acc ++ [p] := by
  induction acc with
  | nil => simp [keyedInsert]
  | cons q t ih =>
    simp only [List.map_cons, List.mem_cons, not_or] at h
    have hne : ¬key q = key p := fun he => h.1 he.symm
    rw [show keyedInsert key comb (q :: t) p = q :: keyedInsert key comb t p by
      simp [keyedInsert, hne]]
    simp [ih h.2]

theorem keyedInsert_set {acc : List β} {p qi : β} {i : Nat}
    (hnd : (acc.map key).Nodup) (hi : acc.get? i = some qi) (hk : key qi = key p) :
    keyedInsert key comb acc p = acc.set i (comb p qi) := by
  induction acc generalizing i with
  | nil => simp at hi
  | cons q t ih =>
    cases i with
    | zero =>
      simp only [List.get?] at hi
      obtain rfl : q = qi := by injection hi
      simp [keyedInsert, hk]
    | succ j =>
      simp only [List.get?] at hi
      have hmem : qi ∈ t := List.get?_mem hi
      have hq : ¬key q = key p := by
        intro he
        rw [← hk] at he
        simp only [List.map_cons, List.nodup_cons] at hnd
        exact hnd.1 (he ▸ List.mem_map_of_mem key hmem)
      simp only [List.map_cons, List.nodup_cons] at hnd
      rw [show keyedInsert key comb (q :: t) p = q :: keyedInsert key comb t p by
        simp [keyedInsert, hq]]
      simp [ih hnd.2 hi]

theorem mem_eq_of_nodup_keys {acc : List β} {a b : β}
    (hnd : (acc.map key).Nodup) (ha : a ∈ acc) (hb : b ∈ acc) (hk : key a = key b) :
    a = b := by
  induction acc with
  | nil => simp at ha
  | cons q t ih =>
    simp only [List.map_cons, List.nodup_cons] at hnd
    rcases List.mem_cons.mp ha with rfl | ha' <;> rcases List.mem_cons.mp hb with rfl | hb'
    · rfl
    · exact absurd (hk ▸ List.mem_map_of_mem key hb') hnd.1
    · exact absurd (hk ▸ List.mem_map_of_mem key ha') hnd.1
    · exact ih hnd.2 ha' hb'

theorem mem_set_nodup_keys {acc : List β} {x q : β} {i : Nat}
    (hnd : (acc.map key).Nodup) (hi : i < acc.length)
    (hx : key x = key (acc.get ⟨i, hi⟩)) (hq : q ∈ acc.set i x) :
    q = x ∨ (q ∈ acc ∧ key q ≠ key x) := by
  induction acc generalizing i with
  | nil => simp at hi
  | cons a t ih =>
    simp only [List.map_cons, List.nodup_cons] at hnd
    cases i with
    | zero =>
      simp only [List.set] at hq
      rcases List.mem_cons.mp hq with rfl | hq'
      · exact Or.inl rfl
      · refine Or.inr ⟨List.mem_cons_of_mem a hq', ?_⟩
        intro he
        rw [hx] at he
        simp only [List.get] at he
        exact hnd.1 (he ▸ List.mem_map_of_mem key hq')
    | succ j =>
      simp only [List.set] at hq
      have hj : j < t.length := by simpa using hi
      have hget : (a :: t).get ⟨j + 1, hi⟩ = t.get ⟨j, hj⟩ := rfl
      rcases List.mem_cons.mp hq with hqa | hq'
      · refine Or.inr ⟨by rw [hqa]; exact List.mem_cons_self _ _, ?_⟩
        intro he
        rw [hqa, hx, hget] at he
        exact hnd.1 (by rw [he]; exact List.mem_map_of_mem key (t.get_mem _ _))
      · rcases ih hnd.2 hj (by rw [hx, hget]) hq' with h | ⟨h1, h2⟩
        · exact Or.inl h
        · exact Or.inr ⟨List.mem_cons_of_mem a h1, h2⟩

theorem keyedAcc_keys_nodup (hcomb : ∀ p q, key q = key p → key (comb p q) = key p)
    (ps : List β) : ((keyedAcc key comb ps).map key).Nodup := by
  suffices h : ∀ acc, ((acc : List β).map key).Nodup →
      ((ps.foldl (keyedInsert key comb) acc).map key).Nodup by
    exact h [] (by simp)
  induction ps with
  | nil => intro acc hacc; simpa using hacc
  | cons p ps ih =>
    intro acc hacc
    exact ih _ (keyedInsert_keys_nodup key comb hcomb p hacc)

theorem keyedAcc_keys_mem (hcomb : ∀ p q, key q = key p → key (comb p q) = key p)
    (ps : List β) (k : κ) :
    k ∈ (keyedAcc key comb ps).map key ↔ k ∈ ps.map key := by
  suffices h : ∀ acc, k ∈ (ps.foldl (keyedInsert key comb) acc).map key ↔
      k ∈ acc.map key ∨ k ∈ ps.map key by
    simpa using h []
  induction ps with
  | nil => intro acc; simp
  | cons p ps ih =>
    intro acc
    rw [List.foldl_cons, ih]
    rw [keyedInsert_keys key comb hcomb]
    by_cases hmem : key p ∈ acc.map key
    · by_cases hk : k = key p <;> simp [hmem, hk] <;> tauto
    · by_cases hk : k = key p <;> simp [hmem, hk] <;> tauto

theorem countP_keys_nodup (acc : List β) (k : κ) (hnd : (acc.map key).Nodup) :
    acc.countP (fun q => key q = k) = if k ∈ acc.map key then 1 else 0 := by
  induction acc with
  | nil => simp
  | cons q t ih =>
    simp only [List.map_cons, List.nodup_cons] at hnd
    by_cases hq : key q = k
    · rw [List.countP_cons_of_pos _ _ (by simpa using hq), ih hnd.2]
      rw [if_neg (by rw [← hq]; exact hnd.1)]
      simp [hq]
    · rw [List.countP_cons_of_neg _ _ (by simpa using hq), ih hnd.2]
      simp only [List.map_cons, List.mem_cons]
      by_cases hmem : k ∈ t.map key
      · rw [if_pos hmem, if_pos (Or.inr hmem)]
      · have hno : ¬(k = key q ∨ k ∈ t.map key) := by
          rintro (he | he)
          · exact hq he.symm
          · exact hmem he
        rw [if_neg hmem, if_neg hno]

end Keyed

/-- The cache of a merge handler closure, modelled: the keys in first-seen
order, paired with consecutive indices starting at `i`. -/
def cacheOf {κ : Type} (i : Nat) : List κ → List (κ × Nat)
  | [] => []
  | k :: t => (k, i) :: cacheOf (i + 1) t

theorem cacheOf_append {κ : Type} (i : Nat) (ks : List κ) (k : κ) :
    cacheOf i (ks ++ [k]) = cacheOf i ks ++ [(k, i + ks.length)] := by
  induction ks generalizing i with
  | nil => simp [cacheOf]
  | cons a t ih =>
    show (a, i) :: cacheOf (i + 1) (t ++ [k])
        = (a, i) :: (cacheOf (i + 1) t ++ [(k, i + (t.length + 1))])
    rw [ih (i + 1)]
    have h : i + 1 + t.length = i + (t.length + 1) := by omega
    rw [h]

theorem alookup_cacheOf_none {κ : Type} [DecidableEq κ] (k : κ) :
    ∀ (i : Nat) (ks : List κ), alookup k (cacheOf i ks) = none ↔ k ∉ ks := by
  intro i ks
  induction ks generalizing i with
  | nil => simp [cacheOf, alookup]
  | cons a t ih =>
    by_cases ha : a = k
    · simp [cacheOf, alookup, ha]
    · simp only [cacheOf, alookup, if_neg ha, ih (i + 1), List.mem_cons, not_or]
      constructor
      · intro h; exact ⟨fun he => ha he.symm, h⟩
      · intro h; exact h.2

theorem alookup_cacheOf_some {κ : Type} [DecidableEq κ] {k : κ} :
    ∀ {i j : Nat} {ks : List κ}, alookup k (cacheOf i ks) = some j →
      i ≤ j ∧ ks.get? (j - i) = some k := by
  intro i j ks
  induction ks generalizing i with
  | nil => intro h; simp [cacheOf, alookup] at h
  | cons a t ih =>
    intro h
    by_cases ha : a = k
    · simp only [cacheOf, alookup, if_pos ha] at h
      obtain rfl : i = j := by injection h
      simp [ha]
    · simp only [cacheOf, alookup, if_neg ha] at h
      rcases ih h with ⟨hij, hget⟩
      refine ⟨by omega, ?_⟩
      have : j - i = (j - (i + 1)) + 1 := by omega
      rw [this]
      simpa using hget

theorem list_set_same {α : Type} :
    ∀ {l : List α} {i : Nat} {a : α}, l.get? i = some a → l.set i a = l := by
  intro l
  induction l with
  | nil => intro i a h; simp at h
  | cons x t ih =>
    intro i a h
    cases i with
    | zero =>
      simp only [List.get?] at h
      obtain rfl : x = a := by injection h
      simp
    | succ j =>
      simp only [List.get?] at h
      simp [ih h]

/-! ## Parsing of rendered entries -/

theorem split_da_renderDA (p : Nat × Nat) : split_da (renderDA p) = some p := by
  unfold split_da renderDA
  rw [splitFirst_append (natStr p.2) (comma_notin_natStr p.1)]
  simp [pyIntNonneg_natStr]

theorem split_brda_renderBRDA {q : Brda} (h : ',' ∉ q.name) :
    split_brda (renderBRDA q) = some q := by
  unfold split_brda renderBRDA
  rw [splitFirst_append _ (comma_notin_natStr q.line)]
  simp only [Option.some_bind]
  rw [splitFirst_append _ (comma_notin_natStr q.block)]
  simp only [Option.some_bind]
  rw [splitFirst_append _ h]
  simp only [Option.some_bind]
  simp [pyIntNonneg_natStr]

theorem split_brda_inv {e : Str} {q : Brda} (h : split_brda e = some q) :
    ∃ r0 r1 f0 f1 rest,
      splitFirst ',' e = some (f0, r0) ∧ splitFirst ',' r0 = some (f1, r1) ∧
      splitFirst ',' r1 = some (q.name, rest) ∧ pyIntNonneg f0 = some q.line ∧
      pyIntNonneg f1 = some q.block ∧ pyIntNonneg rest = some q.hit := by
  simp only [split_brda, Option.bind_eq_some] at h
  obtain ⟨⟨f0, r0⟩, hs0, ⟨f1, r1⟩, hs1, ⟨nm, rest⟩, hs2, l, hv0, b, hv1, hv, hv2, hq⟩ := h
  obtain rfl : (⟨l, b, nm, hv⟩ : Brda) = q := by injection hq
  exact ⟨r0, r1, f0, f1, rest, hs0, hs1, hs2, hv0, hv1, hv2⟩

theorem split_brda_name_comma_free {e : Str} {q : Brda} (h : split_brda e = some q) :
    ',' ∉ q.name := by
  obtain ⟨r0, r1, f0, f1, rest, _, _, hs2, _⟩ := split_brda_inv h
  exact (splitFirst_eq_some hs2).2

/-! ## C2: the DA merge accumulates per line -/

def daKey (p : Nat × Nat) : Nat := p.1

def daComb (p q : Nat × Nat) : Nat × Nat := (p.1, p.2 + q.2)

/-- Abstract result of accumulating parsed DA entries. -/
def daSpec (ps : List (Nat × Nat)) : List (Nat × Nat) := keyedAcc daKey daComb ps

/-- Total hit count contributed for line `l` by the inputs. -/
def sumHits (l : Nat) (ps : List (Nat × Nat)) : Nat :=
  (ps.map (fun p => if p.1 = l then p.2 else 0)).sum

theorem daComb_key : ∀ p q : Nat × Nat, daKey q = daKey p → daKey (daComb p q) = daKey p :=
  fun _ _ _ => rfl

theorem daSpec_append (ps : List (Nat × Nat)) (p : Nat × Nat) :
    daSpec (ps ++ [p]) = keyedInsert daKey daComb (daSpec ps) p := by
  simp [daSpec, keyedAcc, List.foldl_append]

theorem sumHits_append (l : Nat) (ps : List (Nat × Nat)) (p : Nat × Nat) :
    sumHits l (ps ++ [p]) = sumHits l ps + (if p.1 = l then p.2 else 0) := by
  simp [sumHits]

theorem sumHits_not_mem {l : Nat} :
    ∀ {ps : List (Nat × Nat)}, l ∉ ps.map Prod.fst → sumHits l ps = 0 := by
  intro ps
  induction ps with
  | nil => intro _; rfl
  | cons p t ih =>
    intro h
    simp only [List.map_cons, List.mem_cons, not_or] at h
    have hne : ¬p.1 = l := fun he => h.1 he.symm
    simp [sumHits, hne]
    simpa [sumHits] using ih h.2

theorem daSpec_val :
    ∀ (ps : List (Nat × Nat)), ∀ q ∈ daSpec ps, q.2 = sumHits q.1 ps := by
  intro ps
  induction ps using List.reverseRecOn with
  | nil => intro q hq; simp [daSpec, keyedAcc] at hq
  | append_singleton ps p ih =>
    intro q hq
    rw [daSpec_append] at hq
    have hnd : ((daSpec ps).map daKey).Nodup := keyedAcc_keys_nodup _ _ daComb_key ps
    by_cases hmem : daKey p ∈ (daSpec ps).map daKey
    · rcases List.mem_map.mp hmem with ⟨qi, hqi, hk⟩
      rcases List.mem_iff_get.mp hqi with ⟨⟨i, hi⟩, rfl⟩
      have hgets : (daSpec ps).get? i = some ((daSpec ps).get ⟨i, hi⟩) :=
        List.get?_eq_get hi
      rw [keyedInsert_set daKey daComb hnd hgets hk] at hq
      have hx : daKey (daComb p ((daSpec ps).get ⟨i, hi⟩))
          = daKey ((daSpec ps).get ⟨i, hi⟩) := by
        rw [daComb_key p _ hk, hk]
      rcases mem_set_nodup_keys daKey hnd hi hx hq with rfl | ⟨hmem', hne⟩
      · have hval := ih _ (List.get_mem (daSpec ps) i hi)
        have hkey : ((daSpec ps).get ⟨i, hi⟩).1 = p.1 := hk
        rw [hkey] at hval
        have h1 : (daComb p ((daSpec ps).get ⟨i, hi⟩)).2
            = p.2 + ((daSpec ps).get ⟨i, hi⟩).2 := rfl
        have h2 : (daComb p ((daSpec ps).get ⟨i, hi⟩)).1 = p.1 := rfl
        rw [h1, h2, sumHits_append, if_pos rfl, hval]
        omega
      · have hval := ih _ hmem'
        have hne' : ¬p.1 = q.1 := by
          intro he
          apply hne
          show daKey q = daKey (daComb p ((daSpec ps).get ⟨i, hi⟩))
          rw [show daKey (daComb p ((daSpec ps).get ⟨i, hi⟩)) = p.1 from rfl]
          exact he.symm
        rw [sumHits_append, if_neg hne']
        omega
    · rw [keyedInsert_not_mem daKey daComb hmem] at hq
      rcases List.mem_append.mp hq with hq' | hq'
      · have hval := ih _ hq'
        have hne' : ¬p.1 = q.1 := by
          intro he
          apply hmem
          rw [show daKey p = p.1 from rfl, he]
          exact List.mem_map_of_mem daKey hq'
        rw [sumHits_append, if_neg hne']
        omega
      · obtain rfl : q = p := by simpa using hq'
        have h0 : sumHits q.1 ps = 0 := by
          apply sumHits_not_mem
          intro hc
          exact hmem ((keyedAcc_keys_mem daKey daComb daComb_key ps (daKey q)).mpr hc)
        rw [sumHits_append, if_pos rfl]
        omega

/-- Representation invariant tying the handler state to the abstract
accumulator. -/
def RepDA (st : DAMergeState) (ps : List (Nat × Nat)) : Prop :=
  optMap split_da st.lines = some (daSpec ps) ∧
    st.cache = cacheOf 0 ((daSpec ps).map daKey)

theorem merge_da_step_rep {st : DAMergeState} {ps : List (Nat × Nat)} {param : Str}
    {p : Nat × Nat} (hrep : RepDA st ps) (hp : split_da param = some p) :
    ∃ st', merge_da_step st param = some st' ∧ RepDA st' (ps ++ [p]) := by
  obtain ⟨hlines, hcache⟩ := hrep
  have hnd : ((daSpec ps).map daKey).Nodup := keyedAcc_keys_nodup _ _ daComb_key ps
  have hlen : (daSpec ps).length = st.lines.length := optMap_some_length hlines
  obtain ⟨l, h⟩ := p
  cases hlk : alookup l st.cache with
  | none =>
    refine ⟨⟨st.cache ++ [(l, st.lines.length)], st.lines ++ [param]⟩, ?_, ?_, ?_⟩
    · simp only [merge_da_step, hp, Option.some_bind]
      rw [show alookup ((l, h) : Nat × Nat).1 st.cache = none from hlk]
    · have hnot : daKey (l, h) ∉ (daSpec ps).map daKey := by
        rw [hcache] at hlk
        exact (alookup_cacheOf_none _ 0 _).mp hlk
      rw [daSpec_append, keyedInsert_not_mem daKey daComb hnot]
      exact optMap_append_some.mpr ⟨_, _, hlines, by simp [optMap, hp], rfl⟩
    · have hnot : daKey (l, h) ∉ (daSpec ps).map daKey := by
        rw [hcache] at hlk
        exact (alookup_cacheOf_none _ 0 _).mp hlk
      rw [daSpec_append, keyedInsert_not_mem daKey daComb hnot]
      rw [List.map_append, hcache]
      have hl : (([(l, h)] : List (Nat × Nat)).map daKey) = [l] := rfl
      rw [hl, cacheOf_append]
      simp [hlen, List.length_map]
  | some i =>
    have hlk' := hlk
    rw [hcache] at hlk'
    have hsome := alookup_cacheOf_some hlk'
    rw [Nat.sub_zero] at hsome
    have hkget : ((daSpec ps).map daKey).get? i = some l := hsome.2
    rw [List.get?_map] at hkget
    rcases hq : (daSpec ps).get? i with _ | qi
    · rw [hq] at hkget; simp at hkget
    · rw [hq] at hkget
      have hkey : daKey qi = l := by simpa using hkget
      have hilt : i < st.lines.length := by
        rw [← hlen]
        exact (List.get?_eq_some.mp hq).1
      obtain ⟨entry, hentry⟩ : ∃ entry, st.lines.get? i = some entry :=
        ⟨st.lines.get ⟨i, hilt⟩, List.get?_eq_get hilt⟩
      obtain ⟨y, hy, hyp⟩ := optMap_some_get hlines i entry hentry
      have hyq : y = qi := by
        rw [hq] at hy
        injection hy with h'
        exact h'.symm
      rw [hyq] at hyp
      refine ⟨⟨st.cache, st.lines.set i (renderDA (l, h + qi.2))⟩, ?_, ?_, ?_⟩
      · simp only [merge_da_step, hp, Option.some_bind]
        rw [show alookup ((l, h) : Nat × Nat).1 st.cache = some i from hlk]
        simp only [hentry, Option.some_bind, hyp]
        rw [if_pos (show qi.1 = ((l, h) : Nat × Nat).1 from hkey)]
      · rw [daSpec_append, keyedInsert_set daKey daComb hnd hq (by simpa [daKey] using hkey)]
        have hcombeq : daComb (l, h) qi = (l, h + qi.2) := by
          simp [daComb]
        rw [hcombeq]
        exact optMap_some_set i hlines (split_da_renderDA (l, h + qi.2))
      · rw [daSpec_append, keyedInsert_set daKey daComb hnd hq (by simpa [daKey] using hkey)]
        have hmapset : ((daSpec ps).set i (daComb (l, h) qi)).map daKey
            = ((daSpec ps).map daKey).set i l := by
          rw [List.map_set]
          rfl
        rw [hmapset]
        rw [list_set_same hsome.2, hcache]

theorem merge_da_run_rep :
    ∀ {inputs : List Str} {qs : List (Nat × Nat)} {st : DAMergeState}
      {ps : List (Nat × Nat)},
      RepDA st ps → optMap split_da inputs = some qs →
        ∃ st', merge_da_run st inputs = some st' ∧ RepDA st' (ps ++ qs) := by
  intro inputs
  induction inputs with
  | nil =>
    intro qs st ps hrep h
    have : qs = [] := by simpa [optMap, eq_comm] using h
    subst this
    exact ⟨st, rfl, by simpa using hrep⟩
  | cons param rest ih =>
    intro qs st ps hrep h
    rcases optMap_cons_some.mp h with ⟨p, qs', hp, hrest, rfl⟩
    obtain ⟨st1, hstep, hrep1⟩ := merge_da_step_rep hrep hp
    obtain ⟨st', hrun, hrep'⟩ := ih hrep1 hrest
    refine ⟨st', ?_, by simpa using hrep'⟩
    simp only [merge_da_run, hstep, Option.some_bind]
    exact hrun

example : optMap split_da ["5,2".toList, "5,3".toList] = some [(5, 2), (5, 3)] := by
  decide

/-- C2: merging DA inputs accumulates by line number: the merged list
parses, its line numbers are pairwise distinct, each input line number has
exactly one merged entry, and that entry's hit count is the sum of all
inputs' hit counts for the line (the cached slot is updated in place, never
appended). -/
theorem merge_da_correct (inputs : List Str) (ps : List (Nat × Nat))
    (hp : optMap split_da inputs = some ps) :
    ∃ lines qs, merge_da inputs = some lines ∧ optMap split_da lines = some qs ∧
      (qs.map Prod.fst).Nodup ∧
      ∀ l ∈ ps.map Prod.fst,
        qs.countP (fun q => q.1 = l) = 1 ∧
        ∀ q ∈ qs, q.1 = l → q.2 = sumHits l ps := by
  have hrep0 : RepDA ⟨[], []⟩ [] := ⟨rfl, rfl⟩
  obtain ⟨st', hrun, hrep'⟩ := merge_da_run_rep hrep0 hp
  refine ⟨st'.lines, daSpec ps, ?_, ?_, ?_, ?_⟩
  · simp [merge_da, hrun]
  · simpa using hrep'.1
  · exact keyedAcc_keys_nodup _ _ daComb_key ps
  · intro l hl
    constructor
    · have hc := countP_keys_nodup daKey (daSpec ps) l
        (keyedAcc_keys_nodup _ _ daComb_key ps)
      have hm : l ∈ (daSpec ps).map daKey :=
        (keyedAcc_keys_mem daKey daComb daComb_key ps l).mpr hl
      rw [if_pos hm] at hc
      exact hc
    · intro q hq hql
      have := daSpec_val ps q hq
      rw [hql] at this
      exact this

/-! ## C3: the BRDA merge accumulates per (line, name) -/

def brdaKey (q : Brda) : Nat × Str := (q.line, q.name)

def brdaComb (p q : Brda) : Brda := ⟨p.line, max q.block p.block, p.name, p.hit + q.hit⟩

/-- Abstract result of accumulating parsed BRDA entries. -/
def brdaSpec (ps : List Brda) : List Brda := keyedAcc brdaKey brdaComb ps

/-- Total hit count contributed for key `k` by the inputs. -/
def sumHitsB (k : Nat × Str) (ps : List Brda) : Nat :=
  (ps.map (fun p => if brdaKey p = k then p.hit else 0)).sum

/-- Maximum block id contributed for key `k` by the inputs. -/
def maxBlockB (k : Nat × Str) (ps : List Brda) : Nat :=
  (ps.map (fun p => if brdaKey p = k then p.block else 0)).foldl max 0

theorem brdaComb_key :
    ∀ p q : Brda, brdaKey q = brdaKey p → brdaKey (brdaComb p q) = brdaKey p :=
  fun _ _ _ => rfl

theorem brdaSpec_append (ps : List Brda) (p : Brda) :
    brdaSpec (ps ++ [p]) = keyedInsert brdaKey brdaComb (brdaSpec ps) p := by
  simp [brdaSpec, keyedAcc, List.foldl_append]

theorem sumHitsB_append (k : Nat × Str) (ps : List Brda) (p : Brda) :
    sumHitsB k (ps ++ [p]) = sumHitsB k ps + (if brdaKey p = k then p.hit else 0) := by
  simp [sumHitsB]

theorem maxBlockB_append (k : Nat × Str) (ps : List Brda) (p : Brda) :
    maxBlockB k (ps ++ [p]) = max (maxBlockB k ps) (if brdaKey p = k then p.block else 0) := by
  simp [maxBlockB, List.foldl_append]

theorem sumHitsB_not_mem {k : Nat × Str} :
    ∀ {ps : List Brda}, k ∉ ps.map brdaKey → sumHitsB k ps = 0 := by
  intro ps
  induction ps with
  | nil => intro _; rfl
  | cons p t ih =>
    intro h
    simp only [List.map_cons, List.mem_cons, not_or] at h
    have hne : ¬brdaKey p = k := fun he => h.1 he.symm
    simp [sumHitsB, hne]
    simpa [sumHitsB] using ih h.2

theorem maxBlockB_not_mem {k : Nat × Str} :
    ∀ {ps : List Brda}, k ∉ ps.map brdaKey → maxBlockB k ps = 0 := by
  intro ps
  induction ps using List.reverseRecOn with
  | nil => intro _; rfl
  | append_singleton t p ih =>
    intro h
    simp only [List.map_append, List.mem_append] at h
    have h1 : k ∉ t.map brdaKey := fun hc => h (Or.inl hc)
    have h2 : ¬brdaKey p = k := by
      intro he
      exact h (Or.inr (by simp [he]))
    rw [maxBlockB_append, ih h1, if_neg h2]
    simp

theorem brdaSpec_val :
    ∀ (ps : List Brda), ∀ q ∈ brdaSpec ps,
      q.hit = sumHitsB (brdaKey q) ps ∧ q.block = maxBlockB (brdaKey q) ps := by
  intro ps
  induction ps using List.reverseRecOn with
  | nil => intro q hq; simp [brdaSpec, keyedAcc] at hq
  | append_singleton ps p ih =>
    intro q hq
    rw [brdaSpec_append] at hq
    have hnd : ((brdaSpec ps).map brdaKey).Nodup := keyedAcc_keys_nodup _ _ brdaComb_key ps
    by_cases hmem : brdaKey p ∈ (brdaSpec ps).map brdaKey
    · rcases List.mem_map.mp hmem with ⟨qi, hqi, hk⟩
      rcases List.mem_iff_get.mp hqi with ⟨⟨i, hi⟩, rfl⟩
      have hgets : (brdaSpec ps).get? i = some ((brdaSpec ps).get ⟨i, hi⟩) :=
        List.get?_eq_get hi
      rw [keyedInsert_set brdaKey brdaComb hnd hgets hk] at hq
      have hx : brdaKey (brdaComb p ((brdaSpec ps).get ⟨i, hi⟩))
          = brdaKey ((brdaSpec ps).get ⟨i, hi⟩) := by
        rw [brdaComb_key p _ hk, hk]
      rcases mem_set_nodup_keys brdaKey hnd hi hx hq with rfl | ⟨hmem', hne⟩
      · obtain ⟨hval, hblk⟩ := ih _ (List.get_mem (brdaSpec ps) i hi)
        rw [hk] at hval hblk
        have hkc : brdaKey (brdaComb p ((brdaSpec ps).get ⟨i, hi⟩)) = brdaKey p := rfl
        have h1 : (brdaComb p ((brdaSpec ps).get ⟨i, hi⟩)).hit
            = p.hit + ((brdaSpec ps).get ⟨i, hi⟩).hit := rfl
        have h2 : (brdaComb p ((brdaSpec ps).get ⟨i, hi⟩)).block
            = max ((brdaSpec ps).get ⟨i, hi⟩).block p.block := rfl
        constructor
        · rw [h1, hkc, sumHitsB_append, if_pos rfl, hval]
          omega
        · rw [h2, hkc, maxBlockB_append, if_pos rfl, hblk]
      · obtain ⟨hval, hblk⟩ := ih _ hmem'
        have hne' : ¬brdaKey p = brdaKey q := by
          intro he
          apply hne
          rw [show brdaKey (brdaComb p ((brdaSpec ps).get ⟨i, hi⟩)) = brdaKey p from rfl]
          exact he.symm
        constructor
        · rw [sumHitsB_append, if_neg hne', hval]
          omega
        · rw [maxBlockB_append, if_neg hne', hblk]
          simp
    · rw [keyedInsert_not_mem brdaKey brdaComb hmem] at hq
      rcases List.mem_append.mp hq with hq' | hq'
      · obtain ⟨hval, hblk⟩ := ih _ hq'
        have hne' : ¬brdaKey p = brdaKey q := by
          intro he
          apply hmem
          rw [he]
          exact List.mem_map_of_mem brdaKey hq'
        constructor
        · rw [sumHitsB_append, if_neg hne', hval]
          omega
        · rw [maxBlockB_append, if_neg hne', hblk]
          simp
      · obtain rfl : q = p := by simpa using hq'
        have hnin : brdaKey q ∉ ps.map brdaKey := by
          intro hc
          exact hmem ((keyedAcc_keys_mem brdaKey brdaComb brdaComb_key ps (brdaKey q)).mpr hc)
        constructor
        · rw [sumHitsB_append, if_pos rfl, sumHitsB_not_mem hnin]
          omega
        · rw [maxBlockB_append, if_pos rfl, maxBlockB_not_mem hnin]
          simp

/-- Representation invariant for the BRDA handler state. -/
def RepBRDA (st : BrdaMergeState) (ps : List Brda) : Prop :=
  optMap split_brda st.lines = some (brdaSpec ps) ∧
    st.cache = cacheOf 0 ((brdaSpec ps).map brdaKey)

theorem merge_brda_step_rep {st : BrdaMergeState} {ps : List Brda} {param : Str}
    {p : Brda} (hrep : RepBRDA st ps) (hp : split_brda param = some p) :
    ∃ st', merge_brda_step st param = some st' ∧ RepBRDA st' (ps ++ [p]) := by
  obtain ⟨hlines, hcache⟩ := hrep
  have hnd : ((brdaSpec ps).map brdaKey).Nodup := keyedAcc_keys_nodup _ _ brdaComb_key ps
  have hlen : (brdaSpec ps).length = st.lines.length := optMap_some_length hlines
  cases hlk : alookup (p.line, p.name) st.cache with
  | none =>
    refine ⟨⟨st.cache ++ [((p.line, p.name), st.lines.length)], st.lines ++ [param]⟩,
      ?_, ?_, ?_⟩
    · simp only [merge_brda_step, hp, Option.some_bind]
      rw [hlk]
    · have hnot : brdaKey p ∉ (brdaSpec ps).map brdaKey := by
        rw [hcache] at hlk
        exact (alookup_cacheOf_none _ 0 _).mp hlk
      rw [brdaSpec_append, keyedInsert_not_mem brdaKey brdaComb hnot]
      exact optMap_append_some.mpr ⟨_, _, hlines, by simp [optMap, hp], rfl⟩
    · have hnot : brdaKey p ∉ (brdaSpec ps).map brdaKey := by
        rw [hcache] at hlk
        exact (alookup_cacheOf_none _ 0 _).mp hlk
      rw [brdaSpec_append, keyedInsert_not_mem brdaKey brdaComb hnot]
      rw [List.map_append, hcache]
      have hl : (([p] : List Brda).map brdaKey) = [(p.line, p.name)] := rfl
      rw [hl, cacheOf_append]
      simp [hlen, List.length_map]
  | some i =>
    have hlk' := hlk
    rw [hcache] at hlk'
    have hsome := alookup_cacheOf_some hlk'
    rw [Nat.sub_zero] at hsome
    have hkget : ((brdaSpec ps).map brdaKey).get? i = some (p.line, p.name) := hsome.2
    rw [List.get?_map] at hkget
    rcases hq : (brdaSpec ps).get? i with _ | qi
    · rw [hq] at hkget; simp at hkget
    · rw [hq] at hkget
      have hkey : brdaKey qi = (p.line, p.name) := by simpa using hkget
      have hkl : qi.line = p.line := congrArg Prod.fst hkey
      have hkn : qi.name = p.name := congrArg Prod.snd hkey
      have hilt : i < st.lines.length := by
        rw [← hlen]
        exact (List.get?_eq_some.mp hq).1
      obtain ⟨entry, hentry⟩ : ∃ entry, st.lines.get? i = some entry :=
        ⟨st.lines.get ⟨i, hilt⟩, List.get?_eq_get hilt⟩
      obtain ⟨y, hy, hyp⟩ := optMap_some_get hlines i entry hentry
      have hyq : y = qi := by
        rw [hq] at hy
        injection hy with h'
        exact h'.symm
      rw [hyq] at hyp
      refine ⟨⟨st.cache,
        st.lines.set i (renderBRDA ⟨p.line, max qi.block p.block, p.name, p.hit + qi.hit⟩)⟩,
        ?_, ?_, ?_⟩
      · simp only [merge_brda_step, hp, Option.some_bind]
        rw [hlk]
        simp only [hentry, Option.some_bind, hyp]
        rw [if_pos ⟨hkl, hkn⟩]
      · rw [brdaSpec_append, keyedInsert_set brdaKey brdaComb hnd hq hkey]
        have hcombeq : brdaComb p qi = ⟨p.line, max qi.block p.block, p.name, p.hit + qi.hit⟩ :=
          rfl
        rw [hcombeq]
        apply optMap_some_set i hlines
        apply split_brda_renderBRDA
        show ',' ∉ p.name
        exact split_brda_name_comma_free hp
      · rw [brdaSpec_append, keyedInsert_set brdaKey brdaComb hnd hq hkey]
        have hmapset : ((brdaSpec ps).set i (brdaComb p qi)).map brdaKey
            = ((brdaSpec ps).map brdaKey).set i (p.line, p.name) := by
          rw [List.map_set]
          rfl
        rw [hmapset]
        rw [list_set_same hsome.2, hcache]

theorem merge_brda_run_rep :
    ∀ {inputs : List Str} {qs : List Brda} {st : BrdaMergeState} {ps : List Brda},
      RepBRDA st ps → optMap split_brda inputs = some qs →
        ∃ st', merge_brda_run st inputs = some st' ∧ RepBRDA st' (ps ++ qs) := by
  intro inputs
  induction inputs with
  | nil =>
    intro qs st ps hrep h
    have : qs = [] := by simpa [optMap, eq_comm] using h
    subst this
    exact ⟨st, rfl, by simpa using hrep⟩
  | cons param rest ih =>
    intro qs st ps hrep h
    rcases optMap_cons_some.mp h with ⟨p, qs', hp, hrest, rfl⟩
    obtain ⟨st1, hstep, hrep1⟩ := merge_brda_step_rep hrep hp
    obtain ⟨st', hrun, hrep'⟩ := ih hrep1 hrest
    refine ⟨st', ?_, by simpa using hrep'⟩
    simp only [merge_brda_run, hstep, Option.some_bind]
    exact hrun

/-- C3: merging BRDA inputs accumulates by `(line, branch name)`: the
merged list parses, its keys are pairwise distinct, each input key has
exactly one merged entry, whose hit count is the sum and whose block id is
the maximum of all contributions for that key. -/
theorem merge_brda_correct (inputs : List Str) (ps : List Brda)
    (hp : optMap split_brda inputs = some ps) :
    ∃ lines qs, merge_brda inputs = some lines ∧ optMap split_brda lines = some qs ∧
      (qs.map brdaKey).Nodup ∧
      ∀ k ∈ ps.map brdaKey,
        qs.countP (fun q => brdaKey q = k) = 1 ∧
        ∀ q ∈ qs, brdaKey q = k → q.hit = sumHitsB k ps ∧ q.block = maxBlockB k ps := by
  have hrep0 : RepBRDA ⟨[], []⟩ [] := ⟨rfl, rfl⟩
  obtain ⟨st', hrun, hrep'⟩ := merge_brda_run_rep hrep0 hp
  refine ⟨st'.lines, brdaSpec ps, ?_, ?_, ?_, ?_⟩
  · simp [merge_brda, hrun]
  · simpa using hrep'.1
  · exact keyedAcc_keys_nodup _ _ brdaComb_key ps
  · intro k hk
    constructor
    · have hc := countP_keys_nodup brdaKey (brdaSpec ps) k
        (keyedAcc_keys_nodup _ _ brdaComb_key ps)
      have hm : k ∈ (brdaSpec ps).map brdaKey :=
        (keyedAcc_keys_mem brdaKey brdaComb brdaComb_key ps k).mpr hk
      rw [if_pos hm] at hc
      exact hc
    · intro q hq hql
      have := brdaSpec_val ps q hq
      rw [hql] at this
      exact this

/-! ## C8: `merge.sort_brda_names`

`SPLIT_REGEX = re.compile('([0-9]+)')`; `SPLIT_REGEX.split(name)` yields the
maximal decimal-digit runs of `name` alternating with the (possibly empty)
non-digit pieces around them.  `convert` zero-pads a digit run to
`FILL_SIZE = 20` and asserts its length is at most 20; the key is
`(line_number, joined converted pieces)` and `entries.sort(key=...)` is a
stable sort computing every key. -/

/-- One step of splitting at maximal digit runs: the leading non-digit piece,
then the leading digit run, then recurse; explicit fuel keeps the recursion
structural. -/
def digitSplitGo (fuel : Nat) (s : Str) : List Str :=
  match fuel with
  | 0 => [s]
  | fuel + 1 =>
    let nd := s.takeWhile (fun c => !c.isDigit)
    let rest := s.dropWhile (fun c => !c.isDigit)
    if rest = [] then [nd]
    else
      let dg := rest.takeWhile Char.isDigit
      let rest2 := rest.dropWhile Char.isDigit
      nd :: dg :: digitSplitGo fuel rest2

/-- `re.split('([0-9]+)', s)`. -/
def digitSplit (s : Str) : List Str := digitSplitGo (s.length + 1) s

/-- `merge.sort_brda_names.convert`: `value.zfill(20)` for digit runs, with
`assert len(value) <= FILL_SIZE`; other pieces pass through. -/
def convert (value : Str) : Option Str :=
  if value ≠ [] ∧ value.all Char.isDigit then
    if value.length ≤ 20 then some (List.replicate (20 - value.length) '0' ++ value)
    else none
  else some value

/-- The transformed name: `''.join(convert(x) for x in SPLIT_REGEX.split(name))`. -/
def convertName (name : Str) : Option Str :=
  (optMap convert (digitSplit name)).map List.join

/-- `merge.sort_brda_names.key`: `(line_number, converted name)`. -/
def sort_brda_names_key (entry : Str) : Option (Nat × Str) :=
  (split_brda entry).bind fun q =>
  (convertName q.name).map fun nm => (q.line, nm)

/-- Python's comparison on the `(int, str)` sort keys. -/
def brdaNameLe (a b : Nat × Str) : Bool :=
  a.1 < b.1 || (a.1 = b.1 && strLe a.2 b.2)

/-- `merge.sort_brda_names`: compute every entry's key (any failure aborts
the sort) and stably sort the entries by key. -/
def sort_brda_names (entries : List Str) : Option (List Str) :=
  (optMap (fun e => (sort_brda_names_key e).map fun k => (k, e)) entries).map
    fun keyed => (pySort (fun x y => brdaNameLe x.1 y.1) keyed).map (·.2)

example :
    sort_brda_names
      ["5,0,toggle_2_0,1".toList, "5,1,toggle_10_1,1".toList, "5,2,toggle_1_0,1".toList]
    = some
      ["5,2,toggle_1_0,1".toList, "5,0,toggle_2_0,1".toList, "5,1,toggle_10_1,1".toList] := by
  decide

theorem optMap_none_of_mem {α γ : Type} {f : α → Option γ} :
    ∀ {xs : List α} {x : α}, x ∈ xs → f x = none → optMap f xs = none := by
  intro xs
  induction xs with
  | nil => intro x hx; simp at hx
  | cons a t ih =>
    intro x hx hfx
    rcases List.mem_cons.mp hx with rfl | hx'
    · simp [optMap, hfx]
    · cases hfa : f a
      · simp [optMap, hfa]
      · simp [optMap, hfa, ih hx' hfx]

theorem digitsVal_lt {s : Str} (h : s.all Char.isDigit = true) :
    digitsVal s < 10 ^ s.length := by
  induction s using List.reverseRecOn with
  | nil => simp [digitsVal]
  | append_singleton l c ih =>
    rw [List.all_append] at h
    simp only [Bool.and_eq_true] at h
    have hd : c.toNat - '0'.toNat ≤ 9 := by
      have hc : c.isDigit = true := by simpa using h.2
      simp only [Char.isDigit, Bool.and_eq_true, decide_eq_true_eq] at hc
      have h9 : c.toNat ≤ 57 := hc.2
      have h48 : '0'.toNat = 48 := by decide
      omega
    have hv := ih h.1
    rw [digitsVal_append, List.length_append]
    have hp : (10 : Nat) ^ (l.length + 1) = 10 ^ l.length * 10 := pow_succ 10 l.length
    simp only [List.length_singleton]
    omega

theorem convert_big_run_none {r : Str} (hall : r.all Char.isDigit = true)
    (hbig : 10 ^ 20 ≤ digitsVal r) : convert r = none := by
  have hne : r ≠ [] := by
    intro he
    rw [he] at hbig
    have : digitsVal ([] : Str) = 0 := rfl
    omega
  have hlen : ¬r.length ≤ 20 := by
    intro hle
    have := digitsVal_lt hall
    have hm : (10 : Nat) ^ r.length ≤ 10 ^ 20 :=
      Nat.pow_le_pow_right (by omega) hle
    omega
  rw [convert, if_pos ⟨hne, hall⟩, if_neg hlen]

theorem sort_brda_names_overflow {entries : List Str} {e : Str} {q : Brda} {r : Str}
    (he : e ∈ entries) (hq : split_brda e = some q) (hr : r ∈ digitSplit q.name)
    (hall : r.all Char.isDigit = true) (hbig : 10 ^ 20 ≤ digitsVal r) :
    sort_brda_names entries = none := by
  have hconv : convertName q.name = none := by
    rw [convertName, optMap_none_of_mem hr (convert_big_run_none hall hbig)]
    rfl
  have hkey : sort_brda_names_key e = none := by
    rw [sort_brda_names_key, hq, Option.some_bind, hconv]
    rfl
  rw [sort_brda_names,
    optMap_none_of_mem he (by rw [hkey]; rfl)]
  rfl

/-! ## C5: `merge.squash_misc` silently picks the first of several values -/

/-- C5: `squash_misc` on two distinct accumulated values returns the first
one instead of failing: `assert len(unique_entries)` is truthy for every
nonempty set, so disagreeing values for a single-valued prefix are silently
squashed to the first. -/
theorem squash_misc_two_values :
    squash_misc ["a.c".toList, "b.c".toList] = some ["a.c".toList] ∧
      ("a.c".toList : Str) ≠ "b.c".toList := by
  decide

/-! ## Diff engine (`Record.diff` in `info_process/parser.py`)

A record's data is its `lines_per_prefix` mapping together with the prefix
order, modelled as one association list from category tag to the ordered
payload list (Python dicts keep insertion order). -/

/-- `lines_per_prefix` (and its insertion order) of one `Record`. -/
abbrev RecordData := List (Str × List Str)

/-- Python `s.rsplit(sep, 1)` when the separator occurs: the part before the
last separator and the part after it; `none` when it does not occur (the
caller's 2-element unpacking then crashes). -/
def rsplitLast (sep : Char) (s : Str) : Option (Str × Str) :=
  (splitFirst sep s.reverse).map fun pd => (pd.2.reverse, pd.1.reverse)

/-- `Record.diff.CoverageLine`: `base, hit = line.rsplit(',', 1)`;
stores `base` and `line_hit = int(hit) > 0`. -/
def coverage_line (line : Str) : Option (Str × Bool) :=
  (rsplitLast ',' line).bind fun bh =>
  (pyInt bh.2).map fun hit => (bh.1, decide (0 < hit))

/-- `CoverageLine.__repr__`: `f'{base},{int(line_hit)}'`. -/
def coverage_line_repr (c : Str × Bool) : Str :=
  c.1 ++ (',' :: [if c.2 then '1' else '0'])

/-- `Record.diff.keep_line`: keep when there is no base line or the
covered/uncovered state differs. -/
def keep_line (old : Option (Str × Bool)) (new : Str × Bool) : Bool :=
  match old with
  | none => true
  | some o => o.2 != new.2

/-- `Record.diff.new_value`: `assert old_line.base == new_line.base` when a
base line exists, then `str(new_line)`. -/
def new_value (old : Option (Str × Bool)) (new : Str × Bool) : Option Str :=
  match old with
  | none => some (coverage_line_repr new)
  | some o => if o.1 = new.1 then some (coverage_line_repr new) else none

/-- The diff key of an entry: `x.split(",")[0]`, its leading field. -/
def entryKey (x : Str) : Str := (splitAll ',' x).headD []

/-- `{key(entry): entry for entry in list}`. -/
def dictOf (key : Str → Str) (entries : List Str) : List (Str × Str) :=
  entries.foldl (fun d e => dictInsert d (key e) e) []

/-- `parser.match_second_prefix_entries_by`: `{}` unless both records carry
the category; otherwise, for each key of the second dict in order, the pair
of the optional first entry and the second entry. -/
def match_second_prefix_entries_by (first second : RecordData) (pfx : Str) :
    List (Str × (Option Str × Str)) :=
  match alookup pfx first, alookup pfx second with
  | some fes, some ses =>
    let first_entries := dictOf entryKey fes
    let second_entries := dictOf entryKey ses
    second_entries.map fun kv => (kv.1, (alookup kv.1 first_entries, kv.2))
  | _, _ => []

/-- `Record.diff.match_coverage_lines_by`: instantiate `CoverageLine` on
every matched pair (any parse failure raises). -/
def match_coverage_lines_by (first second : RecordData) (pfx : Str) :
    Option (List (Str × (Option (Str × Bool) × (Str × Bool)))) :=
  optMap (fun kv =>
    match kv.2.1 with
    | none => (coverage_line kv.2.2).map fun n => (kv.1, (none, n))
    | some o =>
      (coverage_line o).bind fun oc =>
      (coverage_line kv.2.2).map fun n => (kv.1, (some oc, n)))
    (match_second_prefix_entries_by first second pfx)

/-- `Record.diff.generate_new_lines_from`. -/
def generate_new_lines_from (first second : RecordData) (pfx : Str) :
    Option (List Str) :=
  if alookup pfx second = none then some []
  else
    (match_coverage_lines_by first second pfx).bind fun pairs =>
    optMap (fun kv => new_value kv.2.1 kv.2.2)
      (pairs.filter fun kv => keep_line kv.2.1 kv.2.2)

/-- `Record.diff`: replace the other record's `DA` and `BRDA` lists by the
diffed lists (all other categories are untouched). -/
def record_diff (self other : RecordData) : Option (List Str × List Str) :=
  (generate_new_lines_from self other "DA".toList).bind fun da =>
  (generate_new_lines_from self other "BRDA".toList).bind fun brda =>
  some (da, brda)

example :
    generate_new_lines_from [("DA".toList, ["10,0".toList])]
      [("DA".toList, ["10,3".toList])] "DA".toList = some ["10,1".toList] := by
  decide

example :
    generate_new_lines_from [("DA".toList, ["11,5".toList])]
      [("DA".toList, ["11,7".toList])] "DA".toList = some [] := by
  decide

example :
    generate_new_lines_from [("BRDA".toList, ["5,0,foo,1".toList])]
      [("BRDA".toList, ["5,1,bar,2".toList])] "BRDA".toList = some [] := by
  decide

/-! ### Dictionary and `optMap` helper lemmas for the diff proofs -/

theorem alookup_mem {κ ν : Type} [DecidableEq κ] {k : κ} {v : ν} :
    ∀ {d : List (κ × ν)}, alookup k d = some v → (k, v) ∈ d := by
  intro d
  induction d with
  | nil => intro h; simp [alookup] at h
  | cons kv t ih =>
    intro h
    obtain ⟨k', v'⟩ := kv
    by_cases hk : k' = k
    · rw [alookup, if_pos hk] at h
      obtain rfl : v' = v := by injection h
      subst hk
      exact List.mem_cons_self _ _
    · rw [alookup, if_neg hk] at h
      exact List.mem_cons_of_mem _ (ih h)

theorem dictInsert_mem {κ ν : Type} [DecidableEq κ] {k : κ} {v : ν} {kv : κ × ν} :
    ∀ {d : List (κ × ν)}, kv ∈ dictInsert d k v → kv ∈ d ∨ kv = (k, v) := by
  intro d
  induction d with
  | nil => intro h; simp [dictInsert] at h; exact Or.inr h
  | cons kv' t ih =>
    intro h
    obtain ⟨k', v'⟩ := kv'
    by_cases hk : k' = k
    · rw [dictInsert, if_pos hk] at h
      rcases List.mem_cons.mp h with rfl | h'
      · exact Or.inr rfl
      · exact Or.inl (List.mem_cons_of_mem _ h')
    · rw [dictInsert, if_neg hk] at h
      rcases List.mem_cons.mp h with rfl | h'
      · exact Or.inl (List.mem_cons_self _ _)
      · rcases ih h' with h'' | h''
        · exact Or.inl (List.mem_cons_of_mem _ h'')
        · exact Or.inr h''

theorem dictInsert_not_mem {κ ν : Type} [DecidableEq κ] {k : κ} (v : ν) :
    ∀ {d : List (κ × ν)}, k ∉ d.map Prod.fst → dictInsert d k v = d ++ [(k, v)] := by
  intro d
  induction d with
  | nil => intro _; rfl
  | cons kv t ih =>
    intro h
    obtain ⟨k', v'⟩ := kv
    simp only [List.map_cons, List.mem_cons, not_or] at h
    have hk : ¬k' = k := fun he => h.1 he.symm
    rw [dictInsert, if_neg hk, ih h.2]
    rfl

theorem dictOf_pairs {key : Str → Str} :
    ∀ {es : List Str} {kv : Str × Str}, kv ∈ dictOf key es →
      key kv.2 = kv.1 ∧ kv.2 ∈ es := by
  suffices h : ∀ (es : List Str) (acc : List (Str × Str)) (kv : Str × Str),
      kv ∈ es.foldl (fun d e => dictInsert d (key e) e) acc →
        kv ∈ acc ∨ (key kv.2 = kv.1 ∧ kv.2 ∈ es) by
    intro es kv hm
    rcases h es [] kv hm with hacc | hgood
    · simp at hacc
    · exact hgood
  intro es
  induction es with
  | nil => intro acc kv h; exact Or.inl h
  | cons e t ih =>
    intro acc kv h
    rcases ih _ kv h with hacc | hgood
    · rcases dictInsert_mem hacc with h' | h'
      · exact Or.inl h'
      · subst h'
        exact Or.inr ⟨rfl, List.mem_cons_self _ _⟩
    · exact Or.inr ⟨hgood.1, List.mem_cons_of_mem _ hgood.2⟩

theorem dictOf_append (key : Str → Str) (es : List Str) (e : Str) :
    dictOf key (es ++ [e]) = dictInsert (dictOf key es) (key e) e := by
  simp [dictOf, List.foldl_append]

theorem dictOf_nodup {key : Str → Str} :
    ∀ {es : List Str}, (es.map key).Nodup →
      dictOf key es = es.map fun e => (key e, e) := by
  intro es
  induction es using List.reverseRecOn with
  | nil => intro _; rfl
  | append_singleton t e ih =>
    intro h
    have hnd : (t.map key).Nodup := by
      rw [List.map_append] at h
      exact h.sublist (by simp)
    have hnm : key e ∉ t.map key := by
      rw [List.map_append, List.nodup_append] at h
      exact fun hc => h.2.2 hc (by simp)
    rw [dictOf_append, ih hnd, dictInsert_not_mem]
    · simp
    · rw [show (t.map fun e => (key e, e)).map Prod.fst = t.map key by
        rw [List.map_map]; rfl]
      exact hnm

theorem optMap_map_some {α γ δ : Type} {f : γ → Option δ} {g : α → γ} {h : α → δ} :
    ∀ {l : List α}, (∀ x ∈ l, f (g x) = some (h x)) →
      optMap f (l.map g) = some (l.map h) := by
  intro l
  induction l with
  | nil => intro _; rfl
  | cons x t ih =>
    intro hp
    simp only [List.map_cons]
    rw [show optMap f (g x :: t.map g)
        = (f (g x)).bind fun y => (optMap f (t.map g)).bind fun ys => some (y :: ys) from rfl]
    rw [hp x (List.mem_cons_self _ _), ih (fun a ha => hp a (List.mem_cons_of_mem _ ha))]
    rfl

theorem optMap_some_mem {α γ : Type} {f : α → Option γ} :
    ∀ {xs : List α} {ys : List γ} {x : α}, optMap f xs = some ys → x ∈ xs →
      ∃ y, f x = some y ∧ y ∈ ys := by
  intro xs
  induction xs with
  | nil => intro ys x _ hx; simp at hx
  | cons a t ih =>
    intro ys x h hx
    rcases optMap_cons_some.mp h with ⟨y, ys', hy, hys', rfl⟩
    rcases List.mem_cons.mp hx with rfl | hx'
    · exact ⟨y, hy, List.mem_cons_self _ _⟩
    · obtain ⟨z, hz, hzm⟩ := ih hys' hx'
      exact ⟨z, hz, List.mem_cons_of_mem _ hzm⟩

theorem filterMap_eq_map_filter {α δ : Type} {spec : α → Option δ} {p : α → Bool}
    {r : α → δ} :
    ∀ {l : List α}, (∀ e ∈ l, spec e = if p e then some (r e) else none) →
      l.filterMap spec = (l.filter p).map r := by
  intro l
  induction l with
  | nil => intro _; rfl
  | cons e t ih =>
    intro hp
    have he := hp e (List.mem_cons_self _ _)
    have ht := ih fun a ha => hp a (List.mem_cons_of_mem _ ha)
    cases hpe : p e
    · simp [List.filterMap_cons, he, hpe, List.filter_cons, ht]
    · simp [List.filterMap_cons, he, hpe, List.filter_cons, ht]

/-! ### C6/C7 theorems about `generate_new_lines_from` -/

/-- Parsed coverage line with a default (used only under parse-success
hypotheses). -/
def coverD (e : Str) : Str × Bool := (coverage_line e).getD ([], false)

/-- The per-entry rule the diff implements, for one entry of the `other`
record: normalize the hit count to the covered bit and keep the entry iff
there is no base entry under its key or the covered bit changed. -/
def diffEntrySpec (fes : List Str) (e : Str) : Option Str :=
  (coverage_line e).bind fun n =>
  match alookup (entryKey e) (dictOf entryKey fes) with
  | none => some (coverage_line_repr n)
  | some b =>
    (coverage_line b).bind fun o =>
    if o.2 != n.2 then some (coverage_line_repr n) else none

/-- C6 (amended): within a matched record the diff keys entries by their
leading field; when the base record lacks the category every entry of the
other record is discarded, and otherwise an entry of `other` is kept exactly
when no base entry shares its key or the covered bit differs — and a kept
entry is re-rendered as `base,0/1` with its hit count normalized to the
covered bit, not verbatim. -/
theorem generate_new_lines_spec (first second : RecordData) (pfx : Str)
    (ses : List Str)
    (hs : alookup pfx second = some ses)
    (hsk : (ses.map entryKey).Nodup)
    (hsc : ∀ e ∈ ses, ∃ c, coverage_line e = some c)
    (hfirst : ∀ fes, alookup pfx first = some fes →
      (∀ b ∈ fes, ∃ c, coverage_line b = some c) ∧
      (∀ e ∈ ses, ∀ b oc nc, alookup (entryKey e) (dictOf entryKey fes) = some b →
        coverage_line b = some oc → coverage_line e = some nc →
          oc.2 ≠ nc.2 → oc.1 = nc.1)) :
    generate_new_lines_from first second pfx =
      some (match alookup pfx first with
            | none => []
            | some fes => ses.filterMap (diffEntrySpec fes)) := by
  have hsnn : ¬alookup pfx second = none := by rw [hs]; simp
  cases hfl : alookup pfx first with
  | none =>
    rw [generate_new_lines_from, if_neg hsnn]
    rw [match_coverage_lines_by, match_second_prefix_entries_by, hfl, hs]
    rfl
  | some fes =>
    obtain ⟨hfc, hbase⟩ := hfirst fes hfl
    have hcov : ∀ e ∈ ses, coverage_line e = some (coverD e) := by
      intro e he
      obtain ⟨c, hc⟩ := hsc e he
      simp [coverD, hc]
    have hcovf : ∀ b ∈ fes, coverage_line b = some (coverD b) := by
      intro b hb
      obtain ⟨c, hc⟩ := hfc b hb
      simp [coverD, hc]
    -- the matched pairs, one per entry of `ses`
    have hmatch : match_second_prefix_entries_by first second pfx
        = ses.map fun e =>
            (entryKey e, (alookup (entryKey e) (dictOf entryKey fes), e)) := by
      rw [match_second_prefix_entries_by, hfl, hs]
      simp only
      rw [dictOf_nodup hsk, List.map_map]
      rfl
    -- the per-entry old/new coverage data
    have hstage : match_coverage_lines_by first second pfx
        = some (ses.map fun e =>
            (entryKey e,
              ((alookup (entryKey e) (dictOf entryKey fes)).map coverD, coverD e))) := by
      rw [match_coverage_lines_by, hmatch]
      apply optMap_map_some
      intro e he
      cases hb : alookup (entryKey e) (dictOf entryKey fes) with
      | none => simp only [hb, Option.map_none', hcov e he]; rfl
      | some b =>
        have hbm : b ∈ fes := (dictOf_pairs (alookup_mem hb)).2
        simp only [hb, Option.map_some', hcovf b hbm, Option.some_bind, hcov e he]
    rw [generate_new_lines_from, if_neg hsnn, hstage, Option.some_bind]
    have hfilter :
        (ses.map fun e =>
            (entryKey e,
              ((alookup (entryKey e) (dictOf entryKey fes)).map coverD, coverD e))).filter
          (fun kv => keep_line kv.2.1 kv.2.2)
        = (ses.filter fun e =>
            keep_line ((alookup (entryKey e) (dictOf entryKey fes)).map coverD)
              (coverD e)).map fun e =>
            (entryKey e,
              ((alookup (entryKey e) (dictOf entryKey fes)).map coverD, coverD e)) := by
      rw [List.filter_map]
      rfl
    rw [hfilter]
    have hnv : ∀ e ∈ ses.filter fun e =>
        keep_line ((alookup (entryKey e) (dictOf entryKey fes)).map coverD) (coverD e),
        new_value ((alookup (entryKey e) (dictOf entryKey fes)).map coverD) (coverD e)
          = some (coverage_line_repr (coverD e)) := by
      intro e he
      have hem := List.mem_of_mem_filter he
      have hkeep := List.of_mem_filter he
      cases hb : alookup (entryKey e) (dictOf entryKey fes) with
      | none => rfl
      | some b =>
        rw [hb] at hkeep
        have hbm : b ∈ fes := (dictOf_pairs (alookup_mem hb)).2
        have hne : (coverD b).2 ≠ (coverD e).2 := by
          simpa [keep_line] using hkeep
        have heq : (coverD b).1 = (coverD e).1 :=
          hbase e hem b (coverD b) (coverD e) hb (hcovf b hbm) (hcov e hem) hne
        rw [Option.map_some']
        rw [new_value, if_pos heq]
    rw [optMap_map_some hnv]
    congr 1
    symm
    apply filterMap_eq_map_filter
    intro e he
    rw [diffEntrySpec, hcov e he, Option.some_bind]
    cases hb : alookup (entryKey e) (dictOf entryKey fes) with
    | none => simp [keep_line]
    | some b =>
      have hbm : b ∈ fes := (dictOf_pairs (alookup_mem hb)).2
      simp [keep_line, hcovf b hbm]

/-- C7 (amended): the structural base-equality assertion runs only on kept
pairs: when a key is present in both records, its covered state flips and
the non-hit-count fields are not byte-identical, the diff fails. -/
theorem generate_new_lines_mismatch (first second : RecordData) (pfx : Str)
    {fes ses : List Str} {k : Str} {b e : Str} {oc nc : Str × Bool}
    (hf : alookup pfx first = some fes) (hs : alookup pfx second = some ses)
    (hbd : alookup k (dictOf entryKey fes) = some b)
    (hed : alookup k (dictOf entryKey ses) = some e)
    (hoc : coverage_line b = some oc) (hnc : coverage_line e = some nc)
    (hflip : oc.2 ≠ nc.2) (hbases : oc.1 ≠ nc.1) :
    generate_new_lines_from first second pfx = none := by
  have hsnn : ¬alookup pfx second = none := by rw [hs]; simp
  rw [generate_new_lines_from, if_neg hsnn]
  cases hmcl : match_coverage_lines_by first second pfx with
  | none => rfl
  | some pairs =>
    have hpair : (k, (some b, e)) ∈ match_second_prefix_entries_by first second pfx := by
      rw [match_second_prefix_entries_by, hf, hs]
      simp only
      have hkv : (k, e) ∈ dictOf entryKey ses := alookup_mem hed
      have := List.mem_map_of_mem
        (fun kv => (kv.1, (alookup kv.1 (dictOf entryKey fes), kv.2))) hkv
      simpa [hbd] using this
    obtain ⟨y, hy, hym⟩ := optMap_some_mem hmcl hpair
    rw [show (((k, (some b, e)) : Str × (Option Str × Str)).2.1) = some b from rfl] at hy
    simp only [hoc, Option.some_bind, hnc, Option.map_some'] at hy
    obtain rfl : (k, (some oc, nc)) = y := by injection hy
    rw [Option.some_bind]
    have hkm : (k, (some oc, nc)) ∈ pairs.filter fun kv => keep_line kv.2.1 kv.2.2 := by
      apply List.mem_filter_of_mem hym
      simpa [keep_line] using hflip
    apply optMap_none_of_mem hkm
    rw [show new_value (some oc) nc = if oc.1 = nc.1 then some (coverage_line_repr nc)
        else none from rfl]
    rw [if_neg hbases]

/-! ## Parser, loader and serializer (`Stream` in `info_process/parser.py`)

A text stream is modelled as the list of its lines.  `Stream.load` with the
default `source_file_prefix = "SF"` and no handlers installed is modelled
end to end: `_get_record_lines` is a fold of a per-line step over the input
(the generator's yields become the accumulated block list), `Record.add`
with no handlers is `_add_entry`, and the duplicate-source-file compaction
at the end of `load` is a fold of `insertRecord`.

`_update_stats` is called once per line while reading and a second time by
`_add_entry`; the second call is omitted here because it repeats the first
on identical data (its only effects beyond validation are `line_info`
updates, which no claim below depends on). -/

def end_of_record : Str := "end_of_record".toList

/-- `line.startswith('TN:')`. -/
def startsWithTN (s : Str) : Bool := decide (s.take 3 = ['T', 'N', ':'])

/-- Entry validation performed by `Record._update_stats` for `DA`/`BRDA`
entries (raises on malformed numeric fields). -/
def validateEntry (p d : Str) : Bool :=
  if p = "BRDA".toList ∨ p = "DA".toList then (get_line_number_and_hit_count d).isSome
  else true

/-- `Record._update_stats`: set `source_file` from the first `SF` entry,
validate `DA`/`BRDA` payloads; returns the new `source_file`. -/
def updateStats (sf : Option Str) (p d : Str) : Option (Option Str) :=
  if sf = none ∧ p = "SF".toList then some (some d)
  else if p = "BRDA".toList ∨ p = "DA".toList then
    match get_line_number_and_hit_count d with
    | some _ => some sf
    | none => none
  else some sf

/-- The state of `Stream._get_record_lines`: the stream's `test_name`, the
current record's `source_file`, the current block's `(prefix, payload)`
lines, and the blocks yielded so far. -/
structure ParseState where
  tn : Option Str
  sf : Option Str
  cur : List (Str × Str)
  blocks : List (Option Str × List (Str × Str))
deriving DecidableEq, Repr

/-- One loop iteration of `Stream._get_record_lines`. -/
def parse_line (st : ParseState) (line : Str) : Option ParseState :=
  let s := pystrip line
  if s.headD ' ' = '#' then some st
  else if startsWithTN s then
    some { st with tn := if st.tn = none then some (s.drop 3) else st.tn }
  else if s = end_of_record then
    some { st with sf := none, cur := [], blocks := st.blocks ++ [(st.sf, st.cur)] }
  else
    (splitFirst ':' s).bind fun pd =>
    (updateStats st.sf pd.1 pd.2).map fun sf' =>
    { st with sf := sf', cur := st.cur ++ [pd] }

def parse_lines (st : ParseState) : List Str → Option ParseState
  | [] => some st
  | line :: rest => (parse_line st line).bind fun st' => parse_lines st' rest

/-- `Stream._get_record_lines` over a whole input: the yielded blocks (an
unterminated trailing block is never yielded) and the stream's test name. -/
def getRecordLines (input : List Str) :
    Option (List (Option Str × List (Str × Str)) × Option Str) :=
  (parse_lines ⟨none, none, [], []⟩ input).map fun st => (st.blocks, st.tn)

/-- `Record._add_entry` (no handlers installed): append the payload to its
category's list, first-seen category order. -/
def addEntry (r : RecordData) (p payload : Str) : RecordData :=
  match r with
  | [] => [(p, [payload])]
  | (q, es) :: t =>
    if q = p then (q, es ++ [payload]) :: t else (q, es) :: addEntry t p payload

/-- Building a `Record` from one block's lines (`Record.add` loop with no
handlers). -/
def buildRecord (lines : List (Str × Str)) : RecordData :=
  lines.foldl (fun r pd => addEntry r pd.1 pd.2) []

/-- Extending an existing record's category list (`_ensure_prefix` followed
by `extend`, for one category of a duplicated source file). -/
def extendPrefix (r : RecordData) (p : Str) (es : List Str) : RecordData :=
  match r with
  | [] => [(p, es)]
  | (q, es') :: t =>
    if q = p then (q, es' ++ es) :: t else (q, es') :: extendPrefix t p es

/-- The duplicate-source-file compaction of `Stream.load`: concatenate the
later record's category lists onto the existing record's. -/
def extendRecord (dup r : RecordData) : RecordData :=
  r.foldl (fun d pe => extendPrefix d pe.1 pe.2) dup

/-- Insert one parsed record into the `records` mapping, concatenating on a
source-file collision. -/
def insertRecord (recs : List (Option Str × RecordData)) (k : Option Str)
    (r : RecordData) : List (Option Str × RecordData) :=
  match recs with
  | [] => [(k, r)]
  | (k', r') :: t =>
    if k' = k then (k', extendRecord r' r) :: t else (k', r') :: insertRecord t k r

/-- `Stream.load` on a fresh default `Stream` with no handlers: the stream's
test name and its `records` mapping. -/
def loadStream (input : List Str) :
    Option (Option Str × List (Option Str × RecordData)) :=
  (getRecordLines input).map fun bt =>
    (bt.2, bt.1.foldl (fun recs b => insertRecord recs b.1 (buildRecord b.2)) [])

/-- The lines `Record.__str__` emits with no category handlers installed:
each category's payloads in first-seen order, then the record terminator. -/
def renderRecord (r : RecordData) : List Str :=
  (r.flatMap fun pe => pe.2.map fun e => pe.1 ++ (':' :: e)) ++ [end_of_record]

/-- The lines of `Stream.__str__` with no handlers: the `TN:` header, then
every record in mapping order.  With no records the serializer's trailing
newline yields one final empty line. -/
def saveStream (S : Option Str × List (Option Str × RecordData)) : List Str :=
  ('T' :: 'N' :: ':' :: S.1.getD []) ::
    (match S.2 with
     | [] => [[]]
     | recs => recs.flatMap fun kr => renderRecord kr.2)

example :
    loadStream ["TN:t".toList, "SF:a.c".toList, "DA:1,2".toList, "end_of_record".toList]
    = some (some "t".toList,
        [(some "a.c".toList, [("SF".toList, ["a.c".toList]), ("DA".toList, ["1,2".toList])])]) := by
  decide

-- an unterminated trailing block is silently discarded
example : loadStream ["SF:a.c".toList, "DA:1,1".toList] = some (none, []) := by decide

-- the empty stream round-trip: serializing no records emits a blank line
-- that re-parsing rejects
example : loadStream (saveStream (none, [])) = none := by decide

/-! ### Invariants of loaded data -/

theorem dropWhile_head {α : Type} {p : α → Bool} :
    ∀ {l : List α} {h : α}, (l.dropWhile p).head? = some h → p h = false := by
  intro l
  induction l with
  | nil => intro h hh; simp at hh
  | cons x xs ih =>
    intro h hh
    by_cases hx : p x = true
    · rw [List.dropWhile_cons_of_pos hx] at hh
      exact ih hh
    · rw [List.dropWhile_cons_of_neg hx] at hh
      simp only [List.head?] at hh
      obtain rfl : x = h := by injection hh
      simpa using hx

theorem dropWhile_idem {α : Type} (p : α → Bool) (l : List α) :
    (l.dropWhile p).dropWhile p = l.dropWhile p := by
  cases hd : l.dropWhile p with
  | nil => rfl
  | cons x xs =>
    have hx : p x = false := dropWhile_head (by rw [hd]; rfl)
    rw [List.dropWhile_cons_of_neg (by simpa using hx)]

theorem pystrip_idem (s : Str) : pystrip (pystrip s) = pystrip s := by
  unfold pystrip
  have hsplit : (s.dropWhile isPySpace).reverse.takeWhile isPySpace
      ++ (s.dropWhile isPySpace).reverse.dropWhile isPySpace
      = (s.dropWhile isPySpace).reverse :=
    List.takeWhile_append_dropWhile isPySpace (s.dropWhile isPySpace).reverse
  have h1 : ((s.dropWhile isPySpace).reverse.dropWhile isPySpace).reverse.dropWhile
      isPySpace = ((s.dropWhile isPySpace).reverse.dropWhile isPySpace).reverse := by
    cases hzr : ((s.dropWhile isPySpace).reverse.dropWhile isPySpace).reverse with
    | nil => rfl
    | cons a u =>
      have hw2 : s.dropWhile isPySpace
          = ((s.dropWhile isPySpace).reverse.dropWhile isPySpace).reverse
            ++ ((s.dropWhile isPySpace).reverse.takeWhile isPySpace).reverse := by
        have hrev := congrArg List.reverse hsplit
        rw [List.reverse_append, List.reverse_reverse] at hrev
        exact hrev.symm
      have hhead : (s.dropWhile isPySpace).head? = some a := by
        rw [hw2, hzr]
        rfl
      have ha : isPySpace a = false := dropWhile_head hhead
      rw [List.dropWhile_cons_of_neg (by simpa using ha)]
  rw [h1, List.reverse_reverse, dropWhile_idem]

/-- All the facts about a stored `(prefix, payload)` pair that make its
serialized line re-parse to exactly the same pair. -/
def EntryOk (p d : Str) : Prop :=
  pystrip (p ++ (':' :: d)) = p ++ (':' :: d) ∧
  (p ++ (':' :: d)).headD ' ' ≠ '#' ∧
  startsWithTN (p ++ (':' :: d)) = false ∧
  p ++ (':' :: d) ≠ end_of_record ∧
  (':' : Char) ∉ p ∧
  validateEntry p d = true

/-- A saved `TN` header line re-parses unchanged. -/
def TNOk : Option Str → Prop
  | none => True
  | some v => pystrip ('T' :: 'N' :: ':' :: v) = 'T' :: 'N' :: ':' :: v

/-- The source file recorded by `_update_stats` over a sequence of entry
pairs. -/
def foldSf (sf : Option Str) (ps : List (Str × Str)) : Option Str :=
  ps.foldl (fun s pd => if s = none ∧ pd.1 = "SF".toList then some pd.2 else s) sf

/-- The source-file key a record's data determines: the first payload of its
`SF` list. -/
def recSF (r : RecordData) : Option Str := (alookup "SF".toList r).bind List.head?

/-- Structural invariant of every record a load produces. -/
def RecordOk (r : RecordData) : Prop :=
  (r.map Prod.fst).Nodup ∧ (∀ pe ∈ r, pe.2 ≠ []) ∧
    ∀ pe ∈ r, ∀ d ∈ pe.2, EntryOk pe.1 d

/-- Structural invariant of a loaded stream. -/
def StreamOk (S : Option Str × List (Option Str × RecordData)) : Prop :=
  TNOk S.1 ∧ (S.2.map Prod.fst).Nodup ∧
    ∀ kr ∈ S.2, RecordOk kr.2 ∧ kr.1 = recSF kr.2

theorem updateStats_of_validate {p d : Str} (h : validateEntry p d = true)
    (sf : Option Str) :
    updateStats sf p d
      = some (if sf = none ∧ p = "SF".toList then some d else sf) := by
  rw [validateEntry] at h
  rw [updateStats]
  by_cases hsf : sf = none ∧ p = "SF".toList
  · rw [if_pos hsf, if_pos hsf]
  · rw [if_neg hsf, if_neg hsf]
    by_cases hbd : p = "BRDA".toList ∨ p = "DA".toList
    · rw [if_pos hbd] at h ⊢
      cases hg : get_line_number_and_hit_count d with
      | none => rw [hg] at h; simp at h
      | some _ => rfl
    · rw [if_neg hbd]

theorem updateStats_some {sf sf' : Option Str} {p d : Str}
    (h : updateStats sf p d = some sf') :
    validateEntry p d = true ∧
      sf' = (if sf = none ∧ p = "SF".toList then some d else sf) := by
  rw [updateStats] at h
  rw [validateEntry]
  by_cases hsf : sf = none ∧ p = "SF".toList
  · rw [if_pos hsf] at h
    rw [if_pos hsf]
    have hp : ¬(p = "BRDA".toList ∨ p = "DA".toList) := by
      rintro (hp | hp) <;> rw [hsf.2] at hp <;> simp at hp
    refine ⟨by rw [if_neg hp], by injection h with h'; exact h'.symm⟩
  · rw [if_neg hsf] at h
    rw [if_neg hsf]
    by_cases hbd : p = "BRDA".toList ∨ p = "DA".toList
    · rw [if_pos hbd] at h
      rw [if_pos hbd]
      cases hg : get_line_number_and_hit_count d with
      | none => rw [hg] at h; simp at h
      | some _ =>
        rw [hg] at h
        exact ⟨rfl, by injection h with h'; exact h'.symm⟩
    · rw [if_neg hbd] at h
      exact ⟨by rw [if_neg hbd], by injection h with h'; exact h'.symm⟩

theorem startsWithTN_shape {s : Str} (h : startsWithTN s = true) :
    s = 'T' :: 'N' :: ':' :: s.drop 3 := by
  rw [startsWithTN, decide_eq_true_eq] at h
  conv_lhs => rw [← List.take_append_drop 3 s]
  rw [h]
  rfl

/-- Invariant of the yielded blocks. -/
def BlocksOk (bs : List (Option Str × List (Str × Str))) : Prop :=
  ∀ b ∈ bs, (∀ pd ∈ b.2, EntryOk pd.1 pd.2) ∧ b.1 = foldSf none b.2

/-- Invariant of the parse state. -/
def StInv (st : ParseState) : Prop :=
  TNOk st.tn ∧ (∀ pd ∈ st.cur, EntryOk pd.1 pd.2) ∧
    st.sf = foldSf none st.cur ∧ BlocksOk st.blocks

theorem foldSf_append (sf : Option Str) (ps : List (Str × Str)) (pd : Str × Str) :
    foldSf sf (ps ++ [pd])
      = if foldSf sf ps = none ∧ pd.1 = "SF".toList then some pd.2 else foldSf sf ps := by
  simp [foldSf, List.foldl_append]

theorem parse_line_inv {st st' : ParseState} {line : Str} (hinv : StInv st)
    (h : parse_line st line = some st') : StInv st' := by
  obtain ⟨htnok, hcur, hsf, hblocks⟩ := hinv
  rw [parse_line] at h
  by_cases hc : (pystrip line).headD ' ' = '#'
  · rw [if_pos hc] at h
    injection h with heq
    subst heq
    exact ⟨htnok, hcur, hsf, hblocks⟩
  · rw [if_neg hc] at h
    by_cases htn : startsWithTN (pystrip line) = true
    · rw [if_pos htn] at h
      injection h with heq
      subst heq
      refine ⟨?_, hcur, hsf, hblocks⟩
      by_cases ht : st.tn = none
      · show TNOk (if st.tn = none then some ((pystrip line).drop 3) else st.tn)
        rw [if_pos ht]
        show pystrip ('T' :: 'N' :: ':' :: (pystrip line).drop 3)
          = 'T' :: 'N' :: ':' :: (pystrip line).drop 3
        rw [← startsWithTN_shape htn]
        exact pystrip_idem line
      · show TNOk (if st.tn = none then some ((pystrip line).drop 3) else st.tn)
        rw [if_neg ht]
        exact htnok
    · rw [if_neg htn] at h
      by_cases hend : pystrip line = end_of_record
      · rw [if_pos hend] at h
        injection h with heq
        subst heq
        refine ⟨htnok, by simp, rfl, ?_⟩
        intro b hb
        rcases List.mem_append.mp hb with hb' | hb'
        · exact hblocks b hb'
        · obtain rfl : b = (st.sf, st.cur) := by simpa using hb'
          exact ⟨hcur, hsf⟩
      · rw [if_neg hend] at h
        cases hsp : splitFirst ':' (pystrip line) with
        | none => rw [hsp] at h; simp at h
        | some pd =>
          rw [hsp] at h
          simp only [Option.some_bind] at h
          cases hup : updateStats st.sf pd.1 pd.2 with
          | none => rw [hup] at h; simp at h
          | some sf' =>
            rw [hup] at h
            simp only [Option.map_some'] at h
            injection h with heq
            subst heq
            obtain ⟨hval, hsfeq⟩ := updateStats_some hup
            obtain ⟨hs_eq, hnc⟩ := splitFirst_eq_some hsp
            have hok : EntryOk pd.1 pd.2 := by
              refine ⟨?_, ?_, ?_, ?_, hnc, hval⟩
              · rw [← hs_eq]; exact pystrip_idem line
              · rw [← hs_eq]; exact hc
              · rw [← hs_eq]; simpa using htn
              · rw [← hs_eq]; exact hend
            refine ⟨htnok, ?_, ?_, hblocks⟩
            · intro x hx
              rcases List.mem_append.mp hx with hx' | hx'
              · exact hcur x hx'
              · obtain rfl : x = pd := by simpa using hx'
                exact hok
            · show sf' = foldSf none (st.cur ++ [pd])
              rw [foldSf_append, ← hsf, hsfeq]

theorem parse_lines_inv :
    ∀ {input : List Str} {st st' : ParseState}, StInv st →
      parse_lines st input = some st' → StInv st' := by
  intro input
  induction input with
  | nil =>
    intro st st' hinv h
    obtain rfl : st = st' := by injection h
    exact hinv
  | cons line rest ih =>
    intro st st' hinv h
    rw [parse_lines] at h
    cases hl : parse_line st line with
    | none => rw [hl] at h; simp at h
    | some st1 =>
      rw [hl] at h
      exact ih (parse_line_inv hinv hl) h

theorem parse_lines_append :
    ∀ (xs : List Str) (st : ParseState) (ys : List Str),
      parse_lines st (xs ++ ys) = (parse_lines st xs).bind fun st1 => parse_lines st1 ys := by
  intro xs
  induction xs with
  | nil => intro st ys; rfl
  | cons line rest ih =>
    intro st ys
    rw [List.cons_append, parse_lines, parse_lines]
    cases hl : parse_line st line with
    | none => rfl
    | some st1 => simp only [Option.some_bind]; exact ih st1 ys

/-! ### Record construction lemmas -/

theorem addEntry_keys (r : RecordData) (p d : Str) :
    (addEntry r p d).map Prod.fst =
      if p ∈ r.map Prod.fst then r.map Prod.fst else r.map Prod.fst ++ [p] := by
  induction r with
  | nil => simp [addEntry]
  | cons qe t ih =>
    obtain ⟨q, es⟩ := qe
    by_cases hq : q = p
    · subst hq
      simp [addEntry]
    · have hne : p ≠ q := fun he => hq he.symm
      rw [show addEntry ((q, es) :: t) p d = (q, es) :: addEntry t p d by
        simp [addEntry, hq]]
      simp only [List.map_cons, ih]
      by_cases hmem : p ∈ t.map Prod.fst
      · rw [if_pos hmem, if_pos (by simp [hmem])]
      · rw [if_neg hmem, if_neg (by simp [hmem, hne])]
        simp

theorem alookup_addEntry_self (r : RecordData) (p d : Str) :
    alookup p (addEntry r p d) = some ((alookup p r).getD [] ++ [d]) := by
  induction r with
  | nil => simp [addEntry, alookup]
  | cons qe t ih =>
    obtain ⟨q, es⟩ := qe
    by_cases hq : q = p
    · subst hq
      simp [addEntry, alookup]
    · rw [show addEntry ((q, es) :: t) p d = (q, es) :: addEntry t p d by
        simp [addEntry, hq]]
      simp only [alookup, if_neg hq, ih]

theorem alookup_addEntry_ne (r : RecordData) {p q : Str} (d : Str) (hq : q ≠ p) :
    alookup q (addEntry r p d) = alookup q r := by
  induction r with
  | nil =>
    simp only [addEntry, alookup]
    rw [if_neg (fun he : p = q => hq he.symm)]
  | cons qe t ih =>
    obtain ⟨q', es⟩ := qe
    by_cases hq' : q' = p
    · have hq'q : ¬q' = q := fun he => hq (he.symm.trans hq')
      rw [show addEntry ((q', es) :: t) p d = (q', es ++ [d]) :: t by
        simp [addEntry, hq']]
      rw [alookup, alookup, if_neg hq'q, if_neg hq'q]
    · rw [show addEntry ((q', es) :: t) p d = (q', es) :: addEntry t p d by
        simp [addEntry, hq']]
      rw [alookup, alookup]
      by_cases hqq : q' = q
      · rw [if_pos hqq, if_pos hqq]
      · rw [if_neg hqq, if_neg hqq, ih]

theorem addEntry_vals {r : RecordData} (p d : Str)
    (h : ∀ pe ∈ r, pe.2 ≠ []) : ∀ pe ∈ addEntry r p d, pe.2 ≠ [] := by
  induction r with
  | nil =>
    intro pe hpe
    simp only [addEntry] at hpe
    obtain rfl : pe = (p, [d]) := by simpa using hpe
    simp
  | cons qe t ih =>
    obtain ⟨q, es⟩ := qe
    intro pe hpe
    by_cases hq : q = p
    · subst hq
      simp only [addEntry, if_pos rfl] at hpe
      rcases List.mem_cons.mp hpe with rfl | hpe'
      · simp
      · exact h pe (List.mem_cons_of_mem _ hpe')
    · rw [show addEntry ((q, es) :: t) p d = (q, es) :: addEntry t p d by
        simp [addEntry, hq]] at hpe
      rcases List.mem_cons.mp hpe with rfl | hpe'
      · exact h (q, es) (List.mem_cons_self _ _)
      · exact ih (fun x hx => h x (List.mem_cons_of_mem _ hx)) pe hpe'

theorem addEntry_pairs {r : RecordData} {p d : Str} {pe : Str × List Str} {x : Str}
    (hpe : pe ∈ addEntry r p d) (hx : x ∈ pe.2) :
    (∃ pe' ∈ r, pe'.1 = pe.1 ∧ x ∈ pe'.2) ∨ (pe.1 = p ∧ x = d) := by
  induction r with
  | nil =>
    simp only [addEntry] at hpe
    obtain rfl : pe = (p, [d]) := by simpa using hpe
    right
    exact ⟨rfl, by simpa using hx⟩
  | cons qe t ih =>
    obtain ⟨q, es⟩ := qe
    by_cases hq : q = p
    · subst hq
      simp only [addEntry, if_pos rfl] at hpe
      rcases List.mem_cons.mp hpe with rfl | hpe'
      · simp only at hx
        rcases List.mem_append.mp hx with hx' | hx'
        · exact Or.inl ⟨(q, es), List.mem_cons_self _ _, rfl, hx'⟩
        · exact Or.inr ⟨rfl, by simpa using hx'⟩
      · exact Or.inl ⟨pe, List.mem_cons_of_mem _ hpe', rfl, hx⟩
    · rw [show addEntry ((q, es) :: t) p d = (q, es) :: addEntry t p d by
        simp [addEntry, hq]] at hpe
      rcases List.mem_cons.mp hpe with rfl | hpe'
      · exact Or.inl ⟨(q, es), List.mem_cons_self _ _, rfl, hx⟩
      · rcases ih hpe' with ⟨pe', hm, hk, hxm⟩ | hgood
        · exact Or.inl ⟨pe', List.mem_cons_of_mem _ hm, hk, hxm⟩
        · exact Or.inr hgood

theorem head?_append_of_ne_nil {α : Type} {es : List α} (d : List α) (h : es ≠ []) :
    (es ++ d).head? = es.head? := by
  cases es with
  | nil => exact absurd rfl h
  | cons a t => rfl

theorem foldSf_of_some (v : Str) :
    ∀ (ps : List (Str × Str)), foldSf (some v) ps = some v := by
  intro ps
  induction ps with
  | nil => rfl
  | cons pd t ih =>
    show foldSf (if some v = none ∧ pd.1 = "SF".toList then some pd.2 else some v) t
      = some v
    rw [if_neg (by simp)]
    exact ih

theorem buildRecord_append (ls : List (Str × Str)) (pd : Str × Str) :
    buildRecord (ls ++ [pd]) = addEntry (buildRecord ls) pd.1 pd.2 := by
  simp [buildRecord, List.foldl_append]

theorem buildRecord_nodup (ls : List (Str × Str)) :
    ((buildRecord ls).map Prod.fst).Nodup := by
  induction ls using List.reverseRecOn with
  | nil => simp [buildRecord]
  | append_singleton t pd ih =>
    rw [buildRecord_append, addEntry_keys]
    by_cases hmem : pd.1 ∈ (buildRecord t).map Prod.fst
    · simpa [hmem] using ih
    · rw [if_neg hmem]
      exact (List.perm_append_singleton _ _).nodup_iff.mpr (ih.cons hmem)

theorem buildRecord_vals (ls : List (Str × Str)) :
    ∀ pe ∈ buildRecord ls, pe.2 ≠ [] := by
  induction ls using List.reverseRecOn with
  | nil => intro pe hpe; simp [buildRecord] at hpe
  | append_singleton t pd ih =>
    rw [buildRecord_append]
    exact addEntry_vals pd.1 pd.2 ih

theorem buildRecord_pairs (ls : List (Str × Str)) :
    ∀ pe ∈ buildRecord ls, ∀ x ∈ pe.2, (pe.1, x) ∈ ls := by
  induction ls using List.reverseRecOn with
  | nil => intro pe hpe; simp [buildRecord] at hpe
  | append_singleton t pd ih =>
    intro pe hpe x hx
    rw [buildRecord_append] at hpe
    rcases addEntry_pairs hpe hx with ⟨pe', hm, hk, hxm⟩ | ⟨hk, hd⟩
    · exact List.mem_append.mpr (Or.inl (by rw [← hk]; exact ih pe' hm x hxm))
    · apply List.mem_append.mpr (Or.inr (by rw [hk, hd]; simp))

theorem buildRecord_recSF (ls : List (Str × Str)) :
    recSF (buildRecord ls) = foldSf none ls := by
  induction ls using List.reverseRecOn with
  | nil => rfl
  | append_singleton t pd ih =>
    obtain ⟨p, d⟩ := pd
    rw [buildRecord_append, foldSf_append]
    simp only [recSF]
    by_cases hps : p = "SF".toList
    · subst hps
      rw [alookup_addEntry_self]
      cases hal : alookup ("SF".toList : Str) (buildRecord t) with
      | none =>
        have hnone : foldSf none t = none := by
          rw [← ih]
          simp only [recSF]
          rw [hal]
          rfl
        rw [if_pos ⟨hnone, rfl⟩]
        rfl
      | some es =>
        have hne : es ≠ [] :=
          buildRecord_vals t ("SF".toList, es) (alookup_mem hal)
        have hsome : foldSf none t = es.head? := by
          rw [← ih]
          simp only [recSF]
          rw [hal]
          rfl
        obtain ⟨a, u, rfl⟩ : ∃ a u, es = a :: u := by
          cases es with
          | nil => exact absurd rfl hne
          | cons a u => exact ⟨a, u, rfl⟩
        rw [if_neg (by rw [hsome]; simp)]
        rw [hsome]
        rfl
    · have hsfne : ("SF".toList : Str) ≠ p := fun he => hps he.symm
      rw [alookup_addEntry_ne _ d hsfne]
      rw [if_neg (by intro hcon; exact hps hcon.2)]
      rw [← ih]
      simp only [recSF]

theorem buildRecord_RecordOk (ls : List (Str × Str))
    (h : ∀ pd ∈ ls, EntryOk pd.1 pd.2) : RecordOk (buildRecord ls) := by
  refine ⟨buildRecord_nodup ls, buildRecord_vals ls, ?_⟩
  intro pe hpe d hd
  have := buildRecord_pairs ls pe hpe d hd
  exact h (pe.1, d) this

/-! ### Extension of duplicated records -/

theorem alookup_extendPrefix_self (r : RecordData) (p : Str) (es : List Str) :
    alookup p (extendPrefix r p es) = some ((alookup p r).getD [] ++ es) := by
  induction r with
  | nil => simp [extendPrefix, alookup]
  | cons qe t ih =>
    obtain ⟨q, es'⟩ := qe
    by_cases hq : q = p
    · subst hq
      simp [extendPrefix, alookup]
    · rw [show extendPrefix ((q, es') :: t) p es = (q, es') :: extendPrefix t p es by
        simp [extendPrefix, hq]]
      simp only [alookup, if_neg hq, ih]

theorem alookup_extendPrefix_ne (r : RecordData) {p q : Str} (es : List Str)
    (hq : q ≠ p) : alookup q (extendPrefix r p es) = alookup q r := by
  induction r with
  | nil =>
    simp only [extendPrefix, alookup]
    rw [if_neg (fun he : p = q => hq he.symm)]
  | cons qe t ih =>
    obtain ⟨q', es'⟩ := qe
    by_cases hq' : q' = p
    · have hq'q : ¬q' = q := fun he => hq (he.symm.trans hq')
      rw [show extendPrefix ((q', es') :: t) p es = (q', es' ++ es) :: t by
        simp [extendPrefix, hq']]
      rw [alookup, alookup, if_neg hq'q, if_neg hq'q]
    · rw [show extendPrefix ((q', es') :: t) p es = (q', es') :: extendPrefix t p es by
        simp [extendPrefix, hq']]
      rw [alookup, alookup]
      by_cases hqq : q' = q
      · rw [if_pos hqq, if_pos hqq]
      · rw [if_neg hqq, if_neg hqq, ih]

theorem extendPrefix_keys (r : RecordData) (p : Str) (es : List Str) :
    (extendPrefix r p es).map Prod.fst =
      if p ∈ r.map Prod.fst then r.map Prod.fst else r.map Prod.fst ++ [p] := by
  induction r with
  | nil => simp [extendPrefix]
  | cons qe t ih =>
    obtain ⟨q, es'⟩ := qe
    by_cases hq : q = p
    · subst hq
      simp [extendPrefix]
    · have hne : p ≠ q := fun he => hq he.symm
      rw [show extendPrefix ((q, es') :: t) p es = (q, es') :: extendPrefix t p es by
        simp [extendPrefix, hq]]
      simp only [List.map_cons, ih]
      by_cases hmem : p ∈ t.map Prod.fst
      · rw [if_pos hmem, if_pos (by simp [hmem])]
      · rw [if_neg hmem, if_neg (by simp [hmem, hne])]
        simp

theorem extendPrefix_vals {r : RecordData} {p : Str} {es : List Str}
    (hr : ∀ pe ∈ r, pe.2 ≠ []) (hes : es ≠ []) :
    ∀ pe ∈ extendPrefix r p es, pe.2 ≠ [] := by
  induction r with
  | nil =>
    intro pe hpe
    obtain rfl : pe = (p, es) := by simpa [extendPrefix] using hpe
    exact hes
  | cons qe t ih =>
    obtain ⟨q, es'⟩ := qe
    intro pe hpe
    by_cases hq : q = p
    · subst hq
      simp only [extendPrefix, if_pos rfl] at hpe
      rcases List.mem_cons.mp hpe with rfl | hpe'
      · have := hr (q, es') (List.mem_cons_self _ _)
        simp only at this ⊢
        simp [this]
      · exact hr pe (List.mem_cons_of_mem _ hpe')
    · rw [show extendPrefix ((q, es') :: t) p es = (q, es') :: extendPrefix t p es by
        simp [extendPrefix, hq]] at hpe
      rcases List.mem_cons.mp hpe with rfl | hpe'
      · exact hr (q, es') (List.mem_cons_self _ _)
      · exact ih (fun x hx => hr x (List.mem_cons_of_mem _ hx)) pe hpe'

theorem extendPrefix_pairs {r : RecordData} {p : Str} {es : List Str}
    {pe : Str × List Str} {x : Str} (hpe : pe ∈ extendPrefix r p es) (hx : x ∈ pe.2) :
    (∃ pe' ∈ r, pe'.1 = pe.1 ∧ x ∈ pe'.2) ∨ (pe.1 = p ∧ x ∈ es) := by
  induction r with
  | nil =>
    obtain rfl : pe = (p, es) := by simpa [extendPrefix] using hpe
    exact Or.inr ⟨rfl, hx⟩
  | cons qe t ih =>
    obtain ⟨q, es'⟩ := qe
    by_cases hq : q = p
    · subst hq
      simp only [extendPrefix, if_pos rfl] at hpe
      rcases List.mem_cons.mp hpe with rfl | hpe'
      · simp only at hx
        rcases List.mem_append.mp hx with hx' | hx'
        · exact Or.inl ⟨(q, es'), List.mem_cons_self _ _, rfl, hx'⟩
        · exact Or.inr ⟨rfl, hx'⟩
      · exact Or.inl ⟨pe, List.mem_cons_of_mem _ hpe', rfl, hx⟩
    · rw [show extendPrefix ((q, es') :: t) p es = (q, es') :: extendPrefix t p es by
        simp [extendPrefix, hq]] at hpe
      rcases List.mem_cons.mp hpe with rfl | hpe'
      · exact Or.inl ⟨(q, es'), List.mem_cons_self _ _, rfl, hx⟩
      · rcases ih hpe' with ⟨pe', hm, hk, hxm⟩ | hgood
        · exact Or.inl ⟨pe', List.mem_cons_of_mem _ hm, hk, hxm⟩
        · exact Or.inr hgood

theorem alookup_not_mem_keys {κ ν : Type} [DecidableEq κ] {q : κ} :
    ∀ {d : List (κ × ν)}, q ∉ d.map Prod.fst → alookup q d = none := by
  intro d
  induction d with
  | nil => intro _; rfl
  | cons kv t ih =>
    obtain ⟨k', v'⟩ := kv
    intro h
    simp only [List.map_cons, List.mem_cons, not_or] at h
    rw [alookup, if_neg (fun he : k' = q => h.1 he.symm)]
    exact ih h.2

theorem extendRecord_cons (dup : RecordData) (p : Str) (es : List Str)
    (t : RecordData) :
    extendRecord dup ((p, es) :: t) = extendRecord (extendPrefix dup p es) t := rfl

theorem extendRecord_alookup :
    ∀ {r : RecordData} (dup : RecordData) (q : Str), (r.map Prod.fst).Nodup →
      alookup q (extendRecord dup r) =
        match alookup q r with
        | none => alookup q dup
        | some es => some ((alookup q dup).getD [] ++ es) := by
  intro r
  induction r with
  | nil => intro dup q _; rfl
  | cons pe t ih =>
    obtain ⟨p, es⟩ := pe
    intro dup q hnd
    simp only [List.map_cons, List.nodup_cons] at hnd
    rw [extendRecord_cons, ih (extendPrefix dup p es) q hnd.2]
    by_cases hq : q = p
    · subst hq
      have hnt : alookup q t = none :=
        alookup_not_mem_keys hnd.1
      rw [hnt]
      rw [show alookup q ((q, es) :: t) = some es by rw [alookup, if_pos rfl]]
      rw [alookup_extendPrefix_self]
    · have hpq : ¬p = q := fun he => hq he.symm
      rw [show alookup q ((p, es) :: t) = alookup q t by rw [alookup, if_neg hpq]]
      rw [alookup_extendPrefix_ne _ _ hq]

theorem extendRecord_keys_nodup :
    ∀ {r : RecordData} {dup : RecordData}, (dup.map Prod.fst).Nodup →
      ((extendRecord dup r).map Prod.fst).Nodup := by
  intro r
  induction r with
  | nil => intro dup h; exact h
  | cons pe t ih =>
    obtain ⟨p, es⟩ := pe
    intro dup h
    rw [extendRecord_cons]
    apply ih
    rw [extendPrefix_keys]
    by_cases hmem : p ∈ dup.map Prod.fst
    · simpa [hmem] using h
    · rw [if_neg hmem]
      exact (List.perm_append_singleton _ _).nodup_iff.mpr (h.cons hmem)

theorem extendRecord_vals :
    ∀ {r : RecordData} {dup : RecordData}, (∀ pe ∈ dup, pe.2 ≠ []) →
      (∀ pe ∈ r, pe.2 ≠ []) → ∀ pe ∈ extendRecord dup r, pe.2 ≠ [] := by
  intro r
  induction r with
  | nil => intro dup hd _; exact hd
  | cons qe t ih =>
    obtain ⟨p, es⟩ := qe
    intro dup hd hr
    rw [extendRecord_cons]
    apply ih
    · exact extendPrefix_vals hd (hr (p, es) (List.mem_cons_self _ _))
    · exact fun x hx => hr x (List.mem_cons_of_mem _ hx)

theorem extendRecord_pairs :
    ∀ {r : RecordData} {dup : RecordData} {pe : Str × List Str} {x : Str},
      pe ∈ extendRecord dup r → x ∈ pe.2 →
        (∃ pe' ∈ dup, pe'.1 = pe.1 ∧ x ∈ pe'.2) ∨
          (∃ pe' ∈ r, pe'.1 = pe.1 ∧ x ∈ pe'.2) := by
  intro r
  induction r with
  | nil => intro dup pe x hpe hx; exact Or.inl ⟨pe, hpe, rfl, hx⟩
  | cons qe t ih =>
    obtain ⟨p, es⟩ := qe
    intro dup pe x hpe hx
    rw [extendRecord_cons] at hpe
    rcases ih hpe hx with ⟨pe', hm, hk, hxm⟩ | ⟨pe', hm, hk, hxm⟩
    · rcases extendPrefix_pairs hm hxm with ⟨pe'', hm', hk', hxm'⟩ | ⟨hk', hxm'⟩
      · exact Or.inl ⟨pe'', hm', hk'.trans hk, hxm'⟩
      · exact Or.inr ⟨(p, es), List.mem_cons_self _ _, hk'.symm ▸ hk, hxm'⟩
    · exact Or.inr ⟨pe', List.mem_cons_of_mem _ hm, hk, hxm⟩

theorem recSF_extendRecord {dup r : RecordData} {k : Option Str}
    (hrn : (r.map Prod.fst).Nodup) (hdv : ∀ pe ∈ dup, pe.2 ≠ [])
    (hrv : ∀ pe ∈ r, pe.2 ≠ []) (h1 : recSF dup = k) (h2 : recSF r = k) :
    recSF (extendRecord dup r) = k := by
  rw [recSF, extendRecord_alookup dup _ hrn]
  cases har : alookup ("SF".toList : Str) r with
  | none =>
    rw [← h1, recSF]
  | some es =>
    have hene : es ≠ [] := hrv _ (alookup_mem har)
    obtain ⟨a, u, rfl⟩ : ∃ a u, es = a :: u := by
      cases es with
      | nil => exact absurd rfl hene
      | cons a u => exact ⟨a, u, rfl⟩
    cases had : alookup ("SF".toList : Str) dup with
    | none =>
      rw [← h2, recSF, har]
      rfl
    | some ds =>
      have hdne : ds ≠ [] := hdv _ (alookup_mem had)
      obtain ⟨b, v, rfl⟩ : ∃ b v, ds = b :: v := by
        cases ds with
        | nil => exact absurd rfl hdne
        | cons b v => exact ⟨b, v, rfl⟩
      rw [← h1, recSF, had]
      rfl

theorem insertRecord_mem {recs : List (Option Str × RecordData)} {k : Option Str}
    {r : RecordData} {pe : Option Str × RecordData} :
    pe ∈ insertRecord recs k r →
      pe ∈ recs ∨ (pe = (k, r) ∧ k ∉ recs.map Prod.fst) ∨
        (∃ r', (k, r') ∈ recs ∧ pe = (k, extendRecord r' r)) := by
  induction recs with
  | nil =>
    intro h
    obtain rfl : pe = (k, r) := by simpa [insertRecord] using h
    exact Or.inr (Or.inl ⟨rfl, by simp⟩)
  | cons kr t ih =>
    obtain ⟨k', r'⟩ := kr
    intro h
    by_cases hk : k' = k
    · subst hk
      simp only [insertRecord, if_pos rfl] at h
      rcases List.mem_cons.mp h with rfl | h'
      · exact Or.inr (Or.inr ⟨r', List.mem_cons_self _ _, rfl⟩)
      · exact Or.inl (List.mem_cons_of_mem _ h')
    · rw [show insertRecord ((k', r') :: t) k r = (k', r') :: insertRecord t k r by
        simp [insertRecord, hk]] at h
      rcases List.mem_cons.mp h with rfl | h'
      · exact Or.inl (List.mem_cons_self _ _)
      · rcases ih h' with h'' | ⟨heq, hnm⟩ | ⟨r'', hm, heq⟩
        · exact Or.inl (List.mem_cons_of_mem _ h'')
        · refine Or.inr (Or.inl ⟨heq, ?_⟩)
          simp only [List.map_cons, List.mem_cons, not_or]
          exact ⟨fun he => hk he.symm, hnm⟩
        · exact Or.inr (Or.inr ⟨r'', List.mem_cons_of_mem _ hm, heq⟩)

theorem insertRecord_keys (recs : List (Option Str × RecordData)) (k : Option Str)
    (r : RecordData) :
    (insertRecord recs k r).map Prod.fst =
      if k ∈ recs.map Prod.fst then recs.map Prod.fst else recs.map Prod.fst ++ [k] := by
  induction recs with
  | nil => simp [insertRecord]
  | cons kr t ih =>
    obtain ⟨k', r'⟩ := kr
    by_cases hk : k' = k
    · subst hk
      simp [insertRecord]
    · have hne : k ≠ k' := fun he => hk he.symm
      rw [show insertRecord ((k', r') :: t) k r = (k', r') :: insertRecord t k r by
        simp [insertRecord, hk]]
      simp only [List.map_cons, ih]
      by_cases hmem : k ∈ t.map Prod.fst
      · rw [if_pos hmem, if_pos (by simp [hmem])]
      · rw [if_neg hmem, if_neg (by simp [hmem, hne])]
        simp

/-- Invariant of the records mapping. -/
def RecsOk (recs : List (Option Str × RecordData)) : Prop :=
  (recs.map Prod.fst).Nodup ∧ ∀ kr ∈ recs, RecordOk kr.2 ∧ kr.1 = recSF kr.2

theorem insertRecord_ok {recs : List (Option Str × RecordData)} {k : Option Str}
    {r : RecordData} (h : RecsOk recs) (hr : RecordOk r) (hk : k = recSF r) :
    RecsOk (insertRecord recs k r) := by
  constructor
  · rw [insertRecord_keys]
    by_cases hmem : k ∈ recs.map Prod.fst
    · simpa [hmem] using h.1
    · rw [if_neg hmem]
      exact (List.perm_append_singleton _ _).nodup_iff.mpr (h.1.cons hmem)
  · intro kr hkr
    rcases insertRecord_mem hkr with hm | ⟨heq, _⟩ | ⟨r', hm, heq⟩
    · exact h.2 kr hm
    · subst heq
      exact ⟨hr, hk⟩
    · subst heq
      obtain ⟨hok', hsf'⟩ := h.2 (k, r') hm
      refine ⟨⟨?_, ?_, ?_⟩, ?_⟩
      · exact extendRecord_keys_nodup hok'.1
      · exact extendRecord_vals hok'.2.1 hr.2.1
      · intro pe hpe d hd
        rcases extendRecord_pairs hpe hd with ⟨pe', hm', hk', hxm'⟩ | ⟨pe', hm', hk', hxm'⟩
        · have := hok'.2.2 pe' hm' d hxm'
          rw [hk'] at this
          exact this
        · have := hr.2.2 pe' hm' d hxm'
          rw [hk'] at this
          exact this
      · exact (recSF_extendRecord hr.1 hok'.2.1 hr.2.1 hsf'.symm hk.symm).symm

theorem load_fold_ok :
    ∀ {blocks : List (Option Str × List (Str × Str))}
      {acc : List (Option Str × RecordData)},
      RecsOk acc → BlocksOk blocks →
        RecsOk (blocks.foldl (fun recs b => insertRecord recs b.1 (buildRecord b.2)) acc) := by
  intro blocks
  induction blocks with
  | nil => intro acc h _; exact h
  | cons b t ih =>
    intro acc h hb
    have hbo := hb b (List.mem_cons_self _ _)
    apply ih
    · exact insertRecord_ok h
        (buildRecord_RecordOk b.2 (fun pd hpd => hbo.1 pd hpd))
        (by rw [buildRecord_recSF]; exact hbo.2)
    · exact fun x hx => hb x (List.mem_cons_of_mem _ hx)

theorem load_sound {X : List Str} {S : Option Str × List (Option Str × RecordData)}
    (h : loadStream X = some S) : StreamOk S := by
  rw [loadStream, getRecordLines] at h
  cases hp : parse_lines ⟨none, none, [], []⟩ X with
  | none => rw [hp] at h; simp at h
  | some st =>
    rw [hp] at h
    simp only [Option.map_some'] at h
    have hinit : StInv ⟨none, none, [], []⟩ :=
      ⟨trivial, by intro pd hpd; simp at hpd, rfl, by intro b hb; simp at hb⟩
    have hinv : StInv st := parse_lines_inv hinit hp
    obtain rfl : (st.tn, st.blocks.foldl
        (fun recs b => insertRecord recs b.1 (buildRecord b.2)) []) = S := by
      injection h
    have hrecs : RecsOk (st.blocks.foldl
        (fun recs b => insertRecord recs b.1 (buildRecord b.2)) []) :=
      load_fold_ok ⟨by simp, by intro kr hkr; simp at hkr⟩ hinv.2.2.2
    exact ⟨hinv.1, hrecs.1, hrecs.2⟩

/-! ### Re-parsing serialized output -/

/-- The `(prefix, payload)` pair sequence a record's groups flatten to. -/
def flattenRecord (r : RecordData) : List (Str × Str) :=
  r.flatMap fun pe => pe.2.map fun e => (pe.1, e)

theorem renderRecord_eq (r : RecordData) :
    renderRecord r
      = (flattenRecord r).map (fun pd => pd.1 ++ (':' :: pd.2)) ++ [end_of_record] := by
  rw [renderRecord, flattenRecord]
  congr 1
  induction r with
  | nil => rfl
  | cons pe t ih =>
    simp only [List.flatMap_cons, List.map_append, ih, List.map_map]
    rfl

theorem flattenRecord_mem {r : RecordData} {pd : Str × Str}
    (h : pd ∈ flattenRecord r) : ∃ pe ∈ r, pe.1 = pd.1 ∧ pd.2 ∈ pe.2 := by
  rw [flattenRecord] at h
  rcases List.mem_flatMap.mp h with ⟨pe, hpe, hm⟩
  rcases List.mem_map.mp hm with ⟨e, he, heq⟩
  obtain rfl : (pe.1, e) = pd := heq
  exact ⟨pe, hpe, rfl, he⟩

theorem parse_line_entry {st : ParseState} {p d : Str} (hok : EntryOk p d) :
    parse_line st (p ++ (':' :: d))
      = some { st with
          sf := if st.sf = none ∧ p = "SF".toList then some d else st.sf,
          cur := st.cur ++ [(p, d)] } := by
  obtain ⟨hstrip, hhash, htn, hend, hnc, hval⟩ := hok
  rw [parse_line]
  simp only [hstrip]
  rw [if_neg hhash, if_neg (by simp [htn]), if_neg hend]
  rw [splitFirst_append d hnc]
  simp only [Option.some_bind]
  rw [updateStats_of_validate hval]
  rfl

theorem parse_line_end (st : ParseState) :
    parse_line st end_of_record
      = some { st with
          sf := none, cur := [],
          blocks := st.blocks ++ [(st.sf, st.cur)] } := by
  have h1 : pystrip end_of_record = end_of_record := by decide
  rw [parse_line]
  simp only [h1]
  rw [if_neg (by decide), if_neg (by decide)]
  simp

theorem parse_line_tn {st : ParseState} {v : Str} (htn : TNOk (some v)) :
    parse_line st ('T' :: 'N' :: ':' :: v)
      = some { st with tn := if st.tn = none then some v else st.tn } := by
  have hstrip : pystrip ('T' :: 'N' :: ':' :: v) = 'T' :: 'N' :: ':' :: v := htn
  rw [parse_line]
  simp only [hstrip]
  rw [if_neg (by simp), if_pos (by rw [startsWithTN]; simp)]
  simp

theorem parse_lines_pairs {ps : List (Str × Str)}
    (hok : ∀ pd ∈ ps, EntryOk pd.1 pd.2) :
    ∀ st : ParseState,
      parse_lines st (ps.map fun pd => pd.1 ++ (':' :: pd.2))
        = some { st with sf := foldSf st.sf ps, cur := st.cur ++ ps } := by
  induction ps with
  | nil =>
    intro st
    show some st = _
    congr 1
    cases st
    simp [foldSf]
  | cons pd t ih =>
    intro st
    rw [List.map_cons, parse_lines,
      parse_line_entry (hok pd (List.mem_cons_self _ _)), Option.some_bind,
      ih (fun x hx => hok x (List.mem_cons_of_mem _ hx))]
    congr 1
    cases st
    simp [foldSf]

/-! helper lemmas for `buildRecord (flattenRecord r) = r` -/

theorem addEntry_not_mem {r : RecordData} {p : Str} (e : Str)
    (h : p ∉ r.map Prod.fst) : addEntry r p e = r ++ [(p, [e])] := by
  induction r with
  | nil => rfl
  | cons qe t ih =>
    obtain ⟨q, es⟩ := qe
    simp only [List.map_cons, List.mem_cons, not_or] at h
    have hq : ¬q = p := fun he => h.1 he.symm
    rw [show addEntry ((q, es) :: t) p e = (q, es) :: addEntry t p e by
      simp [addEntry, hq]]
    rw [ih h.2]
    rfl

theorem addEntry_append_last {pre : RecordData} {p : Str} {cur : List Str}
    (h : p ∉ pre.map Prod.fst) (e : Str) :
    addEntry (pre ++ [(p, cur)]) p e = pre ++ [(p, cur ++ [e])] := by
  induction pre with
  | nil => simp [addEntry]
  | cons qe t ih =>
    obtain ⟨q, es⟩ := qe
    simp only [List.map_cons, List.mem_cons, not_or] at h
    have hq : ¬q = p := fun he => h.1 he.symm
    rw [List.cons_append,
      show addEntry ((q, es) :: (t ++ [(p, cur)])) p e
        = (q, es) :: addEntry (t ++ [(p, cur)]) p e by simp [addEntry, hq]]
    rw [ih h.2]
    rfl

theorem foldl_addEntry_group {p : Str} :
    ∀ (es' : List Str) {pre : RecordData} {cur : List Str},
      p ∉ pre.map Prod.fst →
        es'.foldl (fun r e => addEntry r p e) (pre ++ [(p, cur)])
          = pre ++ [(p, cur ++ es')] := by
  intro es'
  induction es' with
  | nil => intro pre cur _; simp
  | cons e t ih =>
    intro pre cur h
    rw [List.foldl_cons, addEntry_append_last h e, ih h]
    simp

theorem buildRecord_flatten_aux :
    ∀ (suffix : RecordData) (pre : RecordData),
      (((pre ++ suffix).map Prod.fst).Nodup) → (∀ pe ∈ suffix, pe.2 ≠ []) →
        (flattenRecord suffix).foldl (fun r pd => addEntry r pd.1 pd.2) pre
          = pre ++ suffix := by
  intro suffix
  induction suffix with
  | nil => intro pre _ _; simp [flattenRecord]
  | cons pe t ih =>
    obtain ⟨p, es⟩ := pe
    intro pre hnd hvals
    have hpnotpre : p ∉ pre.map Prod.fst := by
      rw [List.map_append] at hnd
      rw [List.nodup_append] at hnd
      intro hc
      exact hnd.2.2 hc (by simp)
    obtain ⟨e, es', rfl⟩ : ∃ e es', es = e :: es' := by
      have := hvals (p, es) (List.mem_cons_self _ _)
      cases es with
      | nil => exact absurd rfl this
      | cons e es' => exact ⟨e, es', rfl⟩
    rw [show flattenRecord ((p, e :: es') :: t)
        = ((e :: es').map fun x => (p, x)) ++ flattenRecord t from rfl]
    rw [List.foldl_append, List.map_cons, List.foldl_cons]
    rw [show addEntry pre p e = pre ++ [(p, [e])] from addEntry_not_mem e hpnotpre]
    rw [List.foldl_map, foldl_addEntry_group es' hpnotpre]
    have hassoc : pre ++ [(p, [e] ++ es')] = pre ++ [(p, e :: es')] := by simp
    rw [hassoc]
    have hnd' : (((pre ++ [(p, e :: es')]) ++ t).map Prod.fst).Nodup := by
      have : (pre ++ [(p, e :: es')]) ++ t = pre ++ ((p, e :: es') :: t) := by simp
      rw [this]
      exact hnd
    rw [ih (pre ++ [(p, e :: es')]) hnd'
      (fun x hx => hvals x (List.mem_cons_of_mem _ hx))]
    simp

theorem buildRecord_flatten {r : RecordData} (hnd : (r.map Prod.fst).Nodup)
    (hvals : ∀ pe ∈ r, pe.2 ≠ []) : buildRecord (flattenRecord r) = r := by
  have := buildRecord_flatten_aux r [] (by simpa using hnd) hvals
  simpa [buildRecord] using this

theorem parse_lines_record {r : RecordData} (hok : RecordOk r) :
    ∀ st : ParseState, st.sf = none → st.cur = [] →
      parse_lines st (renderRecord r)
        = some { st with
            sf := none, cur := [],
            blocks := st.blocks ++ [(recSF r, flattenRecord r)] } := by
  intro st hsf hcur
  obtain ⟨tn, sf, cur, bl⟩ := st
  have hsf' : sf = none := hsf
  have hcur' : cur = [] := hcur
  subst hsf' hcur'
  rw [renderRecord_eq, parse_lines_append]
  have hpairs : ∀ pd ∈ flattenRecord r, EntryOk pd.1 pd.2 := by
    intro pd hpd
    obtain ⟨pe, hpe, hk, hm⟩ := flattenRecord_mem hpd
    have := hok.2.2 pe hpe pd.2 hm
    rw [hk] at this
    exact this
  rw [parse_lines_pairs hpairs _, Option.some_bind]
  rw [parse_lines, parse_line_end, Option.some_bind]
  have hfold : foldSf none (flattenRecord r) = recSF r := by
    rw [← buildRecord_recSF, buildRecord_flatten hok.1 hok.2.1]
  simp [parse_lines, foldSf]
  exact hfold

theorem parse_lines_records {recs : List (Option Str × RecordData)}
    (hok : ∀ kr ∈ recs, RecordOk kr.2 ∧ kr.1 = recSF kr.2) :
    ∀ st : ParseState, st.sf = none → st.cur = [] →
      parse_lines st (recs.flatMap fun kr => renderRecord kr.2)
        = some { st with
            sf := none, cur := [],
            blocks := st.blocks ++ recs.map fun kr => (kr.1, flattenRecord kr.2) } := by
  induction recs with
  | nil =>
    intro st hsf hcur
    obtain ⟨tn, sf, cur, bl⟩ := st
    have hsf' : sf = none := hsf
    have hcur' : cur = [] := hcur
    subst hsf' hcur'
    simp [parse_lines]
  | cons kr t ih =>
    intro st hsf hcur
    rw [List.flatMap_cons, parse_lines_append]
    rw [parse_lines_record (hok kr (List.mem_cons_self _ _)).1 st hsf hcur,
      Option.some_bind]
    rw [ih (fun x hx => hok x (List.mem_cons_of_mem _ hx)) _ rfl rfl]
    rw [← (hok kr (List.mem_cons_self _ _)).2]
    simp

theorem insertRecord_not_mem {recs : List (Option Str × RecordData)}
    {k : Option Str} (h : k ∉ recs.map Prod.fst) (r : RecordData) :
    insertRecord recs k r = recs ++ [(k, r)] := by
  induction recs with
  | nil => rfl
  | cons kr t ih =>
    obtain ⟨k', r'⟩ := kr
    simp only [List.map_cons, List.mem_cons, not_or] at h
    rw [insertRecord, if_neg (fun he => h.1 he.symm), ih h.2]
    rfl

theorem foldl_insertRecord_build :
    ∀ (recs : List (Option Str × RecordData)),
      (∀ kr ∈ recs, RecordOk kr.2) →
      ∀ acc : List (Option Str × RecordData),
        (acc.map Prod.fst ++ recs.map Prod.fst).Nodup →
          (recs.map fun kr => (kr.1, flattenRecord kr.2)).foldl
              (fun a b => insertRecord a b.1 (buildRecord b.2)) acc
            = acc ++ recs := by
  intro recs
  induction recs with
  | nil => intro _ acc _; simp
  | cons kr t ih =>
    intro hok acc hnd
    rw [List.map_cons, List.foldl_cons]
    have hb : kr.1 ∉ acc.map Prod.fst := by
      rw [List.nodup_append] at hnd
      intro hc
      exact hnd.2.2 hc (by simp)
    rw [show buildRecord (flattenRecord kr.2) = kr.2 from
      buildRecord_flatten (hok kr (List.mem_cons_self _ _)).1
        (hok kr (List.mem_cons_self _ _)).2.1]
    rw [insertRecord_not_mem hb]
    rw [show (kr.1, kr.2) = kr from rfl]
    rw [ih (fun x hx => hok x (List.mem_cons_of_mem _ hx)) (acc ++ [kr])
      (by simpa using hnd)]
    simp

theorem save_load {S : Option Str × List (Option Str × RecordData)}
    (hok : StreamOk S) (hne : S.2 ≠ []) :
    loadStream (saveStream S) = some (some (S.1.getD []), S.2) := by
  obtain ⟨t, recs⟩ := S
  have hne' : recs ≠ [] := hne
  have hbody : saveStream (t, recs)
      = ('T' :: 'N' :: ':' :: t.getD [])
          :: recs.flatMap fun kr => renderRecord kr.2 := by
    rw [saveStream]
    cases recs with
    | nil => exact absurd rfl hne'
    | cons a l => rfl
  have htn : TNOk (some (t.getD [])) := by
    cases t with
    | none => exact (by decide : pystrip ['T', 'N', ':'] = ['T', 'N', ':'])
    | some v => exact hok.1
  rw [hbody, loadStream, getRecordLines]
  rw [show parse_lines ⟨none, none, [], []⟩
        (('T' :: 'N' :: ':' :: t.getD [])
          :: recs.flatMap fun kr => renderRecord kr.2)
      = (parse_line ⟨none, none, [], []⟩ ('T' :: 'N' :: ':' :: t.getD [])).bind
          fun st' => parse_lines st' (recs.flatMap fun kr => renderRecord kr.2)
    from rfl]
  rw [parse_line_tn htn, Option.some_bind]
  rw [parse_lines_records (fun kr hkr => hok.2.2 kr hkr) _ rfl rfl]
  have hfold := foldl_insertRecord_build recs (fun kr hkr => (hok.2.2 kr hkr).1) []
    (by simpa using hok.2.1)
  simp only [List.nil_append] at hfold
  simp [Option.map, hfold]

/-! ### Duplicate source files within one load -/

/-- The payloads one category carries among a block's lines, in order. -/
def linesFor (p : Str) (ls : List (Str × Str)) : List Str :=
  (ls.filter fun pd => pd.1 = p).map Prod.snd

/-- An entry list as an optional value: `none` when the category is absent. -/
def optOfList (es : List Str) : Option (List Str) :=
  if es = [] then none else some es

theorem linesFor_append (p : Str) (ls ls' : List (Str × Str)) :
    linesFor p (ls ++ ls') = linesFor p ls ++ linesFor p ls' := by
  simp [linesFor]

theorem buildRecord_alookup (p : Str) (ls : List (Str × Str)) :
    alookup p (buildRecord ls) = optOfList (linesFor p ls) := by
  induction ls using List.reverseRecOn with
  | nil => rfl
  | append_singleton t pd ih =>
    obtain ⟨q, d⟩ := pd
    rw [buildRecord_append, linesFor_append]
    by_cases hp : q = p
    · subst hp
      rw [alookup_addEntry_self, ih]
      by_cases he : linesFor q t = []
      · simp only [linesFor] at he
        simp [optOfList, he, linesFor]
      · simp only [linesFor] at he
        simp [optOfList, he, linesFor]
    · rw [alookup_addEntry_ne (buildRecord t) d (fun he => hp he.symm), ih]
      simp [linesFor, hp]

/-- The duplicate-compaction fold `Stream.load` performs over the blocks
sharing one source file. -/
def mergeFold (bss : List (List (Str × Str))) (acc : Option RecordData) :
    Option RecordData :=
  bss.foldl (fun d bs =>
    match d with
    | none => some (buildRecord bs)
    | some d' => some (extendRecord d' (buildRecord bs))) acc

theorem mergeFold_isSome :
    ∀ (bss : List (List (Str × Str))) (d : RecordData),
      ∃ d', mergeFold bss (some d) = some d' := by
  intro bss
  induction bss with
  | nil => intro d; exact ⟨d, rfl⟩
  | cons bs t ih => intro d; exact ih (extendRecord d (buildRecord bs))

theorem extendRecord_alookup_lines {d : RecordData} {base : List (Str × Str)}
    (hd : ∀ q, alookup q d = optOfList (linesFor q base)) (bs : List (Str × Str)) :
    ∀ q, alookup q (extendRecord d (buildRecord bs))
      = optOfList (linesFor q (base ++ bs)) := by
  intro q
  rw [extendRecord_alookup d q (buildRecord_nodup bs), buildRecord_alookup,
    hd q, linesFor_append]
  by_cases hb : linesFor q bs = []
  · simp [optOfList, hb]
  · by_cases hbase : linesFor q base = []
    · simp [optOfList, hb, hbase]
    · simp [optOfList, hb, hbase]

theorem mergeFold_alookup :
    ∀ (bss : List (List (Str × Str))) (d : RecordData) (base : List (Str × Str)),
      (∀ q, alookup q d = optOfList (linesFor q base)) →
      ∃ d', mergeFold bss (some d) = some d' ∧
        ∀ q, alookup q d'
          = optOfList (linesFor q (base ++ bss.flatMap (fun x => x))) := by
  intro bss
  induction bss with
  | nil => intro d base hd; exact ⟨d, rfl, by simpa using hd⟩
  | cons bs t ih =>
    intro d base hd
    rw [show mergeFold (bs :: t) (some d)
        = mergeFold t (some (extendRecord d (buildRecord bs))) from rfl]
    obtain ⟨d', hm, hq⟩ := ih (extendRecord d (buildRecord bs)) (base ++ bs)
      (extendRecord_alookup_lines hd bs)
    refine ⟨d', hm, fun q => ?_⟩
    rw [hq q, List.flatMap_cons, ← List.append_assoc]

theorem alookup_insertRecord_self
    (recs : List (Option Str × RecordData)) (k : Option Str) (r : RecordData) :
    alookup k (insertRecord recs k r)
      = some (match alookup k recs with
              | none => r
              | some d => extendRecord d r) := by
  induction recs with
  | nil => simp [insertRecord, alookup]
  | cons kr t ih =>
    obtain ⟨k0, r0⟩ := kr
    by_cases hk : k0 = k
    · subst hk
      simp [insertRecord, alookup]
    · rw [insertRecord, if_neg hk]
      rw [show alookup k ((k0, r0) :: insertRecord t k r)
          = alookup k (insertRecord t k r) from by simp [alookup, hk]]
      rw [ih]
      simp [alookup, hk]

theorem alookup_insertRecord_ne (recs : List (Option Str × RecordData))
    {k k' : Option Str} (r : RecordData) (h : k ≠ k') :
    alookup k (insertRecord recs k' r) = alookup k recs := by
  induction recs with
  | nil =>
    simp only [insertRecord, alookup]
    rw [if_neg (fun he : k' = k => h he.symm)]
  | cons kr t ih =>
    obtain ⟨k0, r0⟩ := kr
    by_cases hk : k0 = k'
    · rw [insertRecord, if_pos hk]
      have hk0 : ¬k0 = k := fun he => h (he ▸ hk)
      simp [alookup, hk0]
    · rw [insertRecord, if_neg hk]
      by_cases hk0 : k0 = k
      · simp [alookup, hk0]
      · simp [alookup, hk0, ih]

theorem alookup_foldl_insert :
    ∀ (blocks : List (Option Str × List (Str × Str)))
      (acc : List (Option Str × RecordData)) (k : Option Str),
      alookup k (blocks.foldl (fun a b => insertRecord a b.1 (buildRecord b.2)) acc)
        = mergeFold ((blocks.filter fun b => b.1 = k).map Prod.snd)
            (alookup k acc) := by
  intro blocks
  induction blocks with
  | nil => intro acc k; rfl
  | cons b t ih =>
    intro acc k
    rw [List.foldl_cons, ih]
    by_cases hb : b.1 = k
    · rw [List.filter_cons_of_pos (by simp [hb]), List.map_cons]
      rw [hb, alookup_insertRecord_self]
      rw [show mergeFold (b.2 :: (t.filter fun x => x.1 = k).map Prod.snd)
            (alookup k acc)
          = mergeFold ((t.filter fun x => x.1 = k).map Prod.snd)
              (match alookup k acc with
               | none => some (buildRecord b.2)
               | some d => some (extendRecord d (buildRecord b.2))) from rfl]
      cases alookup k acc <;> rfl
    · rw [List.filter_cons_of_neg (by simp [hb]),
        alookup_insertRecord_ne acc (buildRecord b.2) (fun he => hb he.symm)]

/-- Handler-free special case of the records-mapping characterization: the
loaded record keys are pairwise distinct, a key is present exactly when some
parsed block carries it, and the record for a key holds, category by
category, the concatenation of all its blocks' payload lines in block
order. -/
theorem load_records_char {X : List Str}
    {S : Option Str × List (Option Str × RecordData)}
    {blocks : List (Option Str × List (Str × Str))} {tn : Option Str}
    (h : loadStream X = some S) (hb : getRecordLines X = some (blocks, tn)) :
    (S.2.map Prod.fst).Nodup ∧
    (∀ k : Option Str,
      (alookup k S.2).isSome = true ↔ k ∈ blocks.map Prod.fst) ∧
    ∀ (k : Option Str) (d : RecordData), alookup k S.2 = some d →
      ∀ p : Str, alookup p d
        = optOfList (linesFor p
            ((blocks.filter fun b => b.1 = k).flatMap Prod.snd)) := by
  have hnd := (load_sound h).2.1
  have hS2 : S.2 = blocks.foldl
      (fun recs b => insertRecord recs b.1 (buildRecord b.2)) [] := by
    rw [loadStream, hb] at h
    simp only [Option.map] at h
    injection h with h'
    rw [← h']
  have hch : ∀ k : Option Str, alookup k S.2
      = mergeFold ((blocks.filter fun b => b.1 = k).map Prod.snd) none := by
    intro k
    rw [hS2, alookup_foldl_insert]
    rfl
  refine ⟨hnd, fun k => ?_, fun k d hd p => ?_⟩
  · rw [hch k]
    cases hf : blocks.filter (fun b => b.1 = k) with
    | nil =>
      have hnm : k ∉ blocks.map Prod.fst := by
        intro hm
        rcases List.mem_map.mp hm with ⟨b, hbm, hbk⟩
        have : b ∈ blocks.filter (fun x => x.1 = k) :=
          List.mem_filter.mpr ⟨hbm, by simp [hbk]⟩
        rw [hf] at this
        simp at this
      simp [mergeFold, hnm]
    | cons m rest =>
      have hm : k ∈ blocks.map Prod.fst := by
        have : m ∈ blocks.filter (fun x => x.1 = k) := by rw [hf]; simp
        rcases List.mem_filter.mp this with ⟨hmm, hmk⟩
        exact List.mem_map.mpr ⟨m, hmm, by simpa using hmk⟩
      obtain ⟨d', hd'⟩ := mergeFold_isSome (rest.map Prod.snd) (buildRecord m.2)
      rw [show mergeFold ((m :: rest).map Prod.snd) none
          = mergeFold (rest.map Prod.snd) (some (buildRecord m.2)) from rfl]
      simp [hd', hm]
  · rw [hch k] at hd
    cases hf : blocks.filter (fun b => b.1 = k) with
    | nil =>
      rw [hf] at hd
      simp [mergeFold] at hd
    | cons m rest =>
      rw [hf] at hd
      rw [show mergeFold ((m :: rest).map Prod.snd) none
          = mergeFold (rest.map Prod.snd) (some (buildRecord m.2)) from rfl] at hd
      obtain ⟨d', hm', hq⟩ := mergeFold_alookup (rest.map Prod.snd)
        (buildRecord m.2) m.2 (fun q => buildRecord_alookup q m.2)
      rw [hm'] at hd
      injection hd with hd'
      subst hd'
      rw [hq p, List.flatMap_cons]
      congr 2
      rw [List.flatMap_map]

/-! ## Serialization under the merge handler configuration

`Record.__str__` runs each category's handlers on its entry list, writes the
result back into `lines_per_prefix`, and emits the category's lines, walking
`prefix_order` in order; `merge.main` installs `sort_brda`/`sort_da` on the
detail categories, the count-restore handlers on `BRF`/`BRH`/`LF`/`LH` (which
read the detail lists from the record at the moment they run) and
`squash_misc` on `SF`/`FNF`/`FNH`. -/

/-- Python `entry.rsplit(',', 1)[-1]`: the text after the last comma (the
whole string when there is none). -/
def lastField (s : Str) : Str :=
  (s.reverse.takeWhile fun c => ¬c = ',').reverse

/-- `handlers.create_count_restore(target)`: the length of the target
category's list in the record at handler-run time (0 when absent). -/
def count_restore (target : Str) (r : RecordData) : List Str :=
  [natStr ((alookup target r).getD []).length]

/-- `handlers.create_hit_count_restore(target)`: count the target category's
entries whose last comma-separated field is a positive integer. -/
def hit_count_restore (target : Str) (r : RecordData) : Option (List Str) :=
  (optMap (fun e => pyInt (lastField e)) ((alookup target r).getD [])).map
    fun hs => [natStr (hs.countP fun h => decide (0 < h))]

/-- The `(line_number, entry)` sort key comparison of `merge.sort_da`. -/
def daSortLe (a b : (Nat × Nat) × Str) : Bool := decide (a.1.1 ≤ b.1.1)

/-- The `((line, block), entry)` sort key comparison of `merge.sort_brda`. -/
def brdaSortLe (a b : Brda × Str) : Bool :=
  decide (a.1.line < b.1.line ∨ (a.1.line = b.1.line ∧ a.1.block ≤ b.1.block))

/-- `merge.sort_da`: stable sort of the entries by parsed line number. -/
def sort_da (entries : List Str) : Option (List Str) :=
  (optMap split_da entries).map fun ps =>
    (pySort daSortLe (ps.zip entries)).map Prod.snd

/-- `merge.sort_brda`: stable sort of the entries by parsed `(line, block)`. -/
def sort_brda (entries : List Str) : Option (List Str) :=
  (optMap split_brda entries).map fun qs =>
    (pySort brdaSortLe (qs.zip entries)).map Prod.snd

/-- The category-handler table `merge.main` installs (with the default
`sort_brda` ordering for `BRDA`). -/
def mainCats (p : Str) (es : List Str) (r : RecordData) : Option (List Str) :=
  if p = "BRDA".toList then sort_brda es
  else if p = "DA".toList then sort_da es
  else if p = "BRF".toList then some (count_restore "BRDA".toList r)
  else if p = "BRH".toList then hit_count_restore "BRDA".toList r
  else if p = "LF".toList then some (count_restore "DA".toList r)
  else if p = "LH".toList then hit_count_restore "DA".toList r
  else if p = "SF".toList ∨ p = "FNF".toList ∨ p = "FNH".toList then squash_misc es
  else some es

/-- `Record.__str__` with category handlers: process the categories in
`prefix_order`, each handler reading the evolving `lines_per_prefix` state,
write the result back, and emit the category's lines.  Returns the emitted
lines and the final record state. -/
def runCats (hs : Str → List Str → RecordData → Option (List Str)) :
    RecordData → RecordData → Option (List Str × RecordData)
  | done, [] => some ([], done)
  | done, (p, es) :: todo =>
    (hs p es (done ++ (p, es) :: todo)).bind fun es' =>
    (runCats hs (done ++ [(p, es')]) todo).map fun of =>
      ((es'.map fun e => p ++ (':' :: e)) ++ of.1, of.2)

/-- The lines of a merged record's serialization (`Record.__str__` under the
`merge.main` handler configuration), with the record's final state. -/
def renderMergedRecord (r : RecordData) : Option (List Str × RecordData) :=
  (runCats mainCats [] r).map fun of => (of.1 ++ [end_of_record], of.2)

/-! ### Permutation facts about the stable sort -/

theorem insertStable_perm {α : Type} (le : α → α → Bool) (x : α) :
    ∀ l : List α, (insertStable le x l).Perm (x :: l) := by
  intro l
  induction l with
  | nil => exact List.Perm.refl _
  | cons y ys ih =>
    rw [insertStable]
    by_cases h : le y x = true
    · rw [if_pos h]
      exact (ih.cons y).trans (List.Perm.swap x y ys)
    · rw [if_neg h]

theorem pySort_perm {α : Type} (le : α → α → Bool) (xs : List α) :
    (pySort le xs).Perm xs := by
  have hgen : ∀ (l : List α) (acc : List α),
      (l.foldl (fun a x => insertStable le x a) acc).Perm (acc ++ l) := by
    intro l
    induction l with
    | nil => intro acc; simp
    | cons x t ih =>
      intro acc
      rw [List.foldl_cons]
      refine (ih (insertStable le x acc)).trans ?_
      refine (List.Perm.append_right t (insertStable_perm le x acc)).trans ?_
      exact List.perm_middle.symm
  simpa [pySort] using hgen xs []

/-! ### Comma-free numeric fields and `rsplit` -/

theorem mem_dropWhile_of_mem {α : Type} {p : α → Bool} {x : α} :
    ∀ {l : List α}, x ∈ l → p x = false → x ∈ l.dropWhile p := by
  intro l
  induction l with
  | nil => intro h _; simp at h
  | cons y t ih =>
    intro h hx
    rw [List.dropWhile]
    cases hy : p y with
    | true =>
      rcases List.mem_cons.mp h with rfl | hm
      · rw [hx] at hy; exact absurd hy (by simp)
      · exact ih hm hx
    | false => exact h

theorem mem_pystrip_of_mem {s : Str} {x : Char} (h : x ∈ s)
    (hx : isPySpace x = false) : x ∈ pystrip s := by
  rw [pystrip]
  rw [List.mem_reverse]
  refine mem_dropWhile_of_mem ?_ hx
  rw [List.mem_reverse]
  exact mem_dropWhile_of_mem h hx

theorem pyInt_no_comma {s : Str} {i : Int} (h : pyInt s = some i) :
    (',' : Char) ∉ s := by
  intro hc
  have hc' : (',' : Char) ∈ pystrip s := mem_pystrip_of_mem hc (by decide)
  rw [pyInt] at h
  cases ht : pystrip s with
  | nil => rw [ht] at h; simp at h
  | cons c rest =>
    rw [ht] at h hc'
    rw [if_neg (by simp)] at h
    simp only [List.headD_cons, List.tail_cons] at h
    by_cases hminus : c = '-'
    · rw [if_pos hminus] at h
      by_cases hcond : rest ≠ [] ∧ rest.all Char.isDigit
      · rcases List.mem_cons.mp hc' with rfl | hm
        · exact absurd hminus (by decide)
        · have := List.all_eq_true.mp hcond.2 ',' hm
          exact absurd this (by decide)
      · rw [if_neg hcond] at h; simp at h
    · rw [if_neg hminus] at h
      by_cases hplus : c = '+'
      · rw [if_pos hplus] at h
        by_cases hcond : rest ≠ [] ∧ rest.all Char.isDigit
        · rcases List.mem_cons.mp hc' with rfl | hm
          · exact absurd hplus (by decide)
          · have := List.all_eq_true.mp hcond.2 ',' hm
            exact absurd this (by decide)
        · rw [if_neg hcond] at h; simp at h
      · rw [if_neg hplus] at h
        by_cases hdig : (c :: rest).all Char.isDigit
        · have := List.all_eq_true.mp hdig ',' hc'
          exact absurd this (by decide)
        · rw [if_neg (by simpa using hdig)] at h; simp at h

theorem pyIntNonneg_no_comma {s : Str} {n : Nat} (h : pyIntNonneg s = some n) :
    (',' : Char) ∉ s := by
  rw [pyIntNonneg] at h
  cases hi : pyInt s with
  | none => rw [hi] at h; simp at h
  | some i => exact pyInt_no_comma hi

theorem pyIntNonneg_pyInt {s : Str} {n : Nat} (h : pyIntNonneg s = some n) :
    pyInt s = some (n : Int) := by
  rw [pyIntNonneg] at h
  cases hi : pyInt s with
  | none => rw [hi] at h; simp at h
  | some i =>
    rw [hi] at h
    simp only [Option.some_bind] at h
    by_cases hneg : i < 0
    · rw [if_pos hneg] at h; simp at h
    · rw [if_neg hneg] at h
      injection h with h'
      subst h'
      rw [Int.toNat_of_nonneg (by omega)]

theorem takeWhile_append_of_all {α : Type} {p : α → Bool} {x : α}
    (hx : p x = false) :
    ∀ {l1 : List α} (l2 : List α), (∀ y ∈ l1, p y = true) →
      (l1 ++ x :: l2).takeWhile p = l1 := by
  intro l1
  induction l1 with
  | nil => intro l2 _; simp [List.takeWhile, hx]
  | cons y t ih =>
    intro l2 hall
    rw [List.cons_append, List.takeWhile]
    rw [hall y (List.mem_cons_self _ _)]
    rw [ih l2 (fun z hz => hall z (List.mem_cons_of_mem _ hz))]

theorem lastField_append {a b : Str} (hb : (',' : Char) ∉ b) :
    lastField (a ++ ',' :: b) = b := by
  rw [lastField, List.reverse_append]
  rw [show (',' :: b).reverse = b.reverse ++ [','] from by simp]
  rw [List.append_assoc, List.cons_append, List.nil_append]
  rw [takeWhile_append_of_all (by decide) a.reverse]
  · exact List.reverse_reverse b
  · intro y hy
    simp only [List.mem_reverse] at hy
    simp only [decide_eq_true_eq]
    intro he
    exact hb (he ▸ hy)

theorem split_da_lastField {e : Str} {p : Nat × Nat} (h : split_da e = some p) :
    pyInt (lastField e) = some (p.2 : Int) := by
  rw [split_da] at h
  cases hs : splitFirst ',' e with
  | none => rw [hs] at h; simp at h
  | some ab =>
    rw [hs] at h
    simp only [Option.some_bind] at h
    cases hl : pyIntNonneg ab.1 with
    | none => rw [hl] at h; simp at h
    | some l =>
      rw [hl] at h
      simp only [Option.some_bind] at h
      cases hh : pyIntNonneg ab.2 with
      | none => rw [hh] at h; simp at h
      | some hc =>
        rw [hh] at h
        simp only [Option.some_bind] at h
        injection h with h'
        obtain ⟨he, hcomma⟩ := splitFirst_eq_some hs
        rw [he, lastField_append (pyIntNonneg_no_comma hh)]
        rw [pyIntNonneg_pyInt hh, ← h']

theorem split_brda_lastField {e : Str} {q : Brda} (h : split_brda e = some q) :
    pyInt (lastField e) = some (q.hit : Int) := by
  rw [split_brda] at h
  cases hs0 : splitFirst ',' e with
  | none => rw [hs0] at h; simp at h
  | some s0 =>
    rw [hs0] at h
    simp only [Option.some_bind] at h
    cases hs1 : splitFirst ',' s0.2 with
    | none => rw [hs1] at h; simp at h
    | some s1 =>
      rw [hs1] at h
      simp only [Option.some_bind] at h
      cases hs2 : splitFirst ',' s1.2 with
      | none => rw [hs2] at h; simp at h
      | some s2 =>
        rw [hs2] at h
        simp only [Option.some_bind] at h
        cases hl : pyIntNonneg s0.1 with
        | none => rw [hl] at h; simp at h
        | some l =>
          rw [hl] at h
          simp only [Option.some_bind] at h
          cases hb : pyIntNonneg s1.1 with
          | none => rw [hb] at h; simp at h
          | some b =>
            rw [hb] at h
            simp only [Option.some_bind] at h
            cases hh : pyIntNonneg s2.2 with
            | none => rw [hh] at h; simp at h
            | some hc =>
              rw [hh] at h
              simp only [Option.some_bind] at h
              injection h with h'
              obtain ⟨he0, _⟩ := splitFirst_eq_some hs0
              obtain ⟨he1, _⟩ := splitFirst_eq_some hs1
              obtain ⟨he2, _⟩ := splitFirst_eq_some hs2
              have he : e = (s0.1 ++ ',' :: (s1.1 ++ ',' :: s2.1)) ++ ',' :: s2.2 := by
                rw [he0, he1, he2]
                simp
              rw [he, lastField_append (pyIntNonneg_no_comma hh)]
              rw [pyIntNonneg_pyInt hh]
              rw [← h']

theorem zip_mem_of_optMap {α γ : Type} {f : α → Option γ} :
    ∀ {xs : List α} {ys : List γ}, optMap f xs = some ys →
      ∀ yx ∈ ys.zip xs, f yx.2 = some yx.1 := by
  intro xs
  induction xs with
  | nil =>
    intro ys h yx hm
    rw [optMap_nil] at h
    injection h with h'
    subst h'
    simp at hm
  | cons x t ih =>
    intro ys h yx hm
    rcases optMap_cons_some.mp h with ⟨y, ys', hx, ht, rfl⟩
    rw [List.zip_cons_cons] at hm
    rcases List.mem_cons.mp hm with rfl | hm'
    · exact hx
    · exact ih ht yx hm'

theorem sort_brda_spec {es : List Str} {qs : List Brda}
    (h : optMap split_brda es = some qs) :
    ∃ es' qs', sort_brda es = some es' ∧ es'.Perm es ∧
      optMap split_brda es' = some qs' ∧ qs'.Perm qs := by
  have hlen : qs.length = es.length := optMap_some_length h
  have hperm := pySort_perm brdaSortLe (qs.zip es)
  refine ⟨(pySort brdaSortLe (qs.zip es)).map Prod.snd,
    (pySort brdaSortLe (qs.zip es)).map Prod.fst,
    by rw [sort_brda, h]; rfl, ?_, ?_, ?_⟩
  · refine (hperm.map Prod.snd).trans ?_
    rw [List.map_snd_zip qs es (le_of_eq hlen.symm)]
  · exact optMap_map_some fun x hx =>
      zip_mem_of_optMap h x (hperm.mem_iff.mp hx)
  · refine (hperm.map Prod.fst).trans ?_
    rw [List.map_fst_zip qs es (le_of_eq hlen)]

theorem sort_da_spec {es : List Str} {ps : List (Nat × Nat)}
    (h : optMap split_da es = some ps) :
    ∃ es' ps', sort_da es = some es' ∧ es'.Perm es ∧
      optMap split_da es' = some ps' ∧ ps'.Perm ps := by
  have hlen : ps.length = es.length := optMap_some_length h
  have hperm := pySort_perm daSortLe (ps.zip es)
  refine ⟨(pySort daSortLe (ps.zip es)).map Prod.snd,
    (pySort daSortLe (ps.zip es)).map Prod.fst,
    by rw [sort_da, h]; rfl, ?_, ?_, ?_⟩
  · refine (hperm.map Prod.snd).trans ?_
    rw [List.map_snd_zip ps es (le_of_eq hlen.symm)]
  · exact optMap_map_some fun x hx =>
      zip_mem_of_optMap h x (hperm.mem_iff.mp hx)
  · refine (hperm.map Prod.fst).trans ?_
    rw [List.map_fst_zip ps es (le_of_eq hlen)]

theorem optMap_congr_some {α γ δ : Type} {f : α → Option γ} {g : α → Option δ}
    {h : γ → δ} :
    ∀ {xs : List α} {ys : List γ}, optMap f xs = some ys →
      (∀ x ∈ xs, ∀ y, f x = some y → g x = some (h y)) →
      optMap g xs = some (ys.map h) := by
  intro xs
  induction xs with
  | nil =>
    intro ys hm _
    rw [optMap_nil] at hm
    injection hm with hm'
    subst hm'
    rfl
  | cons x t ih =>
    intro ys hm hc
    rcases optMap_cons_some.mp hm with ⟨y, ys', hx, ht, rfl⟩
    rw [List.map_cons, optMap]
    rw [hc x (List.mem_cons_self _ _) y hx, Option.some_bind]
    rw [ih ht (fun z hz => hc z (List.mem_cons_of_mem _ hz)), Option.some_bind]

theorem hit_count_restore_brda {r : RecordData} {qs : List Brda}
    (h : optMap split_brda ((alookup "BRDA".toList r).getD []) = some qs) :
    hit_count_restore "BRDA".toList r
      = some [natStr (qs.countP fun q => decide (0 < q.hit))] := by
  rw [hit_count_restore,
    optMap_congr_some h (fun e _ q hq => split_brda_lastField hq)]
  simp only [Option.map]
  congr 2
  rw [List.countP_map]
  refine congrArg natStr (List.countP_congr fun q _ => ?_)
  simp [Function.comp, decide_eq_decide, Int.natCast_pos]

theorem hit_count_restore_da {r : RecordData} {ps : List (Nat × Nat)}
    (h : optMap split_da ((alookup "DA".toList r).getD []) = some ps) :
    hit_count_restore "DA".toList r
      = some [natStr (ps.countP fun q => decide (0 < q.2))] := by
  rw [hit_count_restore,
    optMap_congr_some h (fun e _ q hq => split_da_lastField hq)]
  simp only [Option.map]
  congr 2
  rw [List.countP_map]
  refine congrArg natStr (List.countP_congr fun q _ => ?_)
  simp [Function.comp, decide_eq_decide, Int.natCast_pos]

theorem alookup_append {κ ν : Type} [DecidableEq κ] (k : κ) :
    ∀ (l1 l2 : List (κ × ν)), alookup k (l1 ++ l2)
      = match alookup k l1 with
        | some v => some v
        | none => alookup k l2 := by
  intro l1 l2
  induction l1 with
  | nil => rfl
  | cons kv t ih =>
    obtain ⟨k', v⟩ := kv
    by_cases hk : k' = k
    · simp [alookup, hk]
    · simp [alookup, hk, ih]

theorem alookup_middle_self {κ ν : Type} [DecidableEq κ] {p : κ}
    {done : List (κ × ν)} (h : p ∉ done.map Prod.fst) (x : ν)
    (rest : List (κ × ν)) :
    alookup p (done ++ (p, x) :: rest) = some x := by
  rw [alookup_append, alookup_not_mem_keys h]
  simp [alookup]

theorem alookup_middle_ne {κ ν : Type} [DecidableEq κ] {k p : κ} (h : ¬p = k) :
    ∀ (done : List (κ × ν)) (x y : ν) (rest : List (κ × ν)),
      alookup k (done ++ (p, x) :: rest) = alookup k (done ++ (p, y) :: rest) := by
  intro done x y rest
  rw [alookup_append, alookup_append]
  cases alookup k done <;> simp [alookup, h]

/-- What one category-handler application of the `merge.main` configuration
produces, phrased against the detail lists `qs0`/`ps0` the record carries
(whose counts are unchanged by the stable sorts). -/
def catOut (qs0 : List Brda) (ps0 : List (Nat × Nat)) (p : Str)
    (es es' : List Str) : Prop :=
  if p = "BRDA".toList then
    ∃ qs', optMap split_brda es' = some qs' ∧ qs'.Perm qs0
  else if p = "DA".toList then
    ∃ ps', optMap split_da es' = some ps' ∧ ps'.Perm ps0
  else if p = "BRF".toList then es' = [natStr qs0.length]
  else if p = "BRH".toList then
    es' = [natStr (qs0.countP fun q => decide (0 < q.hit))]
  else if p = "LF".toList then es' = [natStr ps0.length]
  else if p = "LH".toList then
    es' = [natStr (ps0.countP fun q => decide (0 < q.2))]
  else if p = "SF".toList ∨ p = "FNF".toList ∨ p = "FNH".toList then
    es' = es.take 1
  else es' = es

/-- The record state's `BRDA` and `DA` lists parse and are permutations of
the original lists. -/
def StateParses (qs0 : List Brda) (ps0 : List (Nat × Nat)) (S : RecordData) :
    Prop :=
  (∃ qs, optMap split_brda ((alookup "BRDA".toList S).getD []) = some qs ∧
    qs.Perm qs0) ∧
  (∃ ps, optMap split_da ((alookup "DA".toList S).getD []) = some ps ∧
    ps.Perm ps0)

theorem StateParses_replace {qs0 : List Brda} {ps0 : List (Nat × Nat)}
    {done rest : RecordData} {p : Str}
    (h1 : ¬p = "BRDA".toList) (h2 : ¬p = "DA".toList) {es es' : List Str}
    (hinv : StateParses qs0 ps0 (done ++ (p, es) :: rest)) :
    StateParses qs0 ps0 (done ++ (p, es') :: rest) := by
  obtain ⟨⟨qs, hqs, hq⟩, ⟨ps, hps, hp⟩⟩ := hinv
  refine ⟨⟨qs, ?_, hq⟩, ⟨ps, ?_, hp⟩⟩
  · rw [alookup_middle_ne h1 done es' es rest]
    exact hqs
  · rw [alookup_middle_ne h2 done es' es rest]
    exact hps

theorem mainCats_step {qs0 : List Brda} {ps0 : List (Nat × Nat)}
    {done rest : RecordData} {p : Str} {es : List Str}
    (hnd : ((done ++ (p, es) :: rest).map Prod.fst).Nodup)
    (hes : es ≠ [])
    (hinv : StateParses qs0 ps0 (done ++ (p, es) :: rest)) :
    ∃ es', mainCats p es (done ++ (p, es) :: rest) = some es' ∧
      catOut qs0 ps0 p es es' ∧
      StateParses qs0 ps0 (done ++ (p, es') :: rest) := by
  have hpd : p ∉ done.map Prod.fst := by
    rw [List.map_append, List.map_cons] at hnd
    intro hc
    exact (List.nodup_append.mp hnd).2.2 hc (List.mem_cons_self _ _)
  by_cases hp1 : p = "BRDA".toList
  · subst hp1
    obtain ⟨⟨qsS, hqsS, hperm⟩, hDA⟩ := hinv
    rw [alookup_middle_self hpd es rest, Option.getD_some] at hqsS
    obtain ⟨es', qs', hsort, hpe, hparse', hperm'⟩ := sort_brda_spec hqsS
    refine ⟨es', ?_, ?_, ?_, ?_⟩
    · rw [mainCats, if_pos rfl, hsort]
    · rw [catOut, if_pos rfl]
      exact ⟨qs', hparse', hperm'.trans hperm⟩
    · refine ⟨qs', ?_, hperm'.trans hperm⟩
      rw [alookup_middle_self hpd es' rest, Option.getD_some]
      exact hparse'
    · obtain ⟨ps, hps, hpp⟩ := hDA
      refine ⟨ps, ?_, hpp⟩
      rw [alookup_middle_ne (by decide) done es' es rest]
      exact hps
  · by_cases hp2 : p = "DA".toList
    · subst hp2
      obtain ⟨hBR, ⟨psS, hpsS, hperm⟩⟩ := hinv
      rw [alookup_middle_self hpd es rest, Option.getD_some] at hpsS
      obtain ⟨es', ps', hsort, hpe, hparse', hperm'⟩ := sort_da_spec hpsS
      refine ⟨es', ?_, ?_, ?_, ?_⟩
      · rw [mainCats, if_neg hp1, if_pos rfl, hsort]
      · rw [catOut, if_neg hp1, if_pos rfl]
        exact ⟨ps', hparse', hperm'.trans hperm⟩
      · obtain ⟨qs, hqs, hqq⟩ := hBR
        refine ⟨qs, ?_, hqq⟩
        rw [alookup_middle_ne (by decide) done es' es rest]
        exact hqs
      · refine ⟨ps', ?_, hperm'.trans hperm⟩
        rw [alookup_middle_self hpd es' rest, Option.getD_some]
        exact hparse'
    · by_cases hp3 : p = "BRF".toList
      · subst hp3
        obtain ⟨qsS, hqsS, hperm⟩ := hinv.1
        have hlen : ((alookup "BRDA".toList
              (done ++ ("BRF".toList, es) :: rest)).getD []).length
            = qs0.length := by
          rw [← optMap_some_length hqsS]
          exact hperm.length_eq
        refine ⟨[natStr qs0.length], ?_, ?_, ?_⟩
        · rw [mainCats, if_neg hp1, if_neg hp2, if_pos rfl]
          rw [count_restore, hlen]
        · rw [catOut, if_neg hp1, if_neg hp2, if_pos rfl]
        · exact StateParses_replace hp1 hp2 hinv
      · by_cases hp4 : p = "BRH".toList
        · subst hp4
          obtain ⟨qsS, hqsS, hperm⟩ := hinv.1
          refine ⟨[natStr (qs0.countP fun q => decide (0 < q.hit))], ?_, ?_, ?_⟩
          · rw [mainCats, if_neg hp1, if_neg hp2, if_neg hp3, if_pos rfl]
            rw [hit_count_restore_brda hqsS,
              hperm.countP_eq fun q => decide (0 < q.hit)]
          · rw [catOut, if_neg hp1, if_neg hp2, if_neg hp3, if_pos rfl]
          · exact StateParses_replace hp1 hp2 hinv
        · by_cases hp5 : p = "LF".toList
          · subst hp5
            obtain ⟨psS, hpsS, hperm⟩ := hinv.2
            have hlen : ((alookup "DA".toList
                  (done ++ ("LF".toList, es) :: rest)).getD []).length
                = ps0.length := by
              rw [← optMap_some_length hpsS]
              exact hperm.length_eq
            refine ⟨[natStr ps0.length], ?_, ?_, ?_⟩
            · rw [mainCats, if_neg hp1, if_neg hp2, if_neg hp3, if_neg hp4,
                if_pos rfl]
              rw [count_restore, hlen]
            · rw [catOut, if_neg hp1, if_neg hp2, if_neg hp3, if_neg hp4,
                if_pos rfl]
            · exact StateParses_replace hp1 hp2 hinv
          · by_cases hp6 : p = "LH".toList
            · subst hp6
              obtain ⟨psS, hpsS, hperm⟩ := hinv.2
              refine ⟨[natStr (ps0.countP fun q => decide (0 < q.2))], ?_, ?_, ?_⟩
              · rw [mainCats, if_neg hp1, if_neg hp2, if_neg hp3, if_neg hp4,
                  if_neg hp5, if_pos rfl]
                rw [hit_count_restore_da hpsS,
                  hperm.countP_eq fun q => decide (0 < q.2)]
              · rw [catOut, if_neg hp1, if_neg hp2, if_neg hp3, if_neg hp4,
                  if_neg hp5, if_pos rfl]
              · exact StateParses_replace hp1 hp2 hinv
            · by_cases hp7 : p = "SF".toList ∨ p = "FNF".toList ∨ p = "FNH".toList
              · obtain ⟨e0, t0, rfl⟩ : ∃ e0 t0, es = e0 :: t0 := by
                  cases es with
                  | nil => exact absurd rfl hes
                  | cons e0 t0 => exact ⟨e0, t0, rfl⟩
                refine ⟨[e0], ?_, ?_, ?_⟩
                · rw [mainCats, if_neg hp1, if_neg hp2, if_neg hp3, if_neg hp4,
                    if_neg hp5, if_neg hp6, if_pos hp7]
                  rw [squash_misc]
                  rw [if_pos (by simp [List.length_eq_zero, List.dedup_eq_nil])]
                  rfl
                · rw [catOut, if_neg hp1, if_neg hp2, if_neg hp3, if_neg hp4,
                    if_neg hp5, if_neg hp6, if_pos hp7]
                  rfl
                · exact StateParses_replace hp1 hp2 hinv
              · refine ⟨es, ?_, ?_, ?_⟩
                · rw [mainCats, if_neg hp1, if_neg hp2, if_neg hp3, if_neg hp4,
                    if_neg hp5, if_neg hp6, if_neg hp7]
                · rw [catOut, if_neg hp1, if_neg hp2, if_neg hp3, if_neg hp4,
                    if_neg hp5, if_neg hp6, if_neg hp7]
                · exact StateParses_replace hp1 hp2 hinv

theorem runCats_main_go (qs0 : List Brda) (ps0 : List (Nat × Nat)) :
    ∀ (todo done : RecordData),
      ((done ++ todo).map Prod.fst).Nodup →
      (∀ pe ∈ todo, pe.2 ≠ []) →
      StateParses qs0 ps0 (done ++ todo) →
      ∃ (out : List Str) (todo' : RecordData),
        runCats mainCats done todo = some (out, done ++ todo') ∧
        todo'.map Prod.fst = todo.map Prod.fst ∧
        out = todo'.flatMap (fun pe => pe.2.map fun e => pe.1 ++ (':' :: e)) ∧
        List.Forall₂ (fun pe pe' => pe'.1 = pe.1 ∧ catOut qs0 ps0 pe.1 pe.2 pe'.2)
          todo todo' ∧
        StateParses qs0 ps0 (done ++ todo') := by
  intro todo
  induction todo with
  | nil =>
    intro done hnd _ hinv
    refine ⟨[], [], ?_, rfl, rfl, List.Forall₂.nil, ?_⟩
    · simp [runCats]
    · simpa using hinv
  | cons pe rest ih =>
    obtain ⟨p, es⟩ := pe
    intro done hnd hvals hinv
    obtain ⟨es', hstep, hcat, hinv'⟩ :=
      mainCats_step hnd (hvals (p, es) (List.mem_cons_self _ _)) hinv
    have hnd' : (((done ++ [(p, es')]) ++ rest).map Prod.fst).Nodup := by
      have : ((done ++ [(p, es')]) ++ rest).map Prod.fst
          = (done ++ (p, es) :: rest).map Prod.fst := by
        simp
      rw [this]
      exact hnd
    have hinv'' : StateParses qs0 ps0 ((done ++ [(p, es')]) ++ rest) := by
      have : (done ++ [(p, es')]) ++ rest = done ++ (p, es') :: rest := by simp
      rw [this]
      exact hinv'
    obtain ⟨out2, todo'', hrun2, hkeys2, hout2, hrel2, hfin2⟩ :=
      ih (done ++ [(p, es')]) hnd'
        (fun x hx => hvals x (List.mem_cons_of_mem _ hx)) hinv''
    refine ⟨(es'.map fun e => p ++ (':' :: e)) ++ out2, (p, es') :: todo'',
      ?_, ?_, ?_, ?_, ?_⟩
    · rw [runCats, hstep, Option.some_bind, hrun2]
      simp
    · simp [hkeys2]
    · simp [hout2]
    · exact List.Forall₂.cons ⟨rfl, hcat⟩ hrel2
    · have : done ++ (p, es') :: todo'' = (done ++ [(p, es')]) ++ todo'' := by
        simp
      rw [this]
      exact hfin2

theorem alookup_forall₂ {qs0 : List Brda} {ps0 : List (Nat × Nat)} :
    ∀ {l l' : RecordData},
      List.Forall₂ (fun pe pe' => pe'.1 = pe.1 ∧ catOut qs0 ps0 pe.1 pe.2 pe'.2)
        l l' →
      ∀ k : Str, k ∈ l.map Prod.fst →
        ∃ es es', alookup k l = some es ∧ alookup k l' = some es' ∧
          catOut qs0 ps0 k es es' := by
  intro l l' h
  induction h with
  | nil => intro k hk; simp at hk
  | @cons a b l₁ l₂ h₁ h₂ ih =>
    obtain ⟨p1, es1⟩ := a
    obtain ⟨p2, es2⟩ := b
    obtain ⟨heq, hcat⟩ := h₁
    have heq' : p2 = p1 := heq
    subst heq'
    intro k hk
    by_cases hke : p2 = k
    · subst hke
      exact ⟨es1, es2, by simp [alookup], by simp [alookup], hcat⟩
    · rw [List.map_cons] at hk
      rcases List.mem_cons.mp hk with heq2 | hm
      · exact absurd heq2.symm hke
      · obtain ⟨es, es', h1, h2, h3⟩ := ih k hm
        refine ⟨es, es', ?_, ?_, h3⟩
        · rw [alookup, if_neg hke]
          exact h1
        · rw [alookup, if_neg hke]
          exact h2

/-- C4: under the `merge.main` handler configuration, the serializer
recomputes the aggregate counters from the detail lists present at output
time: the emitted `BRF` is the number of distinct `(line, name)` keys in the
final `BRDA` list, `BRH` the number of such keys with positive hit count,
and `LF`/`LH` likewise over the final `DA` list — never stale input
counts. -/
theorem merge_restores_aggregates (r : RecordData) (qs0 : List Brda)
    (ps0 : List (Nat × Nat))
    (hnd : (r.map Prod.fst).Nodup)
    (hvals : ∀ pe ∈ r, pe.2 ≠ [])
    (hqs : optMap split_brda ((alookup "BRDA".toList r).getD []) = some qs0)
    (hknd : (qs0.map brdaKey).Nodup)
    (hps : optMap split_da ((alookup "DA".toList r).getD []) = some ps0)
    (hbrf : "BRF".toList ∈ r.map Prod.fst)
    (hbrh : "BRH".toList ∈ r.map Prod.fst)
    (hlf : "LF".toList ∈ r.map Prod.fst)
    (hlh : "LH".toList ∈ r.map Prod.fst) :
    ∃ out fin qs' ps',
      runCats mainCats [] r = some (out, fin) ∧
      optMap split_brda ((alookup "BRDA".toList fin).getD []) = some qs' ∧
      optMap split_da ((alookup "DA".toList fin).getD []) = some ps' ∧
      alookup "BRF".toList fin
        = some [natStr ((qs'.map brdaKey).dedup.length)] ∧
      alookup "BRH".toList fin
        = some [natStr (((qs'.filter fun q => decide (0 < q.hit)).map
            brdaKey).dedup.length)] ∧
      alookup "LF".toList fin = some [natStr ps'.length] ∧
      alookup "LH".toList fin
        = some [natStr ((ps'.filter fun q => decide (0 < q.2)).length)] ∧
      ("BRF".toList ++ (':' :: natStr ((qs'.map brdaKey).dedup.length))) ∈ out ∧
      ("BRH".toList ++ (':' :: natStr (((qs'.filter fun q =>
          decide (0 < q.hit)).map brdaKey).dedup.length))) ∈ out ∧
      ("LF".toList ++ (':' :: natStr ps'.length)) ∈ out ∧
      ("LH".toList ++ (':' :: natStr ((ps'.filter fun q =>
          decide (0 < q.2)).length))) ∈ out := by
  obtain ⟨out, todo', hrun, hkeys, hout, hrel, hfin⟩ :=
    runCats_main_go qs0 ps0 r [] (by simpa using hnd) hvals
      ⟨⟨qs0, by simpa using hqs, List.Perm.refl _⟩,
       ⟨ps0, by simpa using hps, List.Perm.refl _⟩⟩
  obtain ⟨qs', hqs', hqperm⟩ := hfin.1
  obtain ⟨ps', hps', hpperm⟩ := hfin.2
  have hknd' : (qs'.map brdaKey).Nodup :=
    (hqperm.map brdaKey).nodup_iff.mpr hknd
  have hbrfval : (qs'.map brdaKey).dedup.length = qs0.length := by
    rw [List.Nodup.dedup hknd', List.length_map]
    exact hqperm.length_eq
  have hbrhval : ((qs'.filter fun q => decide (0 < q.hit)).map
      brdaKey).dedup.length = qs0.countP fun q => decide (0 < q.hit) := by
    have hsub : ((qs'.filter fun q => decide (0 < q.hit)).map brdaKey).Sublist
        (qs'.map brdaKey) :=
      List.Sublist.map brdaKey (List.filter_sublist qs')
    rw [List.Nodup.dedup (List.Nodup.sublist hsub hknd'), List.length_map,
      ← List.countP_eq_length_filter]
    exact hqperm.countP_eq _
  have hlfval : ps'.length = ps0.length := hpperm.length_eq
  have hlhval : (ps'.filter fun q => decide (0 < q.2)).length
      = ps0.countP fun q => decide (0 < q.2) := by
    rw [← List.countP_eq_length_filter]
    exact hpperm.countP_eq _
  obtain ⟨e1, e1', hl1, hl1', hc1⟩ := alookup_forall₂ hrel "BRF".toList hbrf
  obtain ⟨e2, e2', hl2, hl2', hc2⟩ := alookup_forall₂ hrel "BRH".toList hbrh
  obtain ⟨e3, e3', hl3, hl3', hc3⟩ := alookup_forall₂ hrel "LF".toList hlf
  obtain ⟨e4, e4', hl4, hl4', hc4⟩ := alookup_forall₂ hrel "LH".toList hlh
  rw [catOut, if_neg (by decide), if_neg (by decide), if_pos rfl] at hc1
  rw [catOut, if_neg (by decide), if_neg (by decide), if_neg (by decide),
    if_pos rfl] at hc2
  rw [catOut, if_neg (by decide), if_neg (by decide), if_neg (by decide),
    if_neg (by decide), if_pos rfl] at hc3
  rw [catOut, if_neg (by decide), if_neg (by decide), if_neg (by decide),
    if_neg (by decide), if_neg (by decide), if_pos rfl] at hc4
  subst hc1 hc2 hc3 hc4
  have hmem : ∀ {k : Str} {v : Str}, alookup k todo' = some [v] →
      (k ++ (':' :: v)) ∈ out := by
    intro k v hkv
    rw [hout]
    exact List.mem_flatMap.mpr ⟨(k, [v]), alookup_mem hkv,
      List.mem_map.mpr ⟨v, List.mem_cons_self _ _, rfl⟩⟩
  refine ⟨out, todo', qs', ps', hrun, hqs', hps', ?_, ?_, ?_, ?_, ?_, ?_, ?_, ?_⟩
  · rw [hl1', hbrfval]
  · rw [hl2', hbrhval]
  · rw [hl3', hlfval]
  · rw [hl4', hlhval]
  · rw [hbrfval]; exact hmem hl1'
  · rw [hbrhval]; exact hmem hl2'
  · rw [hlfval]; exact hmem hl3'
  · rw [hlhval]; exact hmem hl4'

/-! ## Claim theorems, witnesses and counterexamples -/

/-- C9 (amended): an input whose last record block is not terminated by
`end_of_record` parses without error, and every entry of the unterminated
trailing block is silently discarded: appending trailing entry lines to an
input that loads successfully leaves the loaded stream unchanged. -/
theorem trailing_block_discarded {X : List Str}
    {S : Option Str × List (Option Str × RecordData)}
    (h : loadStream X = some S)
    {ps : List (Str × Str)} (hok : ∀ pd ∈ ps, EntryOk pd.1 pd.2) :
    loadStream (X ++ ps.map fun pd => pd.1 ++ (':' :: pd.2)) = some S := by
  cases hp : parse_lines ⟨none, none, [], []⟩ X with
  | none =>
    rw [loadStream, getRecordLines, hp] at h
    simp at h
  | some st =>
    rw [loadStream, getRecordLines, hp] at h
    rw [loadStream, getRecordLines, parse_lines_append, hp, Option.some_bind,
      parse_lines_pairs hok st]
    simp only [Option.map] at h ⊢
    exact h

theorem trailing_block_discarded_witness :
    loadStream (["TN:t".toList, "SF:a.c".toList, "DA:1,2".toList,
        "end_of_record".toList]
        ++ ([(("DA".toList : Str), ("2,0".toList : Str))].map
            fun pd => pd.1 ++ (':' :: pd.2)))
      = some (some "t".toList,
          [(some "a.c".toList,
            [("SF".toList, ["a.c".toList]), ("DA".toList, ["1,2".toList])])]) :=
  trailing_block_discarded (by decide) (fun pd hpd => by
    rw [List.mem_singleton] at hpd
    subst hpd
    exact ⟨by decide, by decide, by decide, by decide, by decide, by decide⟩)

/-- C9 counterexample: an input ending in an unterminated record block loads
without any error and with the trailing block's entries absent from the
result — it is silently discarded, not rejected. -/
theorem unterminated_block_cex :
    loadStream ["SF:a.c".toList, "DA:1,1".toList] = some (none, []) := by
  decide

/-- C1 (amended): for every input `X` whose load holds at least one record,
serializing the loaded stream and re-parsing reproduces every record's exact
`(prefix, payload)` sequences, with the test name normalized to
`some (tn.getD '')`. -/
theorem round_trip_after_load {X : List Str}
    {S : Option Str × List (Option Str × RecordData)}
    (h : loadStream X = some S) (hne : S.2 ≠ []) :
    loadStream (saveStream S) = some (some (S.1.getD []), S.2) :=
  save_load (load_sound h) hne

theorem round_trip_after_load_witness :
    loadStream (saveStream (some "t".toList,
        [(some "a.c".toList,
          [("SF".toList, ["a.c".toList]), ("DA".toList, ["1,2".toList])])]))
      = some (some "t".toList,
          [(some "a.c".toList,
            [("SF".toList, ["a.c".toList]), ("DA".toList, ["1,2".toList])])]) :=
  round_trip_after_load
    (show loadStream ["TN:t".toList, "SF:a.c".toList, "DA:1,2".toList,
        "end_of_record".toList]
      = some (some "t".toList,
          [(some "a.c".toList,
            [("SF".toList, ["a.c".toList]), ("DA".toList, ["1,2".toList])])])
      from by decide)
    (by decide)

/-- C1 counterexample: a well-formed input with a `TN` header and zero
records loads fine, but serializing that stream and re-parsing raises (the
serializer's trailing blank line fails `split_entry`) — the round trip does
not hold for record-less streams. -/
theorem round_trip_zero_records_cex :
    loadStream ["TN:t".toList] = some (some "t".toList, []) ∧
    loadStream (saveStream (some "t".toList, [])) = none := by
  decide

theorem merge_da_correct_witness :
    ∃ lines qs, merge_da ["5,2".toList, "5,3".toList] = some lines ∧
      optMap split_da lines = some qs ∧
      (qs.map Prod.fst).Nodup ∧
      ∀ l ∈ ([(5, 2), (5, 3)] : List (Nat × Nat)).map Prod.fst,
        qs.countP (fun q => q.1 = l) = 1 ∧
        ∀ q ∈ qs, q.1 = l → q.2 = sumHits l [(5, 2), (5, 3)] :=
  merge_da_correct ["5,2".toList, "5,3".toList] [(5, 2), (5, 3)] (by decide)

theorem merge_brda_correct_witness :
    ∃ lines qs, merge_brda ["5,0,toggle,1".toList, "5,2,toggle,0".toList]
        = some lines ∧
      optMap split_brda lines = some qs ∧
      (qs.map brdaKey).Nodup ∧
      ∀ k ∈ ([⟨5, 0, "toggle".toList, 1⟩, ⟨5, 2, "toggle".toList, 0⟩]
          : List Brda).map brdaKey,
        qs.countP (fun q => brdaKey q = k) = 1 ∧
        ∀ q ∈ qs, brdaKey q = k →
          q.hit = sumHitsB k [⟨5, 0, "toggle".toList, 1⟩, ⟨5, 2, "toggle".toList, 0⟩] ∧
          q.block = maxBlockB k [⟨5, 0, "toggle".toList, 1⟩, ⟨5, 2, "toggle".toList, 0⟩] :=
  merge_brda_correct ["5,0,toggle,1".toList, "5,2,toggle,0".toList]
    [⟨5, 0, "toggle".toList, 1⟩, ⟨5, 2, "toggle".toList, 0⟩] (by decide)

/-- C8: the numeric-aware `BRDA` ordering zero-pads every embedded decimal
run to 20 digits before lexicographic comparison — so on one line
`toggle_1_0 < toggle_2_0 < toggle_10_1` — and every entry embedding a
decimal run of value at least `10^20` makes the sort fail. -/
theorem sort_brda_names_correct :
    sort_brda_names
        ["5,0,toggle_2_0,1".toList, "5,1,toggle_10_1,1".toList,
          "5,2,toggle_1_0,1".toList]
      = some ["5,2,toggle_1_0,1".toList, "5,0,toggle_2_0,1".toList,
          "5,1,toggle_10_1,1".toList] ∧
    ∀ (entries : List Str) (e : Str) (q : Brda) (r : Str),
      e ∈ entries → split_brda e = some q → r ∈ digitSplit q.name →
      r.all Char.isDigit = true → 10 ^ 20 ≤ digitsVal r →
      sort_brda_names entries = none :=
  ⟨by decide, fun entries e q r he hq hr hall hbig =>
    sort_brda_names_overflow he hq hr hall hbig⟩

theorem generate_new_lines_spec_witness :
    generate_new_lines_from [("DA".toList, ["10,0".toList])]
        [("DA".toList, ["10,3".toList])] "DA".toList
      = some (match alookup "DA".toList [("DA".toList, ["10,0".toList])] with
              | none => []
              | some fes => ["10,3".toList].filterMap (diffEntrySpec fes)) :=
  generate_new_lines_spec [("DA".toList, ["10,0".toList])]
    [("DA".toList, ["10,3".toList])] "DA".toList ["10,3".toList]
    (by decide) (by decide)
    (fun e he => by
      rw [List.mem_singleton] at he
      subst he
      exact ⟨("10".toList, true), by decide⟩)
    (fun fes hfes => by
      have hcomp : alookup "DA".toList [("DA".toList, ["10,0".toList])]
          = some ["10,0".toList] := by decide
      rw [hcomp] at hfes
      obtain rfl : ["10,0".toList] = fes := by injection hfes
      constructor
      · intro b hb
        rw [List.mem_singleton] at hb
        subst hb
        exact ⟨("10".toList, false), by decide⟩
      · intro e he b oc nc h1 h2 h3 _
        rw [List.mem_singleton] at he
        subst he
        have hb : b = "10,0".toList := by
          have hc : alookup (entryKey "10,3".toList)
              (dictOf entryKey ["10,0".toList]) = some "10,0".toList := by decide
          rw [hc] at h1
          exact (Option.some.inj h1).symm
        subst hb
        have hoc : oc = ("10".toList, false) := by
          have hc : coverage_line "10,0".toList
              = some ("10".toList, false) := by decide
          rw [hc] at h2
          exact (Option.some.inj h2).symm
        have hnc : nc = ("10".toList, true) := by
          have hc : coverage_line "10,3".toList
              = some ("10".toList, true) := by decide
          rw [hc] at h3
          exact (Option.some.inj h3).symm
        rw [hoc, hnc])

/-- C6 counterexample: a kept entry is not emitted verbatim: base `DA:10,0`
with other `DA:10,3` yields `DA:10,1` (the hit count is normalized to the
covered bit), not the byte-identical `DA:10,3`. -/
theorem diff_hit_not_verbatim_cex :
    generate_new_lines_from [("DA".toList, ["10,0".toList])]
        [("DA".toList, ["10,3".toList])] "DA".toList = some ["10,1".toList] ∧
    ("10,1".toList : Str) ≠ "10,3".toList := by
  decide

theorem generate_new_lines_mismatch_witness :
    generate_new_lines_from [("BRDA".toList, ["5,0,foo,0".toList])]
        [("BRDA".toList, ["5,1,bar,2".toList])] "BRDA".toList = none :=
  generate_new_lines_mismatch [("BRDA".toList, ["5,0,foo,0".toList])]
    [("BRDA".toList, ["5,1,bar,2".toList])] "BRDA".toList
    (show alookup "BRDA".toList [("BRDA".toList, ["5,0,foo,0".toList])]
      = some ["5,0,foo,0".toList] from by decide)
    (show alookup "BRDA".toList [("BRDA".toList, ["5,1,bar,2".toList])]
      = some ["5,1,bar,2".toList] from by decide)
    (show alookup "5".toList (dictOf entryKey ["5,0,foo,0".toList])
      = some "5,0,foo,0".toList from by decide)
    (show alookup "5".toList (dictOf entryKey ["5,1,bar,2".toList])
      = some "5,1,bar,2".toList from by decide)
    (show coverage_line "5,0,foo,0".toList = some ("5,0,foo".toList, false)
      from by decide)
    (show coverage_line "5,1,bar,2".toList = some ("5,1,bar".toList, true)
      from by decide)
    (by decide) (by decide)

/-- C7 counterexample: a key present in both records with non-identical
non-hit-count fields but an unchanged covered state is silently dropped —
no `StructuralMismatch` is raised (`BRDA:5,0,foo,1` vs `BRDA:5,1,bar,2`). -/
theorem diff_same_state_mismatch_cex :
    generate_new_lines_from [("BRDA".toList, ["5,0,foo,1".toList])]
        [("BRDA".toList, ["5,1,bar,2".toList])] "BRDA".toList = some [] ∧
    ("5,0,foo".toList : Str) ≠ "5,1,bar".toList := by
  decide

theorem merge_restores_aggregates_witness :
    ∃ out fin qs' ps',
      runCats mainCats []
          [("SF".toList, ["a.c".toList]),
           ("LF".toList, ["9".toList]),
           ("LH".toList, ["9".toList]),
           ("DA".toList, ["5,2".toList, "3,0".toList]),
           ("BRF".toList, ["9".toList]),
           ("BRH".toList, ["9".toList]),
           ("BRDA".toList, ["5,0,t0,1".toList, "5,1,t1,0".toList])]
        = some (out, fin) ∧
      optMap split_brda ((alookup "BRDA".toList fin).getD []) = some qs' ∧
      optMap split_da ((alookup "DA".toList fin).getD []) = some ps' ∧
      alookup "BRF".toList fin
        = some [natStr ((qs'.map brdaKey).dedup.length)] ∧
      alookup "BRH".toList fin
        = some [natStr (((qs'.filter fun q => decide (0 < q.hit)).map
            brdaKey).dedup.length)] ∧
      alookup "LF".toList fin = some [natStr ps'.length] ∧
      alookup "LH".toList fin
        = some [natStr ((ps'.filter fun q => decide (0 < q.2)).length)] ∧
      ("BRF".toList ++ (':' :: natStr ((qs'.map brdaKey).dedup.length))) ∈ out ∧
      ("BRH".toList ++ (':' :: natStr (((qs'.filter fun q =>
          decide (0 < q.hit)).map brdaKey).dedup.length))) ∈ out ∧
      ("LF".toList ++ (':' :: natStr ps'.length)) ∈ out ∧
      ("LH".toList ++ (':' :: natStr ((ps'.filter fun q =>
          decide (0 < q.2)).length))) ∈ out :=
  merge_restores_aggregates _ [⟨5, 0, "t0".toList, 1⟩, ⟨5, 1, "t1".toList, 0⟩]
    [(5, 2), (3, 0)] (by decide) (by decide) (by decide) (by decide) (by decide)
    (by decide) (by decide) (by decide) (by decide)

/-! ## Loading with entry handlers (`Stream.handlers`, `Record.add`)

`Record.add` runs the handlers installed for a category on each raw payload
and appends every processed value (`_run_handlers` / `_add_entry`).  The
table below models at most one handler per category, always returning a list
of payloads (a `str` return is the singleton list; `None`-returning handlers
and `RemoveRecord` are out of scope).  Crucially, the compaction key of
`Stream.load` is `record.source_file`, which `_get_record_lines` sets from
the first raw `SF` line via `_update_stats` before any handler runs, and
`_add_entry`'s second `_update_stats` call never overrides an already-set
`source_file` — so deduplication is keyed by the pre-handler path. -/

/-- `Record._run_handlers` for a table with at most one handler per
category; with no handler installed the payload passes through. -/
def runHandlers (hs : Str → Option (Str → List Str)) (p d : Str) : List Str :=
  match hs p with
  | none => [d]
  | some f => f d

/-- `Record._add_entry` for one processed value: append it to its category
and re-run the `_update_stats` validation on the processed payload. -/
def addProcessed (p : Str) (acc : Option RecordData) (e : Str) :
    Option RecordData :=
  acc.bind fun r => if validateEntry p e then some (addEntry r p e) else none

/-- `Record.add` over one block's lines with handlers installed. -/
def buildRecordH (hs : Str → Option (Str → List Str))
    (lines : List (Str × Str)) : Option RecordData :=
  lines.foldl
    (fun acc pd => (runHandlers hs pd.1 pd.2).foldl (addProcessed pd.1) acc)
    (some [])

/-- One block's `(prefix, payload)` pairs after handler processing. -/
def processedLines (hs : Str → Option (Str → List Str))
    (lines : List (Str × Str)) : List (Str × Str) :=
  lines.flatMap fun pd => (runHandlers hs pd.1 pd.2).map fun e => (pd.1, e)

/-- `Stream.load` with entry handlers installed: parse (handler-free), build
each block's record through the handlers, then compact on the parse-time
source-file key. -/
def loadStreamH (hs : Str → Option (Str → List Str)) (input : List Str) :
    Option (Option Str × List (Option Str × RecordData)) :=
  (getRecordLines input).bind fun bt =>
  (optMap (fun b => (buildRecordH hs b.2).map fun r => (b.1, r)) bt.1).map
    fun krs => (bt.2, krs.foldl (fun recs kr => insertRecord recs kr.1 kr.2) [])

theorem foldl_addProcessed_some {p : Str} :
    ∀ {es : List Str} {acc : Option RecordData} {r : RecordData},
      es.foldl (addProcessed p) acc = some r →
      ∃ r0, acc = some r0 ∧ r = es.foldl (fun a e => addEntry a p e) r0 := by
  intro es
  induction es with
  | nil => intro acc r h; exact ⟨r, h, rfl⟩
  | cons e t ih =>
    intro acc r h
    rw [List.foldl_cons] at h
    obtain ⟨r1, h1, hr⟩ := ih h
    rw [addProcessed] at h1
    cases hacc : acc with
    | none => rw [hacc] at h1; simp at h1
    | some r0 =>
      rw [hacc, Option.some_bind] at h1
      by_cases hv : validateEntry p e = true
      · rw [if_pos hv] at h1
        injection h1 with h1'
        refine ⟨r0, rfl, ?_⟩
        rw [List.foldl_cons, h1']
        exact hr
      · rw [if_neg hv] at h1; simp at h1

theorem buildRecordH_go {hs : Str → Option (Str → List Str)} :
    ∀ {lines : List (Str × Str)} {acc : Option RecordData} {r : RecordData},
      lines.foldl
          (fun acc pd => (runHandlers hs pd.1 pd.2).foldl (addProcessed pd.1) acc)
          acc = some r →
      ∃ r0, acc = some r0 ∧
        r = (processedLines hs lines).foldl
          (fun a pd => addEntry a pd.1 pd.2) r0 := by
  intro lines
  induction lines with
  | nil => intro acc r h; exact ⟨r, h, by simp [processedLines]⟩
  | cons pd t ih =>
    intro acc r h
    rw [List.foldl_cons] at h
    obtain ⟨r1, h1, hr⟩ := ih h
    obtain ⟨r0, h0, hr1⟩ := foldl_addProcessed_some h1
    refine ⟨r0, h0, ?_⟩
    rw [show processedLines hs (pd :: t)
        = ((runHandlers hs pd.1 pd.2).map fun e => (pd.1, e))
          ++ processedLines hs t from rfl]
    rw [List.foldl_append, List.foldl_map]
    have hin : (runHandlers hs pd.1 pd.2).foldl
        (fun a e => addEntry a (pd.1, e).1 (pd.1, e).2) r0 = r1 := hr1.symm
    rw [hin]
    exact hr

theorem buildRecordH_some {hs : Str → Option (Str → List Str)}
    {lines : List (Str × Str)} {r : RecordData}
    (h : buildRecordH hs lines = some r) :
    r = buildRecord (processedLines hs lines) := by
  rw [buildRecordH] at h
  obtain ⟨r0, h0, hr⟩ := buildRecordH_go h
  injection h0 with h0'
  rw [hr, ← h0']
  rfl

/-- The duplicate-compaction fold over already-built records. -/
def mergeFoldR (rs : List RecordData) (acc : Option RecordData) :
    Option RecordData :=
  rs.foldl (fun d r =>
    match d with
    | none => some r
    | some d' => some (extendRecord d' r)) acc

theorem mergeFoldR_map_buildRecord (bss : List (List (Str × Str)))
    (acc : Option RecordData) :
    mergeFoldR (bss.map buildRecord) acc = mergeFold bss acc := by
  rw [mergeFoldR, mergeFold, List.foldl_map]

theorem alookup_foldl_insert_pairs :
    ∀ (krs : List (Option Str × RecordData))
      (acc : List (Option Str × RecordData)) (k : Option Str),
      alookup k (krs.foldl (fun recs kr => insertRecord recs kr.1 kr.2) acc)
        = mergeFoldR ((krs.filter fun kr => kr.1 = k).map Prod.snd)
            (alookup k acc) := by
  intro krs
  induction krs with
  | nil => intro acc k; rfl
  | cons b t ih =>
    intro acc k
    rw [List.foldl_cons, ih]
    by_cases hb : b.1 = k
    · rw [List.filter_cons_of_pos (by simp [hb]), List.map_cons]
      rw [hb, alookup_insertRecord_self]
      rw [show mergeFoldR (b.2 :: (t.filter fun x => x.1 = k).map Prod.snd)
            (alookup k acc)
          = mergeFoldR ((t.filter fun x => x.1 = k).map Prod.snd)
              (match alookup k acc with
               | none => some b.2
               | some d => some (extendRecord d b.2)) from rfl]
      cases alookup k acc <;> rfl
    · rw [List.filter_cons_of_neg (by simp [hb]),
        alookup_insertRecord_ne acc b.2 (fun he => hb he.symm)]

theorem foldl_insert_pairs_nodup :
    ∀ (krs : List (Option Str × RecordData))
      (acc : List (Option Str × RecordData)),
      (acc.map Prod.fst).Nodup →
      ((krs.foldl (fun recs kr => insertRecord recs kr.1 kr.2) acc).map
        Prod.fst).Nodup := by
  intro krs
  induction krs with
  | nil => intro acc h; exact h
  | cons b t ih =>
    intro acc h
    rw [List.foldl_cons]
    refine ih _ ?_
    rw [insertRecord_keys]
    by_cases hm : b.1 ∈ acc.map Prod.fst
    · rw [if_pos hm]; exact h
    · rw [if_neg hm, List.nodup_append]
      exact ⟨h, List.nodup_singleton _,
        fun a ha hb1 => hm (List.mem_singleton.mp hb1 ▸ ha)⟩

theorem optMap_some_eq_map {α γ : Type} {f : α → Option γ} {g : α → γ} :
    ∀ {xs : List α} {ys : List γ}, optMap f xs = some ys →
      (∀ x ∈ xs, ∀ y, f x = some y → y = g x) → ys = xs.map g := by
  intro xs
  induction xs with
  | nil =>
    intro ys h _
    rw [optMap_nil] at h
    injection h with h'
    rw [← h']
    rfl
  | cons x t ih =>
    intro ys h hc
    rcases optMap_cons_some.mp h with ⟨y, ys', hy, ht, rfl⟩
    rw [List.map_cons, hc x (List.mem_cons_self _ _) y hy,
      ih ht (fun a ha => hc a (List.mem_cons_of_mem _ ha))]

theorem load_records_char_witness :
    (let S2 : List (Option Str × RecordData) :=
        [(some "a.c".toList,
          [("SF".toList, ["a.c".toList, "a.c".toList]),
           ("DA".toList, ["1,1".toList, "2,0".toList])])];
      let blocks : List (Option Str × List (Str × Str)) :=
        [(some "a.c".toList,
          [("SF".toList, "a.c".toList), ("DA".toList, "1,1".toList)]),
         (some "a.c".toList,
          [("SF".toList, "a.c".toList), ("DA".toList, "2,0".toList)])];
      (S2.map Prod.fst).Nodup ∧
      (∀ k : Option Str,
        (alookup k S2).isSome = true ↔ k ∈ blocks.map Prod.fst) ∧
      ∀ (k : Option Str) (d : RecordData), alookup k S2 = some d →
        ∀ p : Str, alookup p d
          = optOfList (linesFor p
              ((blocks.filter fun b => b.1 = k).flatMap Prod.snd))) := by
  exact load_records_char
    (show loadStream ["TN:t".toList, "SF:a.c".toList, "DA:1,1".toList,
        "end_of_record".toList, "SF:a.c".toList, "DA:2,0".toList,
        "end_of_record".toList]
      = some (some "t".toList,
          [(some "a.c".toList,
            [("SF".toList, ["a.c".toList, "a.c".toList]),
             ("DA".toList, ["1,1".toList, "2,0".toList])])]) from by decide)
    (show getRecordLines ["TN:t".toList, "SF:a.c".toList, "DA:1,1".toList,
        "end_of_record".toList, "SF:a.c".toList, "DA:2,0".toList,
        "end_of_record".toList]
      = some ([(some "a.c".toList,
            [("SF".toList, "a.c".toList), ("DA".toList, "1,1".toList)]),
           (some "a.c".toList,
            [("SF".toList, "a.c".toList), ("DA".toList, "2,0".toList)])],
          some "t".toList) from by decide)

/-- C10 (amended): after every load the records mapping holds at most one
record per source-file path, but the deduplication key is the pre-handler
path: the first raw `SF` payload of the block, recorded by `_update_stats`
during parsing before any handler runs.  The loaded record keys are pairwise
distinct, a key is present exactly when some parsed block carries it as its
raw source path, no error is raised, and the record for a key holds,
category by category, the concatenation of all its blocks' processed payload
lines in block order.  Blocks whose paths agree only after an SF-rewriting
handler are not merged. -/
theorem load_records_by_raw_path {hs : Str → Option (Str → List Str)}
    {X : List Str} {S : Option Str × List (Option Str × RecordData)}
    {blocks : List (Option Str × List (Str × Str))} {tn : Option Str}
    (h : loadStreamH hs X = some S) (hb : getRecordLines X = some (blocks, tn)) :
    (S.2.map Prod.fst).Nodup ∧
    (∀ k : Option Str,
      (alookup k S.2).isSome = true ↔ k ∈ blocks.map Prod.fst) ∧
    ∀ (k : Option Str) (d : RecordData), alookup k S.2 = some d →
      ∀ p : Str, alookup p d
        = optOfList (linesFor p
            ((blocks.filter fun b => b.1 = k).flatMap
              fun b => processedLines hs b.2)) := by
  rw [loadStreamH, hb, Option.some_bind] at h
  cases hkrs : optMap (fun b => (buildRecordH hs b.2).map fun r => (b.1, r))
      blocks with
  | none => rw [hkrs] at h; simp at h
  | some krs =>
    rw [hkrs] at h
    simp only [Option.map] at h
    injection h with h'
    have hS2 : S.2 = krs.foldl (fun recs kr => insertRecord recs kr.1 kr.2) [] := by
      rw [← h']
    have hkrseq : krs = blocks.map fun b =>
        (b.1, buildRecord (processedLines hs b.2)) := by
      refine optMap_some_eq_map hkrs ?_
      intro b _ y hy
      cases hbr : buildRecordH hs b.2 with
      | none => rw [hbr] at hy; simp at hy
      | some r =>
        rw [hbr] at hy
        simp only [Option.map] at hy
        injection hy with hy'
        rw [← hy', buildRecordH_some hbr]
    have hch : ∀ k : Option Str, alookup k S.2
        = mergeFold ((blocks.filter fun b => b.1 = k).map
            fun b => processedLines hs b.2) none := by
      intro k
      rw [hS2, alookup_foldl_insert_pairs, hkrseq]
      rw [show alookup k ([] : List (Option Str × RecordData)) = none from rfl]
      rw [List.filter_map, List.map_map]
      show mergeFoldR ((blocks.filter fun b => decide (b.1 = k)).map
          fun b => buildRecord (processedLines hs b.2)) none
        = mergeFold ((blocks.filter fun b => decide (b.1 = k)).map
          fun b => processedLines hs b.2) none
      rw [show (((blocks.filter fun b => decide (b.1 = k)).map
            fun b => buildRecord (processedLines hs b.2)))
          = ((blocks.filter fun b => decide (b.1 = k)).map
              fun b => processedLines hs b.2).map buildRecord from by
        rw [List.map_map]; rfl]
      rw [mergeFoldR_map_buildRecord]
    refine ⟨?_, fun k => ?_, fun k d hd p => ?_⟩
    · rw [hS2]
      exact foldl_insert_pairs_nodup krs [] (by simp)
    · rw [hch k]
      cases hf : blocks.filter (fun b => b.1 = k) with
      | nil =>
        have hnm : k ∉ blocks.map Prod.fst := by
          intro hm
          rcases List.mem_map.mp hm with ⟨b, hbm, hbk⟩
          have : b ∈ blocks.filter (fun x => x.1 = k) :=
            List.mem_filter.mpr ⟨hbm, by simp [hbk]⟩
          rw [hf] at this
          simp at this
        simp [mergeFold, hnm]
      | cons m rest =>
        have hm : k ∈ blocks.map Prod.fst := by
          have : m ∈ blocks.filter (fun x => x.1 = k) := by rw [hf]; simp
          rcases List.mem_filter.mp this with ⟨hmm, hmk⟩
          exact List.mem_map.mpr ⟨m, hmm, by simpa using hmk⟩
        obtain ⟨d', hd'⟩ := mergeFold_isSome
          (rest.map fun b => processedLines hs b.2)
          (buildRecord (processedLines hs m.2))
        rw [show mergeFold ((m :: rest).map fun b => processedLines hs b.2) none
            = mergeFold (rest.map fun b => processedLines hs b.2)
                (some (buildRecord (processedLines hs m.2))) from rfl]
        simp [hd', hm]
    · rw [hch k] at hd
      cases hf : blocks.filter (fun b => b.1 = k) with
      | nil =>
        rw [hf] at hd
        simp [mergeFold] at hd
      | cons m rest =>
        rw [hf] at hd
        rw [show mergeFold ((m :: rest).map fun b => processedLines hs b.2) none
            = mergeFold (rest.map fun b => processedLines hs b.2)
                (some (buildRecord (processedLines hs m.2))) from rfl] at hd
        obtain ⟨d', hm', hq⟩ := mergeFold_alookup
          (rest.map fun b => processedLines hs b.2)
          (buildRecord (processedLines hs m.2)) (processedLines hs m.2)
          (fun q => buildRecord_alookup q _)
        rw [hm'] at hd
        injection hd with hd'
        subst hd'
        rw [hq p, List.flatMap_cons]
        congr 2
        rw [List.flatMap_map]

/-- C10 counterexample: with an `SF`-rewriting handler installed, two blocks
whose post-handler source paths are both `x.c` but whose raw paths differ
load as two separate records — deduplication is keyed by the raw,
pre-handler path, so post-handler path equality does not trigger merging. -/
theorem load_post_handler_key_cex :
    loadStreamH
        (fun p => if p = "SF".toList then some (fun d => [d.drop 2]) else none)
        ["TN:t".toList, "SF:a/x.c".toList, "DA:1,1".toList,
          "end_of_record".toList, "SF:b/x.c".toList, "DA:2,0".toList,
          "end_of_record".toList]
      = some (some "t".toList,
          [(some "a/x.c".toList,
            [("SF".toList, ["x.c".toList]), ("DA".toList, ["1,1".toList])]),
           (some "b/x.c".toList,
            [("SF".toList, ["x.c".toList]), ("DA".toList, ["2,0".toList])])]) ∧
    (some "a/x.c".toList : Option Str) ≠ some "b/x.c".toList := by
  decide

theorem load_records_by_raw_path_witness :
    (let hs0 : Str → Option (Str → List Str) :=
        fun p => if p = "SF".toList then some (fun d => [d.drop 2]) else none;
      let S2 : List (Option Str × RecordData) :=
        [(some "a/x.c".toList,
          [("SF".toList, ["x.c".toList, "x.c".toList]),
           ("DA".toList, ["1,1".toList, "2,0".toList])])];
      let blocks : List (Option Str × List (Str × Str)) :=
        [(some "a/x.c".toList,
          [("SF".toList, "a/x.c".toList), ("DA".toList, "1,1".toList)]),
         (some "a/x.c".toList,
          [("SF".toList, "a/x.c".toList), ("DA".toList, "2,0".toList)])];
      (S2.map Prod.fst).Nodup ∧
      (∀ k : Option Str,
        (alookup k S2).isSome = true ↔ k ∈ blocks.map Prod.fst) ∧
      ∀ (k : Option Str) (d : RecordData), alookup k S2 = some d →
        ∀ p : Str, alookup p d
          = optOfList (linesFor p
              ((blocks.filter fun b => b.1 = k).flatMap
                fun b => processedLines hs0 b.2))) := by
  exact load_records_by_raw_path
    (show loadStreamH
        (fun p => if p = "SF".toList then some (fun d => [d.drop 2]) else none)
        ["TN:t".toList, "SF:a/x.c".toList, "DA:1,1".toList,
          "end_of_record".toList, "SF:a/x.c".toList, "DA:2,0".toList,
          "end_of_record".toList]
      = some (some "t".toList,
          [(some "a/x.c".toList,
            [("SF".toList, ["x.c".toList, "x.c".toList]),
             ("DA".toList, ["1,1".toList, "2,0".toList])])]) from by decide)
    (show getRecordLines
        ["TN:t".toList, "SF:a/x.c".toList, "DA:1,1".toList,
          "end_of_record".toList, "SF:a/x.c".toList, "DA:2,0".toList,
          "end_of_record".toList]
      = some ([(some "a/x.c".toList,
            [("SF".toList, "a/x.c".toList), ("DA".toList, "1,1".toList)]),
           (some "a/x.c".toList,
            [("SF".toList, "a/x.c".toList), ("DA".toList, "2,0".toList)])],
          some "t".toList) from by decide)

end InfoProcess
